import Mathlib

/-!
# go_convert: the Field tree, `Convert`, `Get`, the accessors and the iterations

A shallow embedding of `template.go`.

* An `interface{}` argument is a `GoValue`; the `reflect.Value` that `Convert`
  switches on (after its single pointer dereference) is a `GoVal`. A `GoValue`
  is a finite tree: an input that reaches itself through its pointers has
  none.
* A non-nil `*Field` whose tree holds no nil pointer is modelled by the `Field`
  it points to (trees are immutable after construction, so pointer identity is
  value identity); this is the receiver of `Get`, of the accessors and of the
  iterations. A `*Field` in general, nil or with nil pointers among its
  descendants, is a `FieldPtr`. `Convert` returns one only when a nil `*Field`,
  or a Field whose tree holds one, was passed in, and reports it by a result of
  its own (`okNil`, `okNilInside`).
* A Go `map[string]*Field` is an association list read with `mapGet` and written
  with `mapSet`; a source map is the list of its entries in the order in which
  `reflect`'s `MapRange` happens to yield them.
* A run-time panic is an explicit outcome (`ConvertResult.panic`, `Outcome.panic`).
* `reflect.Value.Bytes` follows its documentation (Go 1.19 and later): it panics
  unless the value is a slice of bytes or an addressable array of bytes. A value
  is addressable in `Convert` only when it was reached through the pointer
  dereference.
* `int` is 64 bits wide (`strconv.Atoi`).
* An accessor returns `Except GoError α`; the zero value Go returns next to an
  error is dropped.
* A `float64` is its IEEE-754 bit pattern. `float64(n)` rounds to nearest, ties
  to even; `int64(x)` and `uint64(x)` truncate toward zero, and where the target
  cannot represent the value the result is the implementation's, an argument
  of the accessor. `strconv.ParseFloat`, `strconv.FormatFloat`, the `%v` verb
  of `fmt` and `json.Unmarshal` are arguments as well. Which value
  `json.Unmarshal` stores for the encoding that `json.Marshal` writes is stated
  by `JsonImage`, from the documentation of `encoding/json`.
* A callback of `MapRange` or `ArrayRange` is a function that threads a state;
  a run records the calls it made, and `Threads` says that a record is one of
  calls of the callback, made one after the other. The order in which `range`
  yields the entries of a map is an argument of `MapRange`.
-/

namespace GoConvert

/-! ## Data model -/

/-- Go `float64`, kept as its IEEE-754 bit pattern. -/
structure Float64 where
  bits : Nat
  deriving DecidableEq, Repr

/-- Dynamic content of `Field.Value` (an `interface{}`). -/
inductive Payload
  | absent
  | int64 (i : Int)
  | uint64 (n : Nat)
  | float64 (x : Float64)
  | string (s : String)
  | bool (b : Bool)
  | bytes (bs : List (Fin 256))
  | other (typ : String)
  deriving DecidableEq, Repr

/-- The struct `Field`; `typ` is the Go field `Type`. -/
structure Field where
  typ : String
  Value : Payload
  ArrayValue : List Field
  MapValue : List (String × Field)
  err : String

/-- Go `newNilField`. -/
def newNilField : Field :=
  { typ := "nil", Value := .absent, ArrayValue := [], MapValue := [], err := "" }

/-- Go `newErrField`. -/
def newErrField (err : String) : Field :=
  { typ := "err", Value := .absent, ArrayValue := [], MapValue := [], err := err }

/-- A value of type `*Field`: the nil pointer, or a pointer to a `Field` whose
children are such values again. -/
inductive FieldPtr
  | nilPtr
  | node (typ : String) (Value : Payload) (ArrayValue : List FieldPtr)
      (MapValue : List (String × FieldPtr)) (err : String)

mutual
/-- The pointer to a `Field`. -/
def Field.toPtr : Field → FieldPtr
  | ⟨typ, v, arr, m, err⟩ => .node typ v (fieldsToPtr arr) (entriesToPtr m) err
/-- The pointers to the Fields of a list. -/
def fieldsToPtr : List Field → List FieldPtr
  | [] => []
  | f :: fs => f.toPtr :: fieldsToPtr fs
/-- The pointers to the values of a map. -/
def entriesToPtr : List (String × Field) → List (String × FieldPtr)
  | [] => []
  | (k, f) :: rest => (k, f.toPtr) :: entriesToPtr rest
end

/-- Read of a Go map: `v, ok := m[k]`. -/
def mapGet {β : Type} : List (String × β) → String → Option β
  | [], _ => none
  | (k', v) :: rest, k => if k' = k then some v else mapGet rest k

/-- Write of a Go map: `m[k] = v` (an existing key is overwritten). -/
def mapSet {β : Type} : List (String × β) → String → β → List (String × β)
  | [], k, v => [(k, v)]
  | (k', v') :: rest, k, v =>
    if k' = k then (k, v) :: rest else (k', v') :: mapSet rest k v

/-- Signed integer kinds handled by `Convert`. -/
inductive IntKind
  | int | int8 | int16 | int32 | int64
  deriving DecidableEq, Repr

/-- Unsigned integer kinds handled by `Convert` (`uintptr` is not among them). -/
inductive UintKind
  | uint | uint8 | uint16 | uint32 | uint64
  deriving DecidableEq, Repr

/-- Floating-point kinds handled by `Convert`. -/
inductive FloatKind
  | float32 | float64
  deriving DecidableEq, Repr

/-- Kinds that reach the `default` branch of `Convert`. `invalid` is the kind of
the zero `reflect.Value`, `ptr` the kind of a pointer left after the one
dereference, `interface` the kind of the pointee of a pointer to an interface. -/
inductive OtherKind
  | invalid | uintptr | complex64 | complex128 | chan | func | interface | ptr
  | unsafePointer
  deriving DecidableEq, Repr

/-- Width in bits of a signed integer kind. -/
def IntKind.bits : IntKind → Nat
  | .int => 64 | .int8 => 8 | .int16 => 16 | .int32 => 32 | .int64 => 64

/-- Width in bits of an unsigned integer kind. -/
def UintKind.bits : UintKind → Nat
  | .uint => 64 | .uint8 => 8 | .uint16 => 16 | .uint32 => 32 | .uint64 => 64

/-- A map key as `reflect` sees it: of kind String, or of another kind whose
static type prints as `typ`. -/
inductive GoKey
  | string (s : String)
  | int (typ : String) (i : Int)
  | uint (typ : String) (n : Nat)
  | bool (b : Bool)
  deriving DecidableEq, Repr

/-- Go `reflect.Value.String`: the text for kind String, otherwise the
placeholder `<T Value>` with `T` the type of the value. -/
def GoKey.String : GoKey → String
  | .string s => s
  | .int typ _ => "<" ++ typ ++ " Value>"
  | .uint typ _ => "<" ++ typ ++ " Value>"
  | .bool _ => "<bool Value>"

/-- Declaration of one struct field: its name, `Tag.Get("json")`, and whether
`CanInterface()` holds for it (the field is exported). -/
structure StructField where
  Name : String
  jsonTag : String
  exported : Bool
  deriving DecidableEq, Repr

mutual
/-- An argument of type `interface{}`. -/
inductive GoValue
  /-- the nil interface -/
  | nil
  /-- a non-nil `*Field` whose tree holds no nil pointer -/
  | fieldPtr (f : Field)
  /-- a nil pointer of type `*Field` -/
  | nilFieldPtr
  /-- a non-nil `*Field` whose tree holds a nil pointer -/
  | fieldPtrNilInside (t : FieldPtr)
  /-- a `Field` passed by value, whose tree holds no nil pointer -/
  | field (f : Field)
  /-- a `Field` passed by value whose tree holds a nil pointer -/
  | fieldNilInside (t : FieldPtr)
  /-- a nil pointer of a type other than `*Field` -/
  | nilPointer
  /-- a non-nil pointer to `elem` (of a type other than `*Field`) -/
  | pointer (elem : GoVal)
  /-- a value that is not a pointer -/
  | direct (val : GoVal)
/-- What `reflect` sees once the pointer, if any, is dereferenced. -/
inductive GoVal
  | int (k : IntKind) (i : Int)
  | uint (k : UintKind) (n : Nat)
  | float (k : FloatKind) (x : Float64)
  | string (s : String)
  | bool (b : Bool)
  /-- slice (`isArray = false`) or array whose element kind is Uint8 -/
  | bytes (isArray : Bool) (bs : List (Fin 256))
  /-- slice or array of any other element kind -/
  | seq (xs : List GoValue)
  | map (entries : List (GoKey × GoValue))
  /-- a struct other than `Field`, fields in declaration order -/
  | struct (fields : List (StructField × GoValue))
  | other (k : OtherKind)
end

/-- What a call of `Convert` does. `ok f` is `return f, nil` with `f` a tree
that holds no nil `*Field`; `okNil` is `return nil, nil`, the pointer returned
being nil; `okNilInside t` is `return t, nil` with `t` not nil and a nil
`*Field` somewhere in its tree; `error f st` is `return f, err` where `err` is
the unsupported-type error formatted from the offending argument `st`; `panic`
is a run-time panic. -/
inductive ConvertResult
  | ok (f : Field)
  | okNil
  | okNilInside (t : FieldPtr)
  | error (f : Field) (st : GoValue)
  | panic

/-- Whether `Convert` returned a nil error. -/
def ConvertResult.succeeded : ConvertResult → Bool
  | .ok _ => true
  | .okNil => true
  | .okNilInside _ => true
  | _ => false

/-- The `*Field` that `Convert` returned, when the error it returned is nil. -/
def ConvertResult.pointer : ConvertResult → Option FieldPtr
  | .ok f => some f.toPtr
  | .okNil => some .nilPtr
  | .okNilInside t => some t
  | _ => none

/-- A `*Field` that `Convert` returned and a loop stores as a child: a pointer
to a tree that holds no nil `*Field`, the nil pointer, or a pointer to a tree
that holds one. -/
inductive Child
  | tree (f : Field)
  | nilPtr
  | holdsNil (t : FieldPtr)

/-- The child as a `*Field`. -/
def Child.toPtr : Child → FieldPtr
  | .tree f => f.toPtr
  | .nilPtr => .nilPtr
  | .holdsNil t => t

/-- The entries as children that are trees. -/
def treeEntries (m : List (String × Field)) : List (String × Child) :=
  m.map (fun kv => (kv.1, Child.tree kv.2))

/-- The children as Fields, when none of them is nil or holds a nil `*Field`. -/
def allTrees : List Child → Option (List Field)
  | [] => some []
  | .tree f :: cs =>
    match allTrees cs with
    | some fs => some (f :: fs)
    | none => none
  | _ :: _ => none

/-- The entries as Fields, when none of them is nil or holds a nil `*Field`. -/
def allTreeEntries : List (String × Child) → Option (List (String × Field))
  | [] => some []
  | (k, .tree f) :: cs =>
    match allTreeEntries cs with
    | some m => some ((k, f) :: m)
    | none => none
  | _ :: _ => none

/-- State of one of the three loops of `Convert` when it is left. -/
inductive LoopResult (α : Type)
  | done (a : α)
  | failed (st : GoValue)
  | panicked

/-- Go `reflect.Value.Bytes`: panics on an array of bytes that is not addressable. -/
def reflectBytes (addressable isArray : Bool) (bs : List (Fin 256)) :
    Option (List (Fin 256)) :=
  if isArray && !addressable then none else some bs

/-- Key chosen for a struct field in `Convert`. -/
def StructField.publicName (sf : StructField) : String :=
  if sf.jsonTag ≠ "" then sf.jsonTag else sf.Name

mutual
/-- Go `Convert`. -/
def Convert : GoValue → ConvertResult
  | .nil => .ok newNilField
  | .fieldPtr f => .ok f
  | .nilFieldPtr => .okNil
  | .fieldPtrNilInside t => .okNilInside t
  | .field f => .ok f
  | .fieldNilInside t => .okNilInside t
  | .nilPointer => .error newNilField .nilPointer
  | .pointer elem => convertKind (.pointer elem) true elem
  | .direct val => convertKind (.direct val) false val
/-- The `switch val.Kind()` of `Convert`; `st` is the original argument. -/
def convertKind (st : GoValue) (addressable : Bool) : GoVal → ConvertResult
  | .int _ i =>
    .ok { typ := "int", Value := .int64 i, ArrayValue := [], MapValue := [], err := "" }
  | .uint _ n =>
    .ok { typ := "uint", Value := .uint64 n, ArrayValue := [], MapValue := [], err := "" }
  | .float _ x =>
    .ok { typ := "float", Value := .float64 x, ArrayValue := [], MapValue := [], err := "" }
  | .string s =>
    .ok { typ := "string", Value := .string s, ArrayValue := [], MapValue := [], err := "" }
  | .bool b =>
    .ok { typ := "bool", Value := .bool b, ArrayValue := [], MapValue := [], err := "" }
  | .bytes isArray bs =>
    match reflectBytes addressable isArray bs with
    | some b =>
      .ok { typ := "[]byte", Value := .bytes b, ArrayValue := [], MapValue := [], err := "" }
    | none => .panic
  | .seq xs =>
    match convertElems xs with
    | .done cs =>
      match allTrees cs with
      | some fs =>
        .ok { typ := "array", Value := .absent, ArrayValue := fs, MapValue := [], err := "" }
      | none => .okNilInside (.node "array" .absent (cs.map Child.toPtr) [] "")
    | .failed e => .error newNilField e
    | .panicked => .panic
  | .map entries =>
    match convertEntries entries [] with
    | .done cs =>
      match allTreeEntries cs with
      | some m =>
        .ok { typ := "map", Value := .absent, ArrayValue := [], MapValue := m, err := "" }
      | none =>
        .okNilInside (.node "map" .absent [] (cs.map (fun kc => (kc.1, kc.2.toPtr))) "")
    | .failed e => .error newNilField e
    | .panicked => .panic
  | .struct fields =>
    match convertFields fields [] with
    | .done cs =>
      match allTreeEntries cs with
      | some m =>
        .ok { typ := "map", Value := .absent, ArrayValue := [], MapValue := m, err := "" }
      | none =>
        .okNilInside (.node "map" .absent [] (cs.map (fun kc => (kc.1, kc.2.toPtr))) "")
    | .failed e => .error newNilField e
    | .panicked => .panic
  | .other _ => .error newNilField st
/-- The loop `for i := 0; i < num; i++` over the elements of a sequence; the
result is `field.ArrayValue`. -/
def convertElems : List GoValue → LoopResult (List Child)
  | [] => .done []
  | x :: xs =>
    match Convert x with
    | .ok f =>
      match convertElems xs with
      | .done cs => .done (.tree f :: cs)
      | .failed e => .failed e
      | .panicked => .panicked
    | .okNil =>
      match convertElems xs with
      | .done cs => .done (.nilPtr :: cs)
      | .failed e => .failed e
      | .panicked => .panicked
    | .okNilInside t =>
      match convertElems xs with
      | .done cs => .done (.holdsNil t :: cs)
      | .failed e => .failed e
      | .panicked => .panicked
    | .error _ e => .failed e
    | .panic => .panicked
/-- The loop `for list.Next()` over the entries of a map; `acc` is `field.MapValue`. -/
def convertEntries : List (GoKey × GoValue) → List (String × Child) →
    LoopResult (List (String × Child))
  | [], acc => .done acc
  | (k, v) :: rest, acc =>
    match Convert v with
    | .ok f => convertEntries rest (mapSet acc k.String (.tree f))
    | .okNil => convertEntries rest (mapSet acc k.String .nilPtr)
    | .okNilInside t => convertEntries rest (mapSet acc k.String (.holdsNil t))
    | .error _ e => .failed e
    | .panic => .panicked
/-- The loop over the fields of a struct; `acc` is `field.MapValue`. -/
def convertFields : List (StructField × GoValue) → List (String × Child) →
    LoopResult (List (String × Child))
  | [], acc => .done acc
  | (sf, v) :: rest, acc =>
    if sf.exported then
      match Convert v with
      | .ok f => convertFields rest (mapSet acc sf.publicName (.tree f))
      | .okNil => convertFields rest (mapSet acc sf.publicName .nilPtr)
      | .okNilInside t => convertFields rest (mapSet acc sf.publicName (.holdsNil t))
      | .error _ e => .failed e
      | .panic => .panicked
    else convertFields rest acc
end

/-! ## Navigation -/

/-- Result of a call that either returns or panics at run time. -/
inductive Outcome (α : Type)
  | ret (a : α)
  | panic

/-- Go `strings.Join`. -/
def Join : List String → String → String
  | [], _ => ""
  | [a], _ => a
  | a :: b :: rest, sep => a ++ sep ++ Join (b :: rest) sep

/-- Value of a run of decimal digits, `none` when a character is not a digit. -/
def digitsValue : List Char → Nat → Option Nat
  | [], acc => some acc
  | c :: cs, acc =>
    if 48 ≤ c.toNat ∧ c.toNat ≤ 57 then digitsValue cs (acc * 10 + (c.toNat - 48))
    else none

/-- Go `strconv.Atoi` for a 64-bit `int`: an optional sign, then one or more
decimal digits, the value within the range of `int`; `none` is a non-nil error. -/
def Atoi (s : String) : Option Int :=
  match s.toList with
  | [] => none
  | c :: cs =>
    let ds := if c = '-' ∨ c = '+' then cs else c :: cs
    if ds = [] then none
    else
      match digitsValue ds 0 with
      | none => none
      | some n =>
        if c = '-' then (if n ≤ 2 ^ 63 then some (-(n : Int)) else none)
        else (if n < 2 ^ 63 then some (n : Int) else none)

/-- Go `(*Field).Error`; `none` is the nil error. -/
def Field.Error (f : Field) : Option String :=
  if f.err ≠ "" then some ("has error, err: " ++ f.err)
  else if f.typ = "nil" then some "has error, type == nil: "
  else none

/-- The loop of `(*Field).Get`. `paths` is the whole argument, `i` the loop
counter, the list argument is `paths[i:]` and the `Field` is `tmp`. -/
def getLoop (paths : List String) : Nat → List String → Field → Outcome Field
  | _, [], tmp => .ret tmp
  | i, path :: rest, tmp =>
    if tmp.typ = "nil" ∨ tmp.typ = "err" then
      .ret (newErrField ("数据类型:" ++ tmp.typ ++ " 不支持递归"))
    else if tmp.typ = "int" ∨ tmp.typ = "uint" ∨ tmp.typ = "float" ∨ tmp.typ = "string"
        ∨ tmp.typ = "bool" then
      if (paths.length : Int) - (i : Int) < 0 then
        .ret (newErrField "基础数据类型,已达终态,无法继续递归")
      else .ret tmp
    else if tmp.typ = "map" then
      match mapGet tmp.MapValue path with
      | none => .ret (newErrField ("map路径" ++ Join (paths.take (i + 1)) "||" ++ "不存在"))
      | some mf => getLoop paths (i + 1) rest mf
    else if tmp.typ = "array" then
      match Atoi path with
      | none =>
        .ret (newErrField ("array路径 [" ++ Join (paths.take (i + 1)) "." ++ "] 不存在"))
      | some index =>
        if index > (tmp.ArrayValue.length : Int) - 1 then
          .ret (newErrField ("array路径 [" ++ Join (paths.take (i + 1)) "." ++ "] 不存在"))
        else if index < 0 then .panic
        else
          match tmp.ArrayValue[index.toNat]? with
          | none => .panic
          | some el => getLoop paths (i + 1) rest el
    else getLoop paths (i + 1) rest tmp

/-- Go `(*Field).Get`. -/
def Field.Get (f : Field) (paths : List String) : Outcome Field :=
  match f.Error with
  | some e => .ret (newErrField e)
  | none => getLoop paths 0 paths f

/-- Chaining of calls: the next call runs on what the previous one returned. -/
def Outcome.andThen {α β : Type} : Outcome α → (α → Outcome β) → Outcome β
  | .ret a, g => g a
  | .panic, _ => .panic

/-! ## Predicates on inputs and on trees -/

mutual
/-- The input holds no pre-built `Field`, by value or by pointer, at any depth.
A nil `*Field` points to no Field. -/
def GoValue.hasNoField : GoValue → Bool
  | .nil => true
  | .fieldPtr _ => false
  | .nilFieldPtr => true
  | .fieldPtrNilInside _ => false
  | .field _ => false
  | .fieldNilInside _ => false
  | .nilPointer => true
  | .pointer elem => elem.hasNoField
  | .direct val => val.hasNoField
/-- No pre-built `Field` below a dereferenced value. -/
def GoVal.hasNoField : GoVal → Bool
  | .seq xs => elemsHaveNoField xs
  | .map entries => entriesHaveNoField entries
  | .struct fields => fieldsHaveNoField fields
  | _ => true
/-- No pre-built `Field` in the elements of a sequence. -/
def elemsHaveNoField : List GoValue → Bool
  | [] => true
  | x :: xs => x.hasNoField && elemsHaveNoField xs
/-- No pre-built `Field` in the values of a map. -/
def entriesHaveNoField : List (GoKey × GoValue) → Bool
  | [] => true
  | (_, v) :: rest => v.hasNoField && entriesHaveNoField rest
/-- No pre-built `Field` in the fields of a struct. -/
def fieldsHaveNoField : List (StructField × GoValue) → Bool
  | [] => true
  | (_, v) :: rest => v.hasNoField && fieldsHaveNoField rest
end

mutual
/-- The input holds no nil pointer of type `*Field`, at any depth. -/
def GoValue.hasNoNilFieldPtr : GoValue → Bool
  | .nilFieldPtr => false
  | .fieldPtrNilInside _ => false
  | .fieldNilInside _ => false
  | .pointer elem => elem.hasNoNilFieldPtr
  | .direct val => val.hasNoNilFieldPtr
  | _ => true
/-- No nil `*Field` below a dereferenced value. -/
def GoVal.hasNoNilFieldPtr : GoVal → Bool
  | .seq xs => elemsHaveNoNilFieldPtr xs
  | .map entries => entriesHaveNoNilFieldPtr entries
  | .struct fields => fieldsHaveNoNilFieldPtr fields
  | _ => true
/-- No nil `*Field` in the elements of a sequence. -/
def elemsHaveNoNilFieldPtr : List GoValue → Bool
  | [] => true
  | x :: xs => x.hasNoNilFieldPtr && elemsHaveNoNilFieldPtr xs
/-- No nil `*Field` in the values of a map. -/
def entriesHaveNoNilFieldPtr : List (GoKey × GoValue) → Bool
  | [] => true
  | (_, v) :: rest => v.hasNoNilFieldPtr && entriesHaveNoNilFieldPtr rest
/-- No nil `*Field` in the fields of a struct. -/
def fieldsHaveNoNilFieldPtr : List (StructField × GoValue) → Bool
  | [] => true
  | (_, v) :: rest => v.hasNoNilFieldPtr && fieldsHaveNoNilFieldPtr rest
end

mutual
/-- Go typing of the input: every integer fits the width of its kind. -/
def GoValue.wellSized : GoValue → Bool
  | .pointer elem => elem.wellSized
  | .direct val => val.wellSized
  | _ => true
/-- Every integer below a dereferenced value fits the width of its kind. -/
def GoVal.wellSized : GoVal → Bool
  | .int k i => decide (-(2 ^ (k.bits - 1) : Int) ≤ i ∧ i < 2 ^ (k.bits - 1))
  | .uint k n => decide (n < 2 ^ k.bits)
  | .seq xs => elemsWellSized xs
  | .map entries => entriesWellSized entries
  | .struct fields => fieldsWellSized fields
  | _ => true
/-- Every integer in the elements of a sequence fits the width of its kind. -/
def elemsWellSized : List GoValue → Bool
  | [] => true
  | x :: xs => x.wellSized && elemsWellSized xs
/-- Every integer in the values of a map fits the width of its kind. -/
def entriesWellSized : List (GoKey × GoValue) → Bool
  | [] => true
  | (_, v) :: rest => v.wellSized && entriesWellSized rest
/-- Every integer in the fields of a struct fits the width of its kind. -/
def fieldsWellSized : List (StructField × GoValue) → Bool
  | [] => true
  | (_, v) :: rest => v.wellSized && fieldsWellSized rest
end

/-- The payload of one node is the one its `Type` determines, the `Type` is one
of the nine tags `Convert` writes, and the error string is empty. -/
def NodeOk (f : Field) : Prop :=
  f.err = "" ∧
  ((f.typ = "nil" ∧ f.Value = .absent ∧ f.ArrayValue = [] ∧ f.MapValue = []) ∨
   (f.typ = "int" ∧ (∃ i : Int, f.Value = .int64 i ∧ -(2 ^ 63 : Int) ≤ i ∧ i < 2 ^ 63) ∧
      f.ArrayValue = [] ∧ f.MapValue = []) ∨
   (f.typ = "uint" ∧ (∃ n : Nat, f.Value = .uint64 n ∧ n < 2 ^ 64) ∧
      f.ArrayValue = [] ∧ f.MapValue = []) ∨
   (f.typ = "float" ∧ (∃ x, f.Value = .float64 x) ∧ f.ArrayValue = [] ∧ f.MapValue = []) ∨
   (f.typ = "string" ∧ (∃ s, f.Value = .string s) ∧ f.ArrayValue = [] ∧ f.MapValue = []) ∨
   (f.typ = "bool" ∧ (∃ b, f.Value = .bool b) ∧ f.ArrayValue = [] ∧ f.MapValue = []) ∨
   (f.typ = "[]byte" ∧ (∃ bs, f.Value = .bytes bs) ∧ f.ArrayValue = [] ∧ f.MapValue = []) ∨
   (f.typ = "array" ∧ f.Value = .absent ∧ f.MapValue = []) ∨
   (f.typ = "map" ∧ f.Value = .absent ∧ f.ArrayValue = []))

/-- Every node of the tree satisfies `NodeOk`. -/
inductive Field.Canonical : Field → Prop
  | node (f : Field) (hnode : NodeOk f)
      (harr : ∀ c ∈ f.ArrayValue, Field.Canonical c)
      (hmap : ∀ kv ∈ f.MapValue, Field.Canonical kv.2) : Field.Canonical f


/-! ## The walk through maps that a path describes -/

/-- Where a path leads when it is read as a chain of map keys. -/
inductive Walk
  | reached (f : Field)
  | missing (i : Nat)
  | offMap

/-- Follows the segments of a path as keys, one map level per segment:
`reached e` when every segment is a key at its level and `e` is the entry the
last one names, `missing i` when segment `i` is the first that is not a key,
`offMap` when a segment has to be read at a node that is not a map. -/
def specWalk : Field → List String → Walk
  | f, [] => .reached f
  | f, k :: rest =>
    if f.typ = "map" then
      match mapGet f.MapValue k with
      | none => .missing 0
      | some c =>
        match specWalk c rest with
        | .missing i => .missing (i + 1)
        | r => r
    else .offMap

/-! ## Sample values -/

/-- An `int` node as `Convert` builds it. -/
def intField (i : Int) : Field :=
  { typ := "int", Value := .int64 i, ArrayValue := [], MapValue := [], err := "" }

/-- A `string` node as `Convert` builds it. -/
def stringField (s : String) : Field :=
  { typ := "string", Value := .string s, ArrayValue := [], MapValue := [], err := "" }

/-- An `array` node as `Convert` builds it. -/
def arrayField (fs : List Field) : Field :=
  { typ := "array", Value := .absent, ArrayValue := fs, MapValue := [], err := "" }

/-- A `map` node as `Convert` builds it. -/
def mapField (m : List (String × Field)) : Field :=
  { typ := "map", Value := .absent, ArrayValue := [], MapValue := m, err := "" }

/-- The record `{name:"a", nums:[1,2,3]}` with json tags `name` and `nums`,
followed by an unexported field that holds a channel. -/
def sampleRecord : List (StructField × GoValue) :=
  [({ Name := "Name", jsonTag := "name", exported := true }, .direct (.string "a")),
   ({ Name := "Nums", jsonTag := "nums", exported := true },
      .direct (.seq [.direct (.int .int 1), .direct (.int .int 2), .direct (.int .int 3)])),
   ({ Name := "done", jsonTag := "", exported := false }, .direct (.other .chan))]

/-- The tree of `sampleRecord`. -/
def sampleTree : Field :=
  mapField [("name", stringField "a"),
            ("nums", arrayField [intField 1, intField 2, intField 3])]

/-- A map of maps: `{"a": {"b": 7}}`. -/
def nestedMap : Field :=
  mapField [("a", mapField [("b", intField 7)])]

/-- The slice `[]interface{}{[1]byte{0}, make(chan int)}`: a byte array held by
value, then a channel. -/
def bytesThenChan : GoValue :=
  .direct (.seq [.direct (.bytes true [0]), .direct (.other .chan)])

/-! ## The error condition of `Convert` -/

/-- `Convert` returns an error on `v`. -/
def failsToConvert (v : GoValue) : Prop :=
  ∃ f e, Convert v = .error f e

/-- The dereferenced value is of an unsupported kind, or is a sequence that is
not a byte sequence, a map or a struct one of whose elements, values or
exported fields fails to convert. -/
def kindErrorCondition : GoVal → Prop
  | .other _ => True
  | .seq xs => ∃ x ∈ xs, failsToConvert x
  | .map entries => ∃ p ∈ entries, failsToConvert p.2
  | .struct fields => ∃ p ∈ fields, p.1.exported = true ∧ failsToConvert p.2
  | _ => False

/-- The condition of `kindErrorCondition` after at most one pointer
dereference; a nil pointer dereferences to the invalid `reflect.Value`. -/
def specErrorCondition : GoValue → Prop
  | .nil => False
  | .fieldPtr _ => False
  | .nilFieldPtr => False
  | .fieldPtrNilInside _ => False
  | .field _ => False
  | .fieldNilInside _ => False
  | .nilPointer => True
  | .pointer elem => kindErrorCondition elem
  | .direct val => kindErrorCondition val

/-! ## One iteration of the loop of `Get` -/

/-- What one iteration of the loop of `Get` does: leave the function with a
result, or go on to the next segment with a new `tmp`. -/
inductive Step
  | stop (o : Outcome Field)
  | next (tmp : Field)

/-- The body of the loop of `(*Field).Get` at counter `i`, segment `path`. -/
def getStep (paths : List String) (i : Nat) (path : String) (tmp : Field) : Step :=
  if tmp.typ = "nil" ∨ tmp.typ = "err" then
    .stop (.ret (newErrField ("数据类型:" ++ tmp.typ ++ " 不支持递归")))
  else if tmp.typ = "int" ∨ tmp.typ = "uint" ∨ tmp.typ = "float" ∨ tmp.typ = "string"
      ∨ tmp.typ = "bool" then
    if (paths.length : Int) - (i : Int) < 0 then
      .stop (.ret (newErrField "基础数据类型,已达终态,无法继续递归"))
    else .stop (.ret tmp)
  else if tmp.typ = "map" then
    match mapGet tmp.MapValue path with
    | none =>
      .stop (.ret (newErrField ("map路径" ++ Join (paths.take (i + 1)) "||" ++ "不存在")))
    | some mf => .next mf
  else if tmp.typ = "array" then
    match Atoi path with
    | none =>
      .stop (.ret (newErrField ("array路径 [" ++ Join (paths.take (i + 1)) "." ++ "] 不存在")))
    | some index =>
      if index > (tmp.ArrayValue.length : Int) - 1 then
        .stop (.ret (newErrField
          ("array路径 [" ++ Join (paths.take (i + 1)) "." ++ "] 不存在")))
      else if index < 0 then .stop .panic
      else
        match tmp.ArrayValue[index.toNat]? with
        | none => .stop .panic
        | some el => .next el
  else .next tmp

/-! ## Errors, integer conversions and floats -/

/-- An `error` value: `text s` is `errors.New(s)`; `cannotConvert v typ target` is
`errors.New(fmt.Sprintf("%v, %s cannot convert " + target, v, typ))`. -/
inductive GoError
  | text (s : String)
  | cannotConvert (v : Payload) (typ : String) (target : String)
  deriving DecidableEq, Repr

/-- Go `err.Error()`; `showValue` is the `%v` rendering of `fmt`. -/
def GoError.Error (showValue : Payload → String) : GoError → String
  | .text s => s
  | .cannotConvert v typ target =>
    showValue v ++ ", " ++ typ ++ " cannot convert " ++ target

/-- Go `strings.Contains(s, m)`. -/
def Contains (s m : String) : Prop :=
  ∃ a b : String, s = a ++ m ++ b

/-- Go `int64(x)` for an integer `x`: the value modulo `2^64`, read as signed. -/
def toInt64 (x : Int) : Int :=
  (x + 2 ^ 63) % 2 ^ 64 - 2 ^ 63

/-- Go `uint64(x)` for an integer `x`: the value modulo `2^64`. -/
def toUint64 (x : Int) : Nat :=
  (x % 2 ^ 64).toNat

/-- Sign bit of a `float64`. -/
def Float64.sign (x : Float64) : Nat :=
  x.bits / 2 ^ 63 % 2

/-- Biased exponent of a `float64`. -/
def Float64.exponent (x : Float64) : Nat :=
  x.bits / 2 ^ 52 % 2 ^ 11

/-- Fraction bits of a `float64`. -/
def Float64.mantissa (x : Float64) : Nat :=
  x.bits % 2 ^ 52

/-- Go `x == 0` for a `float64`: true for `+0` and `-0` only. -/
def Float64.isZero (x : Float64) : Bool :=
  decide (x.exponent = 0 ∧ x.mantissa = 0)

/-- The value of a finite `float64` truncated toward zero; `none` for NaN and
the infinities. -/
def Float64.trunc (x : Float64) : Option Int :=
  if x.exponent = 2047 then none
  else
    let mag : Nat :=
      if x.exponent = 0 then 0
      else if 1075 ≤ x.exponent then (2 ^ 52 + x.mantissa) * 2 ^ (x.exponent - 1075)
      else (2 ^ 52 + x.mantissa) / 2 ^ (1075 - x.exponent)
    some (if x.sign = 1 then -(mag : Int) else (mag : Int))

/-- Go `int64(x)` for a `float64`: the truncated value when `int64` can
represent it; otherwise the conversion still succeeds and its value is left to
the implementation, here `impl x`. -/
def Float64.toInt64 (impl : Float64 → Int) (x : Float64) : Int :=
  match x.trunc with
  | some t => if -(2 ^ 63 : Int) ≤ t ∧ t < 2 ^ 63 then t else impl x
  | none => impl x

/-- Go `uint64(x)` for a `float64`, as `Float64.toInt64`. -/
def Float64.toUint64 (impl : Float64 → Nat) (x : Float64) : Nat :=
  match x.trunc with
  | some t => if 0 ≤ t ∧ t < 2 ^ 64 then t.toNat else impl x
  | none => impl x

/-- Index of the highest set bit of `n` (with the given fuel), 0 for `n < 2`. -/
def floorLog2Aux : Nat → Nat → Nat
  | 0, _ => 0
  | fuel + 1, n => if 2 ≤ n then floorLog2Aux fuel (n / 2) + 1 else 0

/-- Index of the highest set bit of `n`. -/
def floorLog2 (n : Nat) : Nat :=
  floorLog2Aux n n

/-- Go `float64(n)` for an unsigned integer: the nearest `float64`, ties to even. -/
def Float64.ofNat (n : Nat) : Float64 :=
  if n = 0 then ⟨0⟩
  else
    let e := floorLog2 n
    if e ≤ 52 then ⟨(e + 1023) * 2 ^ 52 + (n * 2 ^ (52 - e) - 2 ^ 52)⟩
    else
      let q := n / 2 ^ (e - 52)
      let r := n % 2 ^ (e - 52)
      let half := 2 ^ (e - 53)
      let q1 := if half < r ∨ (r = half ∧ q % 2 = 1) then q + 1 else q
      ⟨(e + 1023) * 2 ^ 52 + (q1 - 2 ^ 52)⟩

/-- Go `float64(i)` for a signed integer. -/
def Float64.ofInt (i : Int) : Float64 :=
  if i < 0 then ⟨2 ^ 63 + (Float64.ofNat i.natAbs).bits⟩ else Float64.ofNat i.toNat

/-- The `float64` 1. -/
def Float64.one : Float64 := ⟨1023 * 2 ^ 52⟩

/-- The `float64` 0.5. -/
def Float64.half : Float64 := ⟨1022 * 2 ^ 52⟩

/-- Go `[]byte(s)`: the UTF-8 encoding of `s`. -/
def utf8Bytes (s : String) : List (Fin 256) :=
  s.toList.flatMap (fun c => (String.utf8EncodeChar c).map (fun b => b.val))

/-- Go `strconv.FormatUint(n, 10)`. -/
def FormatUint (n : Nat) : String :=
  String.mk (Nat.toDigits 10 n)

/-- Go `strconv.FormatInt(i, 10)`. -/
def FormatInt (i : Int) : String :=
  if i < 0 then "-" ++ FormatUint i.natAbs else FormatUint i.toNat


/-! ## Decimal text -/

/-- The number a run of decimal digits denotes. -/
def decimalValue (ds : List Char) : Nat :=
  ds.foldl (fun acc c => acc * 10 + (c.toNat - 48)) 0

/-- The character is one of `0` … `9`. -/
def IsDigit (c : Char) : Prop :=
  48 ≤ c.toNat ∧ c.toNat ≤ 57

/-- The string is the decimal text of the integer `i`: an optional sign `+` or
`-` followed by one or more decimal digits. -/
def IsDecimalInteger (s : String) (i : Int) : Prop :=
  ∃ ds : List Char, ds ≠ [] ∧ (∀ c ∈ ds, IsDigit c) ∧
    ((s.toList = ds ∧ i = (decimalValue ds : Int)) ∨
     (s.toList = '+' :: ds ∧ i = (decimalValue ds : Int)) ∨
     (s.toList = '-' :: ds ∧ i = -(decimalValue ds : Int)))

/-! ## Iteration -/

/-- What one run of `MapRange` or `ArrayRange` did: the error it returned
(`none` is nil), the state the callback left behind, and the calls of the
callback in the order they were made, each with what it returned. -/
structure RangeRun (κ σ : Type) where
  result : Option GoError
  state : σ
  calls : List (κ × Field × Option GoError)

/-- The loop `for k, item := range …` with its early return; `fn` is the
callback, which may read and change a state of type `σ`. -/
def rangeLoop {κ σ : Type} (fn : κ → Field → σ → Option GoError × σ) :
    List (κ × Field) → σ → RangeRun κ σ
  | [], s => { result := none, state := s, calls := [] }
  | (k, item) :: rest, s =>
    match fn k item s with
    | (some e, s1) => { result := some e, state := s1, calls := [(k, item, some e)] }
    | (none, s1) =>
      let run := rangeLoop fn rest s1
      { result := run.result, state := run.state, calls := (k, item, none) :: run.calls }

/-- The calls `calls` are what a caller sees who starts with the state `s`,
makes the calls one after the other, each on the state the call before it left
behind, and ends with the state `s1`: every recorded call returned what `fn`
returns on the state it was made on. -/
def Threads {κ σ : Type} (fn : κ → Field → σ → Option GoError × σ) :
    σ → List (κ × Field × Option GoError) → σ → Prop
  | s, [], s1 => s1 = s
  | s, (k, item, r) :: rest, s1 =>
    (fn k item s).1 = r ∧ Threads fn (fn k item s).2 rest s1

/-- The pairs `range` yields on a slice: index and element, from index `start`. -/
def indexed : Nat → List Field → List (Nat × Field)
  | _, [] => []
  | start, x :: xs => (start, x) :: indexed (start + 1) xs

/-- Go `(*Field).ArrayRange`. -/
def Field.ArrayRange {σ : Type} (f : Field) (fn : Nat → Field → σ → Option GoError × σ)
    (s : σ) : RangeRun Nat σ :=
  match f.Error with
  | some e => { result := some (.text e), state := s, calls := [] }
  | none =>
    if f.typ ≠ "array" then
      { result := some (.text "only map support range"), state := s, calls := [] }
    else rangeLoop fn (indexed 0 f.ArrayValue) s

/-- Go `(*Field).MapRange`. `order` is the sequence in which `range f.MapValue`
yields the entries on this run; Go leaves it unspecified, it is some
permutation of the entries. -/
def Field.MapRange {σ : Type} (f : Field) (order : List (String × Field))
    (fn : String → Field → σ → Option GoError × σ) (s : σ) : RangeRun String σ :=
  match f.Error with
  | some e => { result := some (.text e), state := s, calls := [] }
  | none =>
    if f.typ ≠ "map" then
      { result := some (.text "only map support range"), state := s, calls := [] }
    else rangeLoop fn order s

/-! ## Decoding raw bytes into a tree -/

/-- Go `(*Field).ByteToField`; the `*Field` returned is given as a `Child`.
`unmarshal b` is `json.Unmarshal(b, &i)` for an `interface{}` target: the
decoded value, or the text of the decode error. `convertErrorText st` is the
text of the error `Convert` returns for `st`, `showValue` the `%v` rendering of
`fmt`. -/
def Field.ByteToField (unmarshal : List (Fin 256) → Except String GoValue)
    (convertErrorText : GoValue → String) (showValue : Payload → String)
    (f : Field) : Outcome Child :=
  match f.Error with
  | some e => .ret (.tree (newErrField e))
  | none =>
    if f.typ ≠ "[]byte" then .ret (.tree (newErrField "only []byte support json.Unmarshal"))
    else
      match f.Value with
      | .bytes b =>
        match unmarshal b with
        | .error e => .ret (.tree (newErrField e))
        | .ok i =>
          match Convert i with
          | .ok field => .ret (.tree field)
          | .okNil => .ret .nilPtr
          | .okNilInside t => .ret (.holdsNil t)
          | .error _ st => .ret (.tree (newErrField (convertErrorText st)))
          | .panic => .panic
      | _ =>
        .ret (.tree (newErrField
          ((GoError.cannotConvert f.Value f.typ "[]byte").Error showValue)))

/-! ### The round trip through JSON

`encoding/json` is not part of the package. What follows states, from its
documentation, which value `json.Unmarshal` stores in an `interface{}` for the
text that `json.Marshal` writes for a value, on the values for which the
`GoValue` of the argument determines that text. -/

/-- The alphabet of `base64.StdEncoding`. -/
def base64Alphabet : List Char :=
  "ABCDEFGHIJKLMNOPQRSTUVWXYZabcdefghijklmnopqrstuvwxyz0123456789+/".toList

/-- The character for the 6-bit value `n`. -/
def base64Char (n : Nat) : Char :=
  base64Alphabet.getD n 'A'

/-- The characters of `base64.StdEncoding.EncodeToString`. -/
def base64Chars : List (Fin 256) → List Char
  | [] => []
  | [a] => [base64Char (a.val / 4), base64Char (a.val % 4 * 16), '=', '=']
  | [a, b] =>
    [base64Char (a.val / 4), base64Char (a.val % 4 * 16 + b.val / 16),
     base64Char (b.val % 16 * 4), '=']
  | a :: b :: c :: rest =>
    base64Char (a.val / 4) :: base64Char (a.val % 4 * 16 + b.val / 16) ::
      base64Char (b.val % 16 * 4 + c.val / 64) :: base64Char (c.val % 64) :: base64Chars rest

/-- Go `base64.StdEncoding.EncodeToString`, the text `json.Marshal` writes for a
`[]byte`. -/
def base64 (bs : List (Fin 256)) : String :=
  String.mk (base64Chars bs)

/-- The `float64` is neither NaN nor an infinity. -/
def Float64.isFinite (x : Float64) : Bool :=
  decide (x.exponent ≠ 2047)

/-- A json tag that is a plain name: not empty, letters, digits and underscores
only. `encoding/json` writes an exported field with such a tag under the tag,
whether the field is embedded or not. -/
def plainTag (tag : String) : Bool :=
  tag ≠ "" && tag.toList.all (fun c => c.isAlphanum || c = '_')

mutual
/-- The relation `x.JsonImage d`: `d` is the value `json.Unmarshal` stores in an
`interface{}` for the JSON encoding of `x`, the types in `x` having no
encoding of their own (`MarshalJSON`, `MarshalText`). `json.Marshal` follows a
pointer; a nil pointer, a Field and a nil `*Field` are left out (the first
makes `Convert` fail, the others are encoded as the struct `Field`). -/
def GoValue.JsonImage : GoValue → GoValue → Prop
  | .nil, d => d = .nil
  | .pointer elem, d => elem.JsonImage d
  | .direct val, d => val.JsonImage d
  | _, _ => False
/-- The image of a dereferenced value. A number comes back as the nearest
`float64`, a byte slice as its base64 text, a slice or array as a
`[]interface{}`, a map with string keys or a struct as a
`map[string]interface{}`, whose entries are listed in `ds` in the order in
which they are yielded. Left out are the values whose `GoVal` does not
determine the encoding, or whose encoding decodes to a tree of another shape:
NaN and the infinities (no encoding), a `float32` (encoded with the precision
of 32 bits), an array of bytes (encoded as an array of numbers), an empty
sequence or map (encoded as `null` when nil), a map whose keys are not strings
(encoded under the decimal text of the key) and a struct with a field that is
not exported or has no plain json tag (an embedded struct without a tag is
encoded as its fields, also when it is not exported). -/
def GoVal.JsonImage : GoVal → GoValue → Prop
  | .int _ i, d => d = .direct (.float .float64 (Float64.ofInt i))
  | .uint _ n, d => d = .direct (.float .float64 (Float64.ofNat n))
  | .float .float64 x, d => x.isFinite = true ∧ d = .direct (.float .float64 x)
  | .string s, d => d = .direct (.string s)
  | .bool b, d => d = .direct (.bool b)
  | .bytes false bs, d => bs ≠ [] ∧ d = .direct (.string (base64 bs))
  | .seq xs, d => xs ≠ [] ∧ ∃ ds, d = .direct (.seq ds) ∧ elemsJsonImage xs ds
  | .map entries, d =>
    entries ≠ [] ∧ (entries.map (fun p => p.1.String)).Nodup ∧
    ∃ ds : List (String × GoValue),
      d = .direct (.map (ds.map (fun p => (GoKey.string p.1, p.2)))) ∧
      (ds.map Prod.fst).Perm (entries.map (fun p => p.1.String)) ∧
      entriesJsonImage entries ds
  | .struct fields, d =>
    (fields.map (fun p => p.1.jsonTag)).Nodup ∧
    ∃ ds : List (String × GoValue),
      d = .direct (.map (ds.map (fun p => (GoKey.string p.1, p.2)))) ∧
      (ds.map Prod.fst).Perm (fields.map (fun p => p.1.jsonTag)) ∧
      fieldsJsonImage fields ds
  | _, _ => False
/-- The images of the elements of a sequence, in order. -/
def elemsJsonImage : List GoValue → List GoValue → Prop
  | [], [] => True
  | x :: xs, d :: ds => x.JsonImage d ∧ elemsJsonImage xs ds
  | _, _ => False
/-- Every entry of the map has a string key, under which `ds` holds the image
of its value. -/
def entriesJsonImage : List (GoKey × GoValue) → List (String × GoValue) → Prop
  | [], _ => True
  | (k, v) :: rest, ds =>
    (∃ s d, k = .string s ∧ (s, d) ∈ ds ∧ v.JsonImage d) ∧ entriesJsonImage rest ds
/-- Every field of the struct is exported and has a plain json tag, under which
`ds` holds the image of its value. -/
def fieldsJsonImage : List (StructField × GoValue) → List (String × GoValue) → Prop
  | [], _ => True
  | (sf, v) :: rest, ds =>
    (sf.exported = true ∧ plainTag sf.jsonTag = true ∧
      ∃ d, (sf.jsonTag, d) ∈ ds ∧ v.JsonImage d) ∧
    fieldsJsonImage rest ds
end

/-- The leaf that comes back for the leaf `t` of `Convert(x)`: an `int` or
`uint` leaf as the `float` leaf with the nearest `float64`, a `[]byte` leaf as
the `string` leaf with the base64 text, a `nil`, `bool`, `float` or `string`
leaf as it is. -/
def leafShadow (t : Field) : Option Field :=
  if t.typ = "int" then
    match t.Value with
    | .int64 i =>
      some { typ := "float", Value := .float64 (Float64.ofInt i), ArrayValue := [],
             MapValue := [], err := "" }
    | _ => none
  else if t.typ = "uint" then
    match t.Value with
    | .uint64 n =>
      some { typ := "float", Value := .float64 (Float64.ofNat n), ArrayValue := [],
             MapValue := [], err := "" }
    | _ => none
  else if t.typ = "[]byte" then
    match t.Value with
    | .bytes bs =>
      some { typ := "string", Value := .string (base64 bs), ArrayValue := [],
             MapValue := [], err := "" }
    | _ => none
  else if t.typ = "nil" ∨ t.typ = "bool" ∨ t.typ = "float" ∨ t.typ = "string" then some t
  else none

/-- The relation `t.JsonShadow r`: the trees `t` and `r` have the same shape, an array of
`n` children facing an array of `n` children and a map facing a map with the
same keys, and each leaf of `r` is the `leafShadow` of the leaf of `t` at the
same place. -/
inductive Field.JsonShadow : Field → Field → Prop
  | leaf (t r : Field) (h : leafShadow t = some r) : Field.JsonShadow t r
  | array (fs rs : List Field) (hlen : fs.length = rs.length)
      (hall : ∀ (i : Nat) (h1 : i < fs.length) (h2 : i < rs.length),
        Field.JsonShadow (fs.get ⟨i, h1⟩) (rs.get ⟨i, h2⟩)) :
      Field.JsonShadow
        { typ := "array", Value := .absent, ArrayValue := fs, MapValue := [], err := "" }
        { typ := "array", Value := .absent, ArrayValue := rs, MapValue := [], err := "" }
  | map (m r : List (String × Field))
      (hkeys : ∀ k, mapGet m k = none ↔ mapGet r k = none)
      (hall : ∀ k c c', mapGet m k = some c → mapGet r k = some c' → Field.JsonShadow c c') :
      Field.JsonShadow
        { typ := "map", Value := .absent, ArrayValue := [], MapValue := m, err := "" }
        { typ := "map", Value := .absent, ArrayValue := [], MapValue := r, err := "" }

/-- A decoder that is known at one input: `bs` decodes to `v`. -/
def decodesTo (bs : List (Fin 256)) (v : GoValue) :
    List (Fin 256) → Except String GoValue :=
  fun b => if b = bs then .ok v else .error "unexpected end of JSON input"

/-- The `[]byte` node `Convert` builds for a byte slice. -/
def bytesField (bs : List (Fin 256)) : Field :=
  { typ := "[]byte", Value := .bytes bs, ArrayValue := [], MapValue := [], err := "" }

/-! ## The invariant of the error string -/

mutual
/-- The data-model invariant on the error string, at every node of the tree:
it is populated only on a Field whose Type is `err`. -/
def Field.errOnlyOnErr : Field → Bool
  | ⟨typ, _, arr, m, err⟩ =>
    (decide (err = "") || decide (typ = "err")) && allErrOnlyOnErr arr &&
      entriesErrOnlyOnErr m
/-- The invariant on every Field of a list. -/
def allErrOnlyOnErr : List Field → Bool
  | [] => true
  | x :: xs => x.errOnlyOnErr && allErrOnlyOnErr xs
/-- The invariant on every value of a map. -/
def entriesErrOnlyOnErr : List (String × Field) → Bool
  | [] => true
  | (_, v) :: rest => v.errOnlyOnErr && entriesErrOnlyOnErr rest
end

/-- A callback that counts its calls in the state and fails on the key `bad`. -/
def failOn {κ : Type} [DecidableEq κ] (bad : κ) : κ → Field → Nat → Option GoError × Nat :=
  fun k _ n => (if k = bad then some (.text "stop") else none, n + 1)

/-! ## Coercion accessors -/

/-- Go `(*Field).Int`; the zero returned next to an error is dropped. -/
def Field.Int (impl : Float64 → Int) (f : Field) : Except GoError Int :=
  match f.Error with
  | some e => .error (.text e)
  | none =>
    if f.typ = "int" then
      match f.Value with
      | .int64 i => .ok i
      | _ => .error (.cannotConvert f.Value f.typ "int64")
    else if f.typ = "uint" then
      match f.Value with
      | .uint64 u => .ok (toInt64 u)
      | _ => .error (.cannotConvert f.Value f.typ "int64")
    else if f.typ = "float" then
      match f.Value with
      | .float64 x => .ok (x.toInt64 impl)
      | _ => .error (.cannotConvert f.Value f.typ "int64")
    else if f.typ = "bool" then
      match f.Value with
      | .bool b => .ok (if b then 1 else 0)
      | _ => .error (.cannotConvert f.Value f.typ "int64")
    else if f.typ = "string" then
      match f.Value with
      | .string s =>
        match Atoi s with
        | some i => .ok (toInt64 i)
        | none => .error (.cannotConvert f.Value f.typ "int64")
      | _ => .error (.cannotConvert f.Value f.typ "int64")
    else .error (.cannotConvert f.Value f.typ "int64")

/-- Go `(*Field).UInt`. -/
def Field.UInt (impl : Float64 → Nat) (f : Field) : Except GoError Nat :=
  match f.Error with
  | some e => .error (.text e)
  | none =>
    if f.typ = "int" then
      match f.Value with
      | .int64 i => .ok (toUint64 i)
      | _ => .error (.cannotConvert f.Value f.typ "uint64")
    else if f.typ = "uint" then
      match f.Value with
      | .uint64 u => .ok u
      | _ => .error (.cannotConvert f.Value f.typ "uint64")
    else if f.typ = "float" then
      match f.Value with
      | .float64 x => .ok (x.toUint64 impl)
      | _ => .error (.cannotConvert f.Value f.typ "uint64")
    else if f.typ = "bool" then
      match f.Value with
      | .bool b => .ok (if b then 1 else 0)
      | _ => .error (.cannotConvert f.Value f.typ "uint64")
    else if f.typ = "string" then
      match f.Value with
      | .string s =>
        match Atoi s with
        | some i => .ok (toUint64 i)
        | none => .error (.cannotConvert f.Value f.typ "uint64")
      | _ => .error (.cannotConvert f.Value f.typ "uint64")
    else .error (.cannotConvert f.Value f.typ "uint64")

/-- Go `(*Field).Float`; `parseFloat` is `strconv.ParseFloat(s, 64)`, `none` its
error. -/
def Field.Float (parseFloat : String → Option Float64) (f : Field) :
    Except GoError Float64 :=
  match f.Error with
  | some e => .error (.text e)
  | none =>
    if f.typ = "int" then
      match f.Value with
      | .int64 i => .ok (Float64.ofInt i)
      | _ => .error (.cannotConvert f.Value f.typ "float64")
    else if f.typ = "uint" then
      match f.Value with
      | .uint64 u => .ok (Float64.ofNat u)
      | _ => .error (.cannotConvert f.Value f.typ "float64")
    else if f.typ = "float" then
      match f.Value with
      | .float64 x => .ok x
      | _ => .error (.cannotConvert f.Value f.typ "float64")
    else if f.typ = "bool" then
      match f.Value with
      | .bool b => .ok (if b then Float64.one else ⟨0⟩)
      | _ => .error (.cannotConvert f.Value f.typ "float64")
    else if f.typ = "string" then
      match f.Value with
      | .string s =>
        match parseFloat s with
        | some x => .ok x
        | none => .error (.cannotConvert f.Value f.typ "float64")
      | _ => .error (.cannotConvert f.Value f.typ "float64")
    else .error (.cannotConvert f.Value f.typ "float64")

/-- Go `(*Field).String`; `formatFloat x` is `strconv.FormatFloat(x, 'f', -1, 64)`. -/
def Field.String (formatFloat : Float64 → String) (f : Field) : Except GoError String :=
  match f.Error with
  | some e => .error (.text e)
  | none =>
    if f.typ = "int" then
      match f.Value with
      | .int64 i => .ok (FormatInt i)
      | _ => .error (.cannotConvert f.Value f.typ "string")
    else if f.typ = "uint" then
      match f.Value with
      | .uint64 u => .ok (FormatUint u)
      | _ => .error (.cannotConvert f.Value f.typ "string")
    else if f.typ = "float" then
      match f.Value with
      | .float64 x => .ok (formatFloat x)
      | _ => .error (.cannotConvert f.Value f.typ "string")
    else if f.typ = "bool" then
      match f.Value with
      | .bool b => .ok (if b then "true" else "false")
      | _ => .error (.cannotConvert f.Value f.typ "string")
    else if f.typ = "string" then
      match f.Value with
      | .string s => .ok s
      | _ => .error (.cannotConvert f.Value f.typ "string")
    else .error (.cannotConvert f.Value f.typ "string")

/-- Go `(*Field).Bool`. -/
def Field.Bool (f : Field) : Except GoError Bool :=
  match f.Error with
  | some e => .error (.text e)
  | none =>
    if f.typ = "int" then
      match f.Value with
      | .int64 i => .ok (if i = 0 then false else true)
      | _ => .error (.cannotConvert f.Value f.typ "bool")
    else if f.typ = "uint" then
      match f.Value with
      | .uint64 u => .ok (if u = 0 then false else true)
      | _ => .error (.cannotConvert f.Value f.typ "bool")
    else if f.typ = "float" then
      match f.Value with
      | .float64 x => .ok (if x.isZero then false else true)
      | _ => .error (.cannotConvert f.Value f.typ "bool")
    else if f.typ = "bool" then
      match f.Value with
      | .bool b => .ok b
      | _ => .error (.cannotConvert f.Value f.typ "bool")
    else if f.typ = "string" then
      match f.Value with
      | .string s => .ok (if s = "" then false else true)
      | _ => .error (.cannotConvert f.Value f.typ "bool")
    else .error (.cannotConvert f.Value f.typ "bool")

/-- Go `(*Field).Bytes`. -/
def Field.Bytes (f : Field) : Except GoError (List (Fin 256)) :=
  match f.Error with
  | some e => .error (.text e)
  | none =>
    if f.typ = "[]byte" then
      match f.Value with
      | .bytes b => .ok b
      | _ => .error (.cannotConvert f.Value f.typ "[]byte")
    else if f.typ = "string" then
      match f.Value with
      | .string s => .ok (utf8Bytes s)
      | _ => .error (.cannotConvert f.Value f.typ "[]byte")
    else .error (.cannotConvert f.Value f.typ "[]byte")

/-- A `uint` node as `Convert` builds it. -/
def uintField (n : Nat) : Field :=
  { typ := "uint", Value := .uint64 n, ArrayValue := [], MapValue := [], err := "" }

/-- A `float` node as `Convert` builds it. -/
def floatField (x : Float64) : Field :=
  { typ := "float", Value := .float64 x, ArrayValue := [], MapValue := [], err := "" }

/-- A `bool` node as `Convert` builds it. -/
def boolField (b : Bool) : Field :=
  { typ := "bool", Value := .bool b, ArrayValue := [], MapValue := [], err := "" }

/-- A map Field whose entry `a` is a map that carries an error string although
its Type is not `err`. The data-model invariant excludes such a Field and the
package never builds one: only `newErrField` sets the error string. -/
def taintedMap : Field :=
  mapField [("a", { typ := "map", Value := .absent, ArrayValue := [],
                    MapValue := [("b", intField 7)], err := "boom" })]

/-- Each of the six accessors returns, on `h`, an error whose text contains `m`. -/
def accessorsReport (implI : Float64 → Int) (implU : Float64 → Nat)
    (parseFloat : String → Option Float64) (formatFloat : Float64 → String)
    (showValue : Payload → String) (h : Field) (m : String) : Prop :=
  (∃ e, h.Int implI = .error e ∧ Contains (e.Error showValue) m) ∧
  (∃ e, h.UInt implU = .error e ∧ Contains (e.Error showValue) m) ∧
  (∃ e, h.Float parseFloat = .error e ∧ Contains (e.Error showValue) m) ∧
  (∃ e, h.String formatFloat = .error e ∧ Contains (e.Error showValue) m) ∧
  (∃ e, h.Bool = .error e ∧ Contains (e.Error showValue) m) ∧
  (∃ e, h.Bytes = .error e ∧ Contains (e.Error showValue) m)


/-! ## Further sample values -/

/-- The slice `[]*Field{nil}`: its only element is a nil pointer. -/
def nilFieldSlice : GoValue :=
  .direct (.seq [.nilFieldPtr])

/-- A record with an exported field without a json tag, an exported field with
one, an exported field that holds a nil `*Field`, and an unexported field that
holds a channel. -/
def mixedRecord : List (StructField × GoValue) :=
  [({ Name := "Id", jsonTag := "", exported := true }, .direct (.int .int 7)),
   ({ Name := "Title", jsonTag := "title", exported := true }, .direct (.string "a")),
   ({ Name := "Next", jsonTag := "", exported := true }, .nilFieldPtr),
   ({ Name := "done", jsonTag := "", exported := false }, .direct (.other .chan))]

/-- A pointer to the struct `{N: 5, B: []byte{1, 2, 3}, M: {"s": ["a", true],
"z": nil}}` with the fields `N int`, `B []byte` and `M map[string]interface{}`,
tagged `n`, `b` and `m`. -/
def mixedInput : GoValue :=
  .pointer (.struct
    [({ Name := "N", jsonTag := "n", exported := true }, .direct (.int .int 5)),
     ({ Name := "B", jsonTag := "b", exported := true }, .direct (.bytes false [1, 2, 3])),
     ({ Name := "M", jsonTag := "m", exported := true },
        .direct (.map [(.string "s", .direct (.seq [.direct (.string "a"),
                                                    .direct (.bool true)])),
                       (.string "z", .nil)]))])

/-- What `json.Unmarshal` stores for the JSON encoding of `mixedInput`, the
entries of each map in the order of the keys. -/
def mixedDecoded : GoValue :=
  .direct (.map
    [(.string "b", .direct (.string "AQID")),
     (.string "m",
        .direct (.map [(.string "s", .direct (.seq [.direct (.string "a"),
                                                    .direct (.bool true)])),
                       (.string "z", .nil)])),
     (.string "n", .direct (.float .float64 (Float64.ofInt 5)))])

/-- The bytes of the text `{"n":5,"b":"AQID","m":{"s":["a",true],"z":null}}`, the
JSON encoding of `mixedInput`. -/
def mixedJson : List (Fin 256) :=
  [123, 34, 110, 34, 58, 53, 44, 34, 98, 34, 58, 34, 65, 81, 73, 68, 34, 44, 34, 109, 34,
   58, 123, 34, 115, 34, 58, 91, 34, 97, 34, 44, 116, 114, 117, 101, 93, 44, 34, 122, 34,
   58, 110, 117, 108, 108, 125, 125]

/-! ## Lemmas on the map operations -/

theorem mapSet_append_of_not_mem {β : Type} : ∀ (m : List (String × β)) (k : String) (v : β),
    k ∉ m.map Prod.fst → mapSet m k v = m ++ [(k, v)]
  | [], _, _, _ => rfl
  | (k', v') :: rest, k, v, h => by
    simp only [List.map_cons, List.mem_cons, not_or] at h
    have hne : ¬ k' = k := fun e => h.1 e.symm
    simp only [mapSet, hne, if_false, List.cons_append, mapSet_append_of_not_mem rest k v h.2]

theorem mapGet_of_mem_nodup {β : Type} : ∀ (m : List (String × β)) (k : String) (v : β),
    (m.map Prod.fst).Nodup → (k, v) ∈ m → mapGet m k = some v
  | [], _, _, _, h => by simp at h
  | (k', v') :: rest, k, v, hnd, h => by
    simp only [List.map_cons, List.nodup_cons] at hnd
    rcases List.mem_cons.1 h with h | h
    · have h1 : k' = k := (congrArg Prod.fst h).symm
      have h2 : v' = v := (congrArg Prod.snd h).symm
      simp [mapGet, h1, h2]
    · have hne : ¬ k' = k := by
        intro e
        apply hnd.1
        rw [e]
        exact List.mem_map.2 ⟨(k, v), h, rfl⟩
      simp only [mapGet, hne, if_false]
      exact mapGet_of_mem_nodup rest k v hnd.2 h

theorem mapSet_forall {β : Type} (P : β → Prop) :
    ∀ (m : List (String × β)) (k : String) (v : β),
      (∀ kv ∈ m, P kv.2) → P v → ∀ kv ∈ mapSet m k v, P kv.2
  | [], k, v, _, hv => by
    intro kv hkv
    simp [mapSet] at hkv
    subst hkv
    exact hv
  | (k', v') :: rest, k, v, hm, hv => by
    intro kv hkv
    unfold mapSet at hkv
    split at hkv
    · rcases List.mem_cons.1 hkv with h | h
      · subst h; exact hv
      · exact hm kv (List.mem_cons_of_mem _ h)
    · rcases List.mem_cons.1 hkv with h | h
      · subst h; exact hm _ (List.mem_cons_self _ _)
      · exact mapSet_forall P rest k v
          (fun x hx => hm x (List.mem_cons_of_mem _ hx)) hv kv h

/-! ## Children that are trees -/

theorem allTrees_map_tree : ∀ fs : List Field, allTrees (fs.map Child.tree) = some fs
  | [] => rfl
  | f :: fs => by simp [allTrees, allTrees_map_tree fs]

theorem allTrees_eq_some : ∀ (cs : List Child) (fs : List Field),
    allTrees cs = some fs → cs = fs.map Child.tree
  | [], fs, h => by
    simp only [allTrees, Option.some.injEq] at h
    subst h
    rfl
  | .tree f :: cs, fs, h => by
    simp only [allTrees] at h
    cases hcs : allTrees cs with
    | none => rw [hcs] at h; simp at h
    | some fs' =>
      rw [hcs] at h
      simp only [Option.some.injEq] at h
      subst h
      simp [allTrees_eq_some cs fs' hcs]
  | .nilPtr :: cs, fs, h => by simp [allTrees] at h
  | .holdsNil t :: cs, fs, h => by simp [allTrees] at h

theorem allTreeEntries_treeEntries :
    ∀ m : List (String × Field), allTreeEntries (treeEntries m) = some m
  | [] => rfl
  | (k, f) :: m => by
    have ih := allTreeEntries_treeEntries m
    simp only [treeEntries] at ih
    simp [treeEntries, allTreeEntries, ih]

theorem allTreeEntries_eq_some : ∀ (cs : List (String × Child)) (m : List (String × Field)),
    allTreeEntries cs = some m → cs = treeEntries m
  | [], m, h => by
    simp only [allTreeEntries, Option.some.injEq] at h
    subst h
    rfl
  | (k, .tree f) :: cs, m, h => by
    simp only [allTreeEntries] at h
    cases hcs : allTreeEntries cs with
    | none => rw [hcs] at h; simp at h
    | some m' =>
      rw [hcs] at h
      simp only [Option.some.injEq] at h
      subst h
      simp [treeEntries, allTreeEntries_eq_some cs m' hcs]
  | (k, .nilPtr) :: cs, m, h => by simp [allTreeEntries] at h
  | (k, .holdsNil t) :: cs, m, h => by simp [allTreeEntries] at h

theorem mapSet_treeEntries : ∀ (m : List (String × Field)) (k : String) (f : Field),
    mapSet (treeEntries m) k (.tree f) = treeEntries (mapSet m k f)
  | [], _, _ => rfl
  | (k', v') :: rest, k, f => by
    have ih := mapSet_treeEntries rest k f
    simp only [treeEntries] at ih
    by_cases hk : k' = k
    · simp [treeEntries, mapSet, hk]
    · simp [treeEntries, mapSet, hk, ih]

theorem treeEntries_keys (m : List (String × Field)) :
    (treeEntries m).map Prod.fst = m.map Prod.fst := by
  simp [treeEntries, Function.comp_def]

theorem fieldsToPtr_eq_map : ∀ fs : List Field,
    fieldsToPtr fs = (fs.map Child.tree).map Child.toPtr
  | [] => rfl
  | f :: fs => by simp [fieldsToPtr, Child.toPtr, fieldsToPtr_eq_map fs]

theorem entriesToPtr_eq_map : ∀ m : List (String × Field),
    entriesToPtr m = (treeEntries m).map (fun kc => (kc.1, kc.2.toPtr))
  | [] => rfl
  | (k, f) :: m => by
    have ih := entriesToPtr_eq_map m
    simp only [treeEntries] at ih
    simp [entriesToPtr, treeEntries, Child.toPtr, ih]

/-! ## The tree built by `Convert` -/

mutual
theorem Convert_canonical : ∀ (v : GoValue), v.hasNoField = true →
    v.hasNoNilFieldPtr = true → v.wellSized = true → (Convert v).succeeded = true →
    ∃ t, Convert v = .ok t ∧ t.Canonical
  | .nil, _, _, _, _ =>
    ⟨newNilField, rfl,
      .node _ ⟨rfl, Or.inl ⟨rfl, rfl, rfl, rfl⟩⟩ (by simp [newNilField]) (by simp [newNilField])⟩
  | .fieldPtr _, hn, _, _, _ => by simp [GoValue.hasNoField] at hn
  | .nilFieldPtr, _, hp, _, _ => by simp [GoValue.hasNoNilFieldPtr] at hp
  | .fieldPtrNilInside _, hn, _, _, _ => by simp [GoValue.hasNoField] at hn
  | .field _, hn, _, _, _ => by simp [GoValue.hasNoField] at hn
  | .fieldNilInside _, hn, _, _, _ => by simp [GoValue.hasNoField] at hn
  | .nilPointer, _, _, _, hs => by simp [Convert, ConvertResult.succeeded] at hs
  | .pointer elem, hn, hp, hw, hs => by
    simp only [Convert] at hs ⊢
    simp only [GoValue.hasNoField] at hn
    simp only [GoValue.hasNoNilFieldPtr] at hp
    simp only [GoValue.wellSized] at hw
    exact convertKind_canonical elem _ _ hn hp hw hs
  | .direct val, hn, hp, hw, hs => by
    simp only [Convert] at hs ⊢
    simp only [GoValue.hasNoField] at hn
    simp only [GoValue.hasNoNilFieldPtr] at hp
    simp only [GoValue.wellSized] at hw
    exact convertKind_canonical val _ _ hn hp hw hs
theorem convertKind_canonical : ∀ (val : GoVal) (st : GoValue) (addr : Bool),
    val.hasNoField = true → val.hasNoNilFieldPtr = true → val.wellSized = true →
    (convertKind st addr val).succeeded = true →
    ∃ t, convertKind st addr val = .ok t ∧ t.Canonical
  | .int k i, _, _, _, _, hw, _ => by
    simp only [GoVal.wellSized, decide_eq_true_eq] at hw
    refine ⟨_, rfl,
      .node _ ⟨rfl, Or.inr (Or.inl ⟨rfl, ⟨i, rfl, ?_, ?_⟩, rfl, rfl⟩)⟩ (by simp) (by simp)⟩
    · have : (2 : Int) ^ (k.bits - 1) ≤ 2 ^ 63 := by cases k <;> simp [IntKind.bits]
      omega
    · have : (2 : Int) ^ (k.bits - 1) ≤ 2 ^ 63 := by cases k <;> simp [IntKind.bits]
      omega
  | .uint k n, _, _, _, _, hw, _ => by
    simp only [GoVal.wellSized, decide_eq_true_eq] at hw
    refine ⟨_, rfl,
      .node _ ⟨rfl, Or.inr (Or.inr (Or.inl ⟨rfl, ⟨n, rfl, ?_⟩, rfl, rfl⟩))⟩
        (by simp) (by simp)⟩
    have : (2 : Nat) ^ k.bits ≤ 2 ^ 64 := by cases k <;> simp [UintKind.bits]
    omega
  | .float _ x, _, _, _, _, _, _ =>
    ⟨_, rfl, .node _ ⟨rfl, Or.inr (Or.inr (Or.inr (Or.inl ⟨rfl, ⟨x, rfl⟩, rfl, rfl⟩)))⟩
      (by simp) (by simp)⟩
  | .string s, _, _, _, _, _, _ =>
    ⟨_, rfl,
      .node _ ⟨rfl, Or.inr (Or.inr (Or.inr (Or.inr (Or.inl ⟨rfl, ⟨s, rfl⟩, rfl, rfl⟩))))⟩
        (by simp) (by simp)⟩
  | .bool b, _, _, _, _, _, _ =>
    ⟨_, rfl,
      .node _
        ⟨rfl, Or.inr (Or.inr (Or.inr (Or.inr (Or.inr (Or.inl ⟨rfl, ⟨b, rfl⟩, rfl, rfl⟩)))))⟩
        (by simp) (by simp)⟩
  | .bytes isArray bs, _, addr, _, _, _, hs => by
    simp only [convertKind] at hs ⊢
    cases hb : reflectBytes addr isArray bs with
    | none => rw [hb] at hs; simp [ConvertResult.succeeded] at hs
    | some b =>
      exact ⟨_, rfl,
        .node _
          ⟨rfl, Or.inr (Or.inr (Or.inr (Or.inr (Or.inr (Or.inr
            (Or.inl ⟨rfl, ⟨_, rfl⟩, rfl, rfl⟩))))))⟩
          (by simp) (by simp)⟩
  | .seq xs, _, _, hn, hp, hw, hs => by
    simp only [convertKind] at hs ⊢
    simp only [GoVal.hasNoField] at hn
    simp only [GoVal.hasNoNilFieldPtr] at hp
    simp only [GoVal.wellSized] at hw
    cases hxs : convertElems xs with
    | done cs =>
      obtain ⟨fs, hcs, hfs⟩ := convertElems_canonical xs hn hp hw cs hxs
      subst hcs
      simp only [allTrees_map_tree]
      exact ⟨_, rfl,
        .node _
          ⟨rfl, Or.inr (Or.inr (Or.inr (Or.inr (Or.inr (Or.inr (Or.inr
            (Or.inl ⟨rfl, rfl, rfl⟩)))))))⟩
          hfs (by simp)⟩
    | failed e => rw [hxs] at hs; simp [ConvertResult.succeeded] at hs
    | panicked => rw [hxs] at hs; simp [ConvertResult.succeeded] at hs
  | .map entries, _, _, hn, hp, hw, hs => by
    simp only [convertKind] at hs ⊢
    simp only [GoVal.hasNoField] at hn
    simp only [GoVal.hasNoNilFieldPtr] at hp
    simp only [GoVal.wellSized] at hw
    cases hxs : convertEntries entries [] with
    | done cs =>
      obtain ⟨m, hcs, hm⟩ := convertEntries_canonical entries [] hn hp hw (by simp) cs hxs
      subst hcs
      simp only [allTreeEntries_treeEntries]
      exact ⟨_, rfl,
        .node _
          ⟨rfl, Or.inr (Or.inr (Or.inr (Or.inr (Or.inr (Or.inr (Or.inr
            (Or.inr ⟨rfl, rfl, rfl⟩)))))))⟩
          (by simp) hm⟩
    | failed e => rw [hxs] at hs; simp [ConvertResult.succeeded] at hs
    | panicked => rw [hxs] at hs; simp [ConvertResult.succeeded] at hs
  | .struct fields, _, _, hn, hp, hw, hs => by
    simp only [convertKind] at hs ⊢
    simp only [GoVal.hasNoField] at hn
    simp only [GoVal.hasNoNilFieldPtr] at hp
    simp only [GoVal.wellSized] at hw
    cases hxs : convertFields fields [] with
    | done cs =>
      obtain ⟨m, hcs, hm⟩ := convertFields_canonical fields [] hn hp hw (by simp) cs hxs
      subst hcs
      simp only [allTreeEntries_treeEntries]
      exact ⟨_, rfl,
        .node _
          ⟨rfl, Or.inr (Or.inr (Or.inr (Or.inr (Or.inr (Or.inr (Or.inr
            (Or.inr ⟨rfl, rfl, rfl⟩)))))))⟩
          (by simp) hm⟩
    | failed e => rw [hxs] at hs; simp [ConvertResult.succeeded] at hs
    | panicked => rw [hxs] at hs; simp [ConvertResult.succeeded] at hs
  | .other _, _, _, _, _, _, hs => by simp [convertKind, ConvertResult.succeeded] at hs
theorem convertElems_canonical : ∀ (xs : List GoValue),
    elemsHaveNoField xs = true → elemsHaveNoNilFieldPtr xs = true →
    elemsWellSized xs = true →
    ∀ cs, convertElems xs = .done cs →
      ∃ fs : List Field, cs = fs.map Child.tree ∧ ∀ c ∈ fs, Field.Canonical c
  | [], _, _, _, cs, h => by
    simp only [convertElems, LoopResult.done.injEq] at h
    subst h
    exact ⟨[], rfl, by simp⟩
  | x :: xs, hn, hp, hw, cs, h => by
    simp only [elemsHaveNoField, Bool.and_eq_true] at hn
    simp only [elemsHaveNoNilFieldPtr, Bool.and_eq_true] at hp
    simp only [elemsWellSized, Bool.and_eq_true] at hw
    simp only [convertElems] at h
    cases hx : Convert x with
    | ok f =>
      obtain ⟨t, ht, hc⟩ := Convert_canonical x hn.1 hp.1 hw.1 (by rw [hx]; rfl)
      rw [hx] at ht h
      simp only [ConvertResult.ok.injEq] at ht
      subst ht
      simp only at h
      cases hxs : convertElems xs with
      | done cs' =>
        rw [hxs] at h
        simp only [LoopResult.done.injEq] at h
        subst h
        obtain ⟨fs, hcs, hfs⟩ := convertElems_canonical xs hn.2 hp.2 hw.2 cs' hxs
        subst hcs
        refine ⟨f :: fs, rfl, ?_⟩
        intro c hc'
        rcases List.mem_cons.1 hc' with hc' | hc'
        · subst hc'; exact hc
        · exact hfs c hc'
      | failed e => rw [hxs] at h; simp at h
      | panicked => rw [hxs] at h; simp at h
    | okNil =>
      obtain ⟨t, ht, _⟩ := Convert_canonical x hn.1 hp.1 hw.1 (by rw [hx]; rfl)
      rw [hx] at ht
      cases ht
    | okNilInside t' =>
      obtain ⟨t, ht, _⟩ := Convert_canonical x hn.1 hp.1 hw.1 (by rw [hx]; rfl)
      rw [hx] at ht
      cases ht
    | error f e => rw [hx] at h; simp at h
    | panic => rw [hx] at h; simp at h
theorem convertEntries_canonical : ∀ (es : List (GoKey × GoValue))
    (acc : List (String × Field)),
    entriesHaveNoField es = true → entriesHaveNoNilFieldPtr es = true →
    entriesWellSized es = true →
    (∀ kv ∈ acc, Field.Canonical kv.2) →
    ∀ cs, convertEntries es (treeEntries acc) = .done cs →
      ∃ m : List (String × Field), cs = treeEntries m ∧ ∀ kv ∈ m, Field.Canonical kv.2
  | [], acc, _, _, _, hacc, cs, h => by
    simp only [convertEntries, LoopResult.done.injEq] at h
    subst h
    exact ⟨acc, rfl, hacc⟩
  | (k, v) :: rest, acc, hn, hp, hw, hacc, cs, h => by
    simp only [entriesHaveNoField, Bool.and_eq_true] at hn
    simp only [entriesHaveNoNilFieldPtr, Bool.and_eq_true] at hp
    simp only [entriesWellSized, Bool.and_eq_true] at hw
    simp only [convertEntries] at h
    obtain ⟨t, ht, hc⟩ := Convert_canonical v hn.1 hp.1 hw.1 (by
      cases hx : Convert v with
      | ok f => rfl
      | okNil => rfl
      | okNilInside t => rfl
      | error f e => rw [hx] at h; simp at h
      | panic => rw [hx] at h; simp at h)
    rw [ht] at h
    simp only [mapSet_treeEntries] at h
    exact convertEntries_canonical rest _ hn.2 hp.2 hw.2
      (mapSet_forall Field.Canonical acc _ t hacc hc) cs h
theorem convertFields_canonical : ∀ (fds : List (StructField × GoValue))
    (acc : List (String × Field)),
    fieldsHaveNoField fds = true → fieldsHaveNoNilFieldPtr fds = true →
    fieldsWellSized fds = true →
    (∀ kv ∈ acc, Field.Canonical kv.2) →
    ∀ cs, convertFields fds (treeEntries acc) = .done cs →
      ∃ m : List (String × Field), cs = treeEntries m ∧ ∀ kv ∈ m, Field.Canonical kv.2
  | [], acc, _, _, _, hacc, cs, h => by
    simp only [convertFields, LoopResult.done.injEq] at h
    subst h
    exact ⟨acc, rfl, hacc⟩
  | (sf, v) :: rest, acc, hn, hp, hw, hacc, cs, h => by
    simp only [fieldsHaveNoField, Bool.and_eq_true] at hn
    simp only [fieldsHaveNoNilFieldPtr, Bool.and_eq_true] at hp
    simp only [fieldsWellSized, Bool.and_eq_true] at hw
    simp only [convertFields] at h
    by_cases hex : sf.exported = true
    · simp only [hex, if_true] at h
      obtain ⟨t, ht, hc⟩ := Convert_canonical v hn.1 hp.1 hw.1 (by
        cases hx : Convert v with
        | ok f => rfl
        | okNil => rfl
        | okNilInside t => rfl
        | error f e => rw [hx] at h; simp at h
        | panic => rw [hx] at h; simp at h)
      rw [ht] at h
      simp only [mapSet_treeEntries] at h
      exact convertFields_canonical rest _ hn.2 hp.2 hw.2
        (mapSet_forall Field.Canonical acc _ t hacc hc) cs h
    · have hex' : sf.exported = false := by simpa using hex
      simp only [hex', Bool.false_eq_true, if_false] at h
      exact convertFields_canonical rest acc hn.2 hp.2 hw.2 hacc cs h
end

/-- C2, counterexample. The slice `[]*Field{nil}` holds no pre-built Field and
its integers fit their kinds (it has none), and `Convert` returns it a tree
with a nil error; yet the only child of that tree is the nil pointer, which has
no Type, no payload and no error string. `Convert` returns an argument of type
`*Field` as it is, and so returns the nil pointer for a nil one. -/
theorem Convert_nil_field_pointer_child :
    nilFieldSlice.hasNoField = true ∧ nilFieldSlice.wellSized = true ∧
    Convert .nilFieldPtr = .okNil ∧
    (Convert nilFieldSlice).succeeded = true ∧
    Convert nilFieldSlice = .okNilInside (.node "array" .absent [.nilPtr] [] "") ∧
    ¬ ∃ t : Field, Convert nilFieldSlice = .ok t := by
  refine ⟨rfl, rfl, rfl, rfl, rfl, ?_⟩
  rintro ⟨t, ht⟩
  have h : Convert nilFieldSlice =
      .okNilInside (.node "array" .absent [.nilPtr] [] "") := rfl
  rw [h] at ht
  cases ht

/-- C2, amended. When the input holds no pre-built Field and no nil `*Field`
(and its integers fit their kinds, as Go typing guarantees) and `Convert`
returns a nil error, it returns a tree without nil pointers, and every node of
that tree has one of the nine Types `nil`, `int`, `uint`, `float`, `string`,
`bool`, `[]byte` (the bytes tag), `array`, `map`, carries exactly the payload
that Type determines, with integers in the 64-bit ranges, and has an empty
error string. -/
theorem Convert_tree_canonical (v : GoValue)
    (hn : v.hasNoField = true) (hp : v.hasNoNilFieldPtr = true)
    (hw : v.wellSized = true) (hs : (Convert v).succeeded = true) :
    ∃ t, Convert v = .ok t ∧ t.Canonical :=
  Convert_canonical v hn hp hw hs

theorem Convert_tree_canonical_witness :
    (GoValue.pointer (.struct sampleRecord)).hasNoField = true ∧
    (GoValue.pointer (.struct sampleRecord)).hasNoNilFieldPtr = true ∧
    (GoValue.pointer (.struct sampleRecord)).wellSized = true ∧
    Convert (.pointer (.struct sampleRecord)) = .ok sampleTree ∧
    ∃ t, Convert (.pointer (.struct sampleRecord)) = .ok t ∧ t.Canonical :=
  ⟨rfl, rfl, rfl, rfl,
    Convert_tree_canonical (.pointer (.struct sampleRecord)) rfl rfl rfl rfl⟩

/-- C3. A Field passed to `Convert`, by pointer or by value, of any Type, comes
back unchanged with no error; hence the tree `t` of any successful conversion
is returned unchanged when it is converted again. -/
theorem Convert_field_passthrough (f : Field) (x : GoValue) :
    Convert (.fieldPtr f) = .ok f ∧ Convert (.field f) = .ok f ∧
    (∀ t, Convert x = .ok t → Convert (.fieldPtr t) = .ok t ∧ Convert (.field t) = .ok t) :=
  ⟨rfl, rfl, fun _ _ => ⟨rfl, rfl⟩⟩

theorem Convert_field_passthrough_witness :
    Convert (.fieldPtr (newErrField "boom")) = .ok (newErrField "boom") ∧
    Convert (.field newNilField) = .ok newNilField ∧
    Convert (.fieldPtr sampleTree) = .ok sampleTree :=
  ⟨(Convert_field_passthrough (newErrField "boom") .nil).1,
   (Convert_field_passthrough newNilField .nil).2.1,
   ((Convert_field_passthrough newNilField (.pointer (.struct sampleRecord))).2.2
      sampleTree rfl).1⟩

/-! ### Errors and panics -/

/-- Whenever `Convert` returns an error, the Field it returns is the nil Field. -/
theorem Convert_error_returns_nil_field (v : GoValue) (f : Field) (e : GoValue)
    (h : Convert v = .error f e) : f = newNilField := by
  have hk : ∀ (st : GoValue) (addr : Bool) (val : GoVal),
      convertKind st addr val = .error f e → f = newNilField := by
    intro st addr val hv
    cases val <;> simp only [convertKind] at hv
    case bytes isArray bs =>
      split at hv <;> simp at hv
    case seq xs =>
      cases hxs : convertElems xs with
      | done cs =>
        rw [hxs] at hv
        simp only at hv
        split at hv <;> simp at hv
      | failed e' =>
        rw [hxs] at hv
        simp only [ConvertResult.error.injEq] at hv; exact hv.1.symm
      | panicked => rw [hxs] at hv; simp at hv
    case map es =>
      cases hxs : convertEntries es [] with
      | done cs =>
        rw [hxs] at hv
        simp only at hv
        split at hv <;> simp at hv
      | failed e' =>
        rw [hxs] at hv
        simp only [ConvertResult.error.injEq] at hv; exact hv.1.symm
      | panicked => rw [hxs] at hv; simp at hv
    case struct fs =>
      cases hxs : convertFields fs [] with
      | done cs =>
        rw [hxs] at hv
        simp only at hv
        split at hv <;> simp at hv
      | failed e' =>
        rw [hxs] at hv
        simp only [ConvertResult.error.injEq] at hv; exact hv.1.symm
      | panicked => rw [hxs] at hv; simp at hv
    case other k =>
      simp only [ConvertResult.error.injEq] at hv; exact hv.1.symm
    all_goals simp at hv
  cases v <;> simp only [Convert] at h
  case nilPointer => simp only [ConvertResult.error.injEq] at h; exact h.1.symm
  case pointer el => exact hk _ _ _ h
  case direct val => exact hk _ _ _ h
  all_goals simp at h

/-- C1, failing input. In `[]interface{}{[1]byte{0}, make(chan int)}` the second
element fails to convert (a channel is of an unsupported kind, and `Convert`
returns the nil Field and an error for it), so the error condition of the claim
holds; yet `Convert` of the sequence returns no error: it panics in
`reflect.Value.Bytes` on the first element, a byte array that is not
addressable. With the two elements swapped the error is returned. -/
theorem Convert_panics_before_failing_element :
    failsToConvert (.direct (.other .chan)) ∧
    specErrorCondition bytesThenChan ∧
    Convert bytesThenChan = .panic ∧
    ¬ failsToConvert bytesThenChan ∧
    Convert (.direct (.seq [.direct (.other .chan), .direct (.bytes true [0])])) =
      .error newNilField (.direct (.other .chan)) := by
  refine ⟨⟨_, _, rfl⟩, ⟨.direct (.other .chan), by simp, _, _, rfl⟩, rfl, ?_, rfl⟩
  rintro ⟨f, e, h⟩
  have hp : Convert bytesThenChan = .panic := rfl
  rw [hp] at h
  cases h

/-! ### Sequences -/

/-- A slice of bytes, by value or behind a pointer, and an array of bytes behind
a pointer become a `[]byte` Field that holds exactly those bytes. -/
theorem Convert_byte_slice (bs : List (Fin 256)) (isArray : Bool) :
    Convert (.direct (.bytes false bs)) =
      .ok { typ := "[]byte", Value := .bytes bs, ArrayValue := [], MapValue := [], err := "" } ∧
    Convert (.pointer (.bytes isArray bs)) =
      .ok { typ := "[]byte", Value := .bytes bs, ArrayValue := [], MapValue := [], err := "" } := by
  constructor
  · simp [Convert, convertKind, reflectBytes]
  · simp [Convert, convertKind, reflectBytes]

theorem convertElems_of_trees : ∀ (xs : List GoValue) (fs : List Field),
    List.Forall₂ (fun x f => Convert x = .ok f) xs fs →
    convertElems xs = .done (fs.map Child.tree)
  | [], _, h => by cases h; rfl
  | x :: xs, _, h => by
    cases h with
    | cons hf hrest =>
      simp only [convertElems, hf, convertElems_of_trees xs _ hrest, List.map_cons]

/-- A sequence whose element kind is not Uint8 and whose elements all convert
becomes an array Field with one child per element, the `i`-th child being the
result of `Convert` on the `i`-th element. -/
theorem Convert_seq_children (xs : List GoValue)
    (hall : ∀ x ∈ xs, ∃ t, Convert x = .ok t) :
    ∃ fs, Convert (.direct (.seq xs)) = .ok (arrayField fs) ∧
      fs.length = xs.length ∧
      ∀ (i : Nat) (h1 : i < xs.length) (h2 : i < fs.length),
        Convert (xs.get ⟨i, h1⟩) = .ok (fs.get ⟨i, h2⟩) := by
  have hex : ∃ fs, List.Forall₂ (fun x f => Convert x = .ok f) xs fs := by
    induction xs with
    | nil => exact ⟨[], .nil⟩
    | cons x xs ih =>
      obtain ⟨t, ht⟩ := hall x (List.mem_cons_self _ _)
      obtain ⟨fs, hfs⟩ := ih (fun y hy => hall y (List.mem_cons_of_mem _ hy))
      exact ⟨t :: fs, .cons ht hfs⟩
  obtain ⟨fs, hfs⟩ := hex
  refine ⟨fs, ?_, hfs.length_eq.symm, ?_⟩
  · simp only [Convert, convertKind, convertElems_of_trees xs fs hfs, allTrees_map_tree,
      arrayField]
  · intro i h1 h2
    exact List.Forall₂.get hfs h1 h2

/-- C4, failing input. The byte array `[3]byte{1, 2, 3}` passed by value is a
sequence whose element kind is Uint8, and `Convert` panics on it in
`reflect.Value.Bytes` (the array is not addressable) where the claim requires
a bytes Field; the slice with the same bytes converts. -/
theorem Convert_byte_array_panics :
    Convert (.direct (.bytes true [1, 2, 3])) = .panic ∧
    Convert (.direct (.bytes false [1, 2, 3])) =
      .ok { typ := "[]byte", Value := .bytes [1, 2, 3], ArrayValue := [], MapValue := [],
            err := "" } :=
  ⟨rfl, rfl⟩

/-! ### Maps -/

/-- C6, failing input. For `map[int]string{1: "a", 2: "b"}` both keys have the
string form `<int Value>` under `reflect.Value.String`, so the second entry
overwrites the first: the map Field has one entry where the source has two,
and which value survives depends on the iteration order. -/
theorem Convert_int_keys_collapse :
    GoKey.String (.int "int" 1) = "<int Value>" ∧
    GoKey.String (.int "int" 2) = "<int Value>" ∧
    Convert (.direct (.map [(.int "int" 1, .direct (.string "a")),
                            (.int "int" 2, .direct (.string "b"))])) =
      .ok (mapField [("<int Value>", stringField "b")]) ∧
    Convert (.direct (.map [(.int "int" 2, .direct (.string "b")),
                            (.int "int" 1, .direct (.string "a"))])) =
      .ok (mapField [("<int Value>", stringField "a")]) :=
  ⟨by decide, by decide, rfl, rfl⟩

/-! ### When `Convert` returns an error -/

/-- A result with a nil error is a child for the loop that made the call. -/
theorem succeeded_child (r : ConvertResult) (h : r.succeeded = true) :
    (∃ f, r = .ok f) ∨ r = .okNil ∨ ∃ t, r = .okNilInside t := by
  cases r with
  | ok f => exact Or.inl ⟨f, rfl⟩
  | okNil => exact Or.inr (Or.inl rfl)
  | okNilInside t => exact Or.inr (Or.inr ⟨t, rfl⟩)
  | error f e => simp [ConvertResult.succeeded] at h
  | panic => simp [ConvertResult.succeeded] at h

theorem not_fails_of_succeeded (x : GoValue) (h : (Convert x).succeeded = true) :
    ¬ failsToConvert x := by
  rintro ⟨f, e, h'⟩
  rw [h'] at h
  simp [ConvertResult.succeeded] at h

theorem convertElems_cons_succeeded (x : GoValue) (xs : List GoValue)
    (h : (Convert x).succeeded = true) :
    ∃ c : Child, (Convert x).pointer = some c.toPtr ∧
      convertElems (x :: xs) =
        (match convertElems xs with
          | .done cs => .done (c :: cs)
          | .failed e => .failed e
          | .panicked => .panicked) := by
  rcases succeeded_child _ h with ⟨f, hf⟩ | hf | ⟨t, hf⟩
  · exact ⟨.tree f, by rw [hf]; rfl, by simp only [convertElems, hf]⟩
  · exact ⟨.nilPtr, by rw [hf]; rfl, by simp only [convertElems, hf]⟩
  · exact ⟨.holdsNil t, by rw [hf]; rfl, by simp only [convertElems, hf]⟩

theorem convertEntries_cons_succeeded (k : GoKey) (v : GoValue)
    (rest : List (GoKey × GoValue)) (acc : List (String × Child))
    (h : (Convert v).succeeded = true) :
    ∃ c : Child, (Convert v).pointer = some c.toPtr ∧
      convertEntries ((k, v) :: rest) acc = convertEntries rest (mapSet acc k.String c) := by
  rcases succeeded_child _ h with ⟨f, hf⟩ | hf | ⟨t, hf⟩
  · exact ⟨.tree f, by rw [hf]; rfl, by simp only [convertEntries, hf]⟩
  · exact ⟨.nilPtr, by rw [hf]; rfl, by simp only [convertEntries, hf]⟩
  · exact ⟨.holdsNil t, by rw [hf]; rfl, by simp only [convertEntries, hf]⟩

theorem convertFields_cons_succeeded (sf : StructField) (v : GoValue)
    (rest : List (StructField × GoValue)) (acc : List (String × Child))
    (hex : sf.exported = true) (h : (Convert v).succeeded = true) :
    ∃ c : Child, (Convert v).pointer = some c.toPtr ∧
      convertFields ((sf, v) :: rest) acc =
        convertFields rest (mapSet acc sf.publicName c) := by
  rcases succeeded_child _ h with ⟨f, hf⟩ | hf | ⟨t, hf⟩
  · exact ⟨.tree f, by rw [hf]; rfl, by simp only [convertFields, hex, if_true, hf]⟩
  · exact ⟨.nilPtr, by rw [hf]; rfl, by simp only [convertFields, hex, if_true, hf]⟩
  · exact ⟨.holdsNil t, by rw [hf]; rfl, by simp only [convertFields, hex, if_true, hf]⟩

theorem result_cases (r : ConvertResult) :
    r.succeeded = true ∨ (∃ f e, r = .error f e) ∨ r = .panic := by
  cases r with
  | ok f => exact Or.inl rfl
  | okNil => exact Or.inl rfl
  | okNilInside t => exact Or.inl rfl
  | error f e => exact Or.inr (Or.inl ⟨f, e, rfl⟩)
  | panic => exact Or.inr (Or.inr rfl)

theorem convertElems_failed_iff : ∀ (xs : List GoValue), convertElems xs ≠ .panicked →
    ((∃ e, convertElems xs = .failed e) ↔ ∃ x ∈ xs, failsToConvert x)
  | [], _ => by simp [convertElems]
  | x :: xs, hnp => by
    rcases result_cases (Convert x) with hs | ⟨f, e, hx⟩ | hx
    · obtain ⟨c, _, hc⟩ := convertElems_cons_succeeded x xs hs
      rw [hc] at hnp ⊢
      have hnp' : convertElems xs ≠ .panicked := by
        intro h; rw [h] at hnp; exact hnp rfl
      have ih := convertElems_failed_iff xs hnp'
      have hxf := not_fails_of_succeeded x hs
      constructor
      · rintro ⟨e, he⟩
        cases hxs : convertElems xs with
        | done fs => rw [hxs] at he; cases he
        | failed e' =>
          obtain ⟨y, hy, hyf⟩ := ih.1 ⟨e', hxs⟩
          exact ⟨y, List.mem_cons_of_mem _ hy, hyf⟩
        | panicked => exact absurd hxs hnp'
      · rintro ⟨y, hy, hyf⟩
        rcases List.mem_cons.1 hy with hy | hy
        · subst hy; exact absurd hyf hxf
        · obtain ⟨e, he⟩ := ih.2 ⟨y, hy, hyf⟩
          exact ⟨e, by rw [he]⟩
    · simp only [convertElems, hx]
      exact ⟨fun _ => ⟨x, List.mem_cons_self _ _, f, e, hx⟩, fun _ => ⟨e, rfl⟩⟩
    · simp only [convertElems, hx] at hnp
      exact absurd rfl hnp

theorem convertEntries_failed_iff : ∀ (es : List (GoKey × GoValue))
    (acc : List (String × Child)), convertEntries es acc ≠ .panicked →
    ((∃ e, convertEntries es acc = .failed e) ↔ ∃ p ∈ es, failsToConvert p.2)
  | [], acc, _ => by simp [convertEntries]
  | (k, v) :: rest, acc, hnp => by
    rcases result_cases (Convert v) with hs | ⟨f, e, hx⟩ | hx
    · obtain ⟨c, _, hc⟩ := convertEntries_cons_succeeded k v rest acc hs
      rw [hc] at hnp ⊢
      have ih := convertEntries_failed_iff rest _ hnp
      have hxf := not_fails_of_succeeded v hs
      rw [ih]
      constructor
      · rintro ⟨p, hp, hpf⟩
        exact ⟨p, List.mem_cons_of_mem _ hp, hpf⟩
      · rintro ⟨p, hp, hpf⟩
        rcases List.mem_cons.1 hp with hp | hp
        · subst hp; exact absurd hpf hxf
        · exact ⟨p, hp, hpf⟩
    · simp only [convertEntries, hx]
      exact ⟨fun _ => ⟨(k, v), List.mem_cons_self _ _, f, e, hx⟩, fun _ => ⟨e, rfl⟩⟩
    · simp only [convertEntries, hx] at hnp
      exact absurd rfl hnp

theorem convertFields_failed_iff : ∀ (fds : List (StructField × GoValue))
    (acc : List (String × Child)), convertFields fds acc ≠ .panicked →
    ((∃ e, convertFields fds acc = .failed e) ↔
      ∃ p ∈ fds, p.1.exported = true ∧ failsToConvert p.2)
  | [], acc, _ => by simp [convertFields]
  | (sf, v) :: rest, acc, hnp => by
    by_cases hex : sf.exported = true
    · rcases result_cases (Convert v) with hs | ⟨f, e, hx⟩ | hx
      · obtain ⟨c, _, hc⟩ := convertFields_cons_succeeded sf v rest acc hex hs
        rw [hc] at hnp ⊢
        have ih := convertFields_failed_iff rest _ hnp
        have hxf := not_fails_of_succeeded v hs
        rw [ih]
        constructor
        · rintro ⟨p, hp, hpf⟩
          exact ⟨p, List.mem_cons_of_mem _ hp, hpf⟩
        · rintro ⟨p, hp, hpe, hpf⟩
          rcases List.mem_cons.1 hp with hp | hp
          · subst hp; exact absurd hpf hxf
          · exact ⟨p, hp, hpe, hpf⟩
      · simp only [convertFields, hex, if_true, hx]
        exact ⟨fun _ => ⟨(sf, v), List.mem_cons_self _ _, hex, f, e, hx⟩, fun _ => ⟨e, rfl⟩⟩
      · simp only [convertFields, hex, if_true, hx] at hnp
        exact absurd rfl hnp
    · have hex' : sf.exported = false := by simpa using hex
      simp only [convertFields, hex', Bool.false_eq_true, if_false] at hnp ⊢
      rw [convertFields_failed_iff rest acc hnp]
      constructor
      · rintro ⟨p, hp, hpf⟩
        exact ⟨p, List.mem_cons_of_mem _ hp, hpf⟩
      · rintro ⟨p, hp, hpe, hpf⟩
        rcases List.mem_cons.1 hp with hp | hp
        · subst hp; exact absurd hpe hex
        · exact ⟨p, hp, hpe, hpf⟩

theorem convertKind_error_iff (st : GoValue) (addr : Bool) (val : GoVal)
    (hnp : convertKind st addr val ≠ .panic) :
    (∃ f e, convertKind st addr val = .error f e) ↔ kindErrorCondition val := by
  cases val with
  | bytes isArray bs =>
    simp only [convertKind, kindErrorCondition, iff_false]
    rintro ⟨f, e, h⟩
    split at h <;> cases h
  | seq xs =>
    simp only [convertKind, kindErrorCondition] at hnp ⊢
    have hnp' : convertElems xs ≠ .panicked := by
      intro h; rw [h] at hnp; exact hnp rfl
    rw [← convertElems_failed_iff xs hnp']
    cases hxs : convertElems xs with
    | done cs => cases hcs : allTrees cs <;> simp [hcs]
    | failed e => simp
    | panicked => simp
  | map es =>
    simp only [convertKind, kindErrorCondition] at hnp ⊢
    have hnp' : convertEntries es [] ≠ .panicked := by
      intro h; rw [h] at hnp; exact hnp rfl
    rw [← convertEntries_failed_iff es [] hnp']
    cases hxs : convertEntries es [] with
    | done cs => cases hcs : allTreeEntries cs <;> simp [hcs]
    | failed e => simp
    | panicked => simp
  | struct fs =>
    simp only [convertKind, kindErrorCondition] at hnp ⊢
    have hnp' : convertFields fs [] ≠ .panicked := by
      intro h; rw [h] at hnp; exact hnp rfl
    rw [← convertFields_failed_iff fs [] hnp']
    cases hxs : convertFields fs [] with
    | done cs => cases hcs : allTreeEntries cs <;> simp [hcs]
    | failed e => simp
    | panicked => simp
  | other k => simp [convertKind, kindErrorCondition]
  | _ => simp [convertKind, kindErrorCondition]

/-- On every input on which `Convert` does not panic, it returns an error
exactly when the spec's error condition holds. -/
theorem Convert_error_iff_of_no_panic (v : GoValue) (hnp : Convert v ≠ .panic) :
    failsToConvert v ↔ specErrorCondition v := by
  cases v with
  | nil => simp [failsToConvert, Convert, specErrorCondition]
  | fieldPtr f => simp [failsToConvert, Convert, specErrorCondition]
  | nilFieldPtr => simp [failsToConvert, Convert, specErrorCondition]
  | fieldPtrNilInside t => simp [failsToConvert, Convert, specErrorCondition]
  | field f => simp [failsToConvert, Convert, specErrorCondition]
  | fieldNilInside t => simp [failsToConvert, Convert, specErrorCondition]
  | nilPointer => simp [failsToConvert, Convert, specErrorCondition]
  | pointer el =>
    simp only [Convert] at hnp
    simp only [failsToConvert, Convert, specErrorCondition]
    exact convertKind_error_iff _ _ _ hnp
  | direct val =>
    simp only [Convert] at hnp
    simp only [failsToConvert, Convert, specErrorCondition]
    exact convertKind_error_iff _ _ _ hnp

/-! ### Maps with distinct key strings -/

theorem convertEntries_distinct : ∀ (es : List (GoKey × GoValue))
    (acc : List (String × Field)),
    (acc.map Prod.fst ++ es.map (fun p => p.1.String)).Nodup →
    (∀ p ∈ es, ∃ t, Convert p.2 = .ok t) →
    ∃ ts, convertEntries es (treeEntries acc) = .done (treeEntries (acc ++ ts)) ∧
      ts.map Prod.fst = es.map (fun p => p.1.String) ∧
      ∀ p ∈ es, ∃ t, Convert p.2 = .ok t ∧ (p.1.String, t) ∈ ts
  | [], acc, _, _ => ⟨[], by simp [convertEntries], by simp, by simp⟩
  | (k, v) :: rest, acc, hnd, hconv => by
    obtain ⟨t, ht⟩ := hconv (k, v) (List.mem_cons_self _ _)
    simp only [List.map_cons] at hnd
    have hnot : k.String ∉ acc.map Prod.fst := by
      intro hmem
      exact (List.nodup_append.1 hnd).2.2 hmem (List.mem_cons_self _ _)
    have hnd' : ((acc ++ [(k.String, t)]).map Prod.fst ++
        rest.map (fun p => p.1.String)).Nodup := by
      simpa using hnd
    obtain ⟨ts, h1, h2, h3⟩ := convertEntries_distinct rest (acc ++ [(k.String, t)]) hnd'
      (fun p hp => hconv p (List.mem_cons_of_mem _ hp))
    refine ⟨(k.String, t) :: ts, ?_, ?_, ?_⟩
    · simp only [convertEntries, ht, mapSet_treeEntries, mapSet_append_of_not_mem _ _ _ hnot, h1]
      simp
    · simp [h2]
    · intro p hp
      rcases List.mem_cons.1 hp with hp | hp
      · subst hp
        exact ⟨t, ht, List.mem_cons_self _ _⟩
      · obtain ⟨t', ht', hmem⟩ := h3 p hp
        exact ⟨t', ht', List.mem_cons_of_mem _ hmem⟩

/-- A map whose keys have pairwise distinct string forms under
`reflect.Value.String` (as the keys of kind String of a Go map always have) and
whose values all convert becomes a map Field with one entry per source key,
keyed by that string form and holding the result of `Convert` on the value. -/
theorem Convert_map_distinct_key_strings (es : List (GoKey × GoValue))
    (hkeys : (es.map (fun p => p.1.String)).Nodup)
    (hconv : ∀ p ∈ es, ∃ t, Convert p.2 = .ok t) :
    ∃ m, Convert (.direct (.map es)) = .ok (mapField m) ∧
      m.map Prod.fst = es.map (fun p => p.1.String) ∧
      m.length = es.length ∧
      ∀ p ∈ es, ∃ t, Convert p.2 = .ok t ∧ mapGet m p.1.String = some t := by
  obtain ⟨ts, h1, h2, h3⟩ := convertEntries_distinct es [] (by simpa using hkeys) hconv
  simp only [List.nil_append] at h1
  have h1' : convertEntries es [] = .done (treeEntries ts) := h1
  refine ⟨ts, ?_, h2, ?_, ?_⟩
  · simp only [Convert, convertKind, h1', allTreeEntries_treeEntries, mapField]
  · have := congrArg List.length h2
    simpa using this
  · intro p hp
    obtain ⟨t, ht, hmem⟩ := h3 p hp
    exact ⟨t, ht, mapGet_of_mem_nodup ts _ t (by rw [h2]; exact hkeys) hmem⟩

/-! ### Structs -/

/-- The key of a struct field is its json tag when it has one, else its name. -/
theorem publicName_eq (sf : StructField) :
    sf.publicName = if sf.jsonTag = "" then sf.Name else sf.jsonTag := by
  unfold StructField.publicName
  by_cases h : sf.jsonTag = "" <;> simp [h]

theorem convertFields_exported : ∀ (fds : List (StructField × GoValue))
    (acc : List (String × Child)),
    (acc.map Prod.fst ++
      (fds.filter (fun p => p.1.exported)).map (fun p => p.1.publicName)).Nodup →
    (∀ p ∈ fds, p.1.exported = true → (Convert p.2).succeeded = true) →
    ∃ ts : List (String × Child), convertFields fds acc = .done (acc ++ ts) ∧
      ts.map Prod.fst = (fds.filter (fun p => p.1.exported)).map (fun p => p.1.publicName) ∧
      ∀ p ∈ fds, p.1.exported = true →
        ∃ c : Child, (Convert p.2).pointer = some c.toPtr ∧ (p.1.publicName, c) ∈ ts
  | [], acc, _, _ => ⟨[], by simp [convertFields], by simp, by simp⟩
  | (sf, v) :: rest, acc, hnd, hconv => by
    by_cases hex : sf.exported = true
    · obtain ⟨c, hc, hstep⟩ := convertFields_cons_succeeded sf v rest acc hex
        (hconv (sf, v) (List.mem_cons_self _ _) hex)
      simp only [List.filter_cons, hex, if_true, List.map_cons] at hnd
      have hnot : sf.publicName ∉ acc.map Prod.fst := by
        intro hmem
        have := (List.nodup_append.1 hnd).2.2
        exact this hmem (List.mem_cons_self _ _)
      have hnd' : ((acc ++ [(sf.publicName, c)]).map Prod.fst ++
          (rest.filter (fun p => p.1.exported)).map (fun p => p.1.publicName)).Nodup := by
        simpa using hnd
      obtain ⟨ts, h1, h2, h3⟩ := convertFields_exported rest (acc ++ [(sf.publicName, c)]) hnd'
        (fun p hp => hconv p (List.mem_cons_of_mem _ hp))
      refine ⟨(sf.publicName, c) :: ts, ?_, ?_, ?_⟩
      · rw [hstep, mapSet_append_of_not_mem _ _ _ hnot, h1]
        simp
      · simp [List.filter_cons, hex, h2]
      · intro p hp hpe
        rcases List.mem_cons.1 hp with hp | hp
        · subst hp
          exact ⟨c, hc, List.mem_cons_self _ _⟩
        · obtain ⟨c', hc', hmem⟩ := h3 p hp hpe
          exact ⟨c', hc', List.mem_cons_of_mem _ hmem⟩
    · have hex' : sf.exported = false := by simpa using hex
      simp only [List.filter_cons, hex', Bool.false_eq_true, if_false] at hnd
      obtain ⟨ts, h1, h2, h3⟩ := convertFields_exported rest acc hnd
        (fun p hp => hconv p (List.mem_cons_of_mem _ hp))
      refine ⟨ts, ?_, ?_, ?_⟩
      · simp only [convertFields, hex', Bool.false_eq_true, if_false, h1]
      · simp [List.filter_cons, hex', h2]
      · intro p hp hpe
        rcases List.mem_cons.1 hp with hp | hp
        · subst hp
          exact absurd hpe hex
        · exact h3 p hp hpe

/-- The result of the struct case, whatever the children are. -/
theorem convertKind_struct_pointer (st : GoValue) (addr : Bool)
    (fields : List (StructField × GoValue)) (ts : List (String × Child))
    (h : convertFields fields [] = .done ts) :
    (convertKind st addr (.struct fields)).pointer =
      some (.node "map" .absent [] (ts.map (fun kc => (kc.1, kc.2.toPtr))) "") := by
  simp only [convertKind, h]
  cases hts : allTreeEntries ts with
  | none => rfl
  | some m =>
    have := allTreeEntries_eq_some ts m hts
    subst this
    simp only [ConvertResult.pointer, Field.toPtr, fieldsToPtr, entriesToPtr_eq_map]

/-- C5. For a struct, passed by value or by pointer, whose exported fields have
pairwise distinct public names (the json tag when it is not empty, else the
declared name) and all convert (`Convert` returns a nil error for each),
`Convert` returns, with a nil error, a map Field whose keys are exactly those
public names, each key holding the `*Field` that `Convert` returned for that
field. Nothing is assumed of the unexported fields: whatever they hold, they
add no key and cause no error. -/
theorem Convert_struct_exported_fields (fields : List (StructField × GoValue))
    (hnames : ((fields.filter (fun p => p.1.exported)).map
      (fun p => if p.1.jsonTag = "" then p.1.Name else p.1.jsonTag)).Nodup)
    (hconv : ∀ p ∈ fields, p.1.exported = true → (Convert p.2).succeeded = true) :
    ∃ m : List (String × FieldPtr),
      (Convert (.direct (.struct fields))).pointer = some (.node "map" .absent [] m "") ∧
      (Convert (.pointer (.struct fields))).pointer = some (.node "map" .absent [] m "") ∧
      m.map Prod.fst =
        (fields.filter (fun p => p.1.exported)).map
          (fun p => if p.1.jsonTag = "" then p.1.Name else p.1.jsonTag) ∧
      ∀ p ∈ fields, p.1.exported = true →
        ∃ c, (Convert p.2).pointer = some c ∧
          mapGet m (if p.1.jsonTag = "" then p.1.Name else p.1.jsonTag) = some c := by
  have hfun : (fun p : StructField × GoValue =>
      if p.1.jsonTag = "" then p.1.Name else p.1.jsonTag) = (fun p => p.1.publicName) := by
    funext p
    exact (publicName_eq p.1).symm
  rw [hfun] at hnames ⊢
  obtain ⟨ts, h1, h2, h3⟩ := convertFields_exported fields [] (by simpa using hnames) hconv
  simp only [List.nil_append] at h1
  have hkeys : (ts.map (fun kc => (kc.1, kc.2.toPtr))).map Prod.fst =
      (fields.filter (fun p => p.1.exported)).map (fun p => p.1.publicName) := by
    rw [← h2]
    simp [Function.comp_def]
  refine ⟨ts.map (fun kc => (kc.1, kc.2.toPtr)), ?_, ?_, hkeys, ?_⟩
  · simp only [Convert]
    exact convertKind_struct_pointer _ _ fields ts h1
  · simp only [Convert]
    exact convertKind_struct_pointer _ _ fields ts h1
  · intro p hp hpe
    obtain ⟨c, hc, hmem⟩ := h3 p hp hpe
    refine ⟨c.toPtr, hc, ?_⟩
    rw [← publicName_eq]
    exact mapGet_of_mem_nodup _ _ _ (by rw [hkeys]; exact hnames)
      (List.mem_map.2 ⟨(p.1.publicName, c), hmem, rfl⟩)

theorem Convert_struct_exported_fields_witness :
    Convert (.direct (.struct mixedRecord)) =
      .okNilInside (.node "map" .absent []
        [("Id", (intField 7).toPtr), ("title", (stringField "a").toPtr), ("Next", .nilPtr)] "") ∧
    ∃ m : List (String × FieldPtr),
      (Convert (.direct (.struct mixedRecord))).pointer = some (.node "map" .absent [] m "") ∧
      (Convert (.pointer (.struct mixedRecord))).pointer = some (.node "map" .absent [] m "") ∧
      m.map Prod.fst = ["Id", "title", "Next"] ∧
      ∀ p ∈ mixedRecord, p.1.exported = true →
        ∃ c, (Convert p.2).pointer = some c ∧
          mapGet m (if p.1.jsonTag = "" then p.1.Name else p.1.jsonTag) = some c :=
  ⟨rfl, Convert_struct_exported_fields mixedRecord (by decide)
    (by
      intro p hp hpe
      simp only [mixedRecord, List.mem_cons, List.mem_singleton, List.not_mem_nil,
        or_false] at hp
      rcases hp with hp | hp | hp | hp
      · subst hp; rfl
      · subst hp; rfl
      · subst hp; rfl
      · subst hp; simp at hpe)⟩

/-! ## Navigation with `Get` -/

theorem Error_of_map (m : Field) (hm : m.typ = "map") (he : m.err = "") : m.Error = none := by
  simp [Field.Error, hm, he]

theorem getLoop_map_step (paths : List String) (i : Nat) (k : String) (rest : List String)
    (tmp : Field) (hm : tmp.typ = "map") :
    getLoop paths i (k :: rest) tmp =
      match mapGet tmp.MapValue k with
      | none => .ret (newErrField ("map路径" ++ Join (paths.take (i + 1)) "||" ++ "不存在"))
      | some mf => getLoop paths (i + 1) rest mf := by
  simp [getLoop, hm]

theorem getLoop_specWalk : ∀ (rest pre : List String) (tmp : Field),
    (∀ e, specWalk tmp rest = .reached e →
      getLoop (pre ++ rest) pre.length rest tmp = .ret e) ∧
    (∀ i, specWalk tmp rest = .missing i →
      getLoop (pre ++ rest) pre.length rest tmp =
        .ret (newErrField
          ("map路径" ++ Join ((pre ++ rest).take (pre.length + i + 1)) "||" ++ "不存在")))
  | [], pre, tmp => by
    constructor
    · intro e h
      simp only [specWalk, Walk.reached.injEq] at h
      subst h
      simp [getLoop]
    · intro i h
      simp [specWalk] at h
  | k :: rest, pre, tmp => by
    have ih := getLoop_specWalk rest (pre ++ [k])
    have hpre : pre ++ [k] ++ rest = pre ++ k :: rest := by simp
    have hlen : (pre ++ [k]).length = pre.length + 1 := by simp
    by_cases hm : tmp.typ = "map"
    · rw [getLoop_map_step _ _ _ _ _ hm]
      cases hg : mapGet tmp.MapValue k with
      | none =>
        constructor
        · intro e h
          simp [specWalk, hm, hg] at h
        · intro i h
          simp only [specWalk, hm, hg, if_true, Walk.missing.injEq] at h
          subst h
          rfl
      | some c =>
        have ihc := ih c
        rw [hpre, hlen] at ihc
        constructor
        · intro e h
          simp only [specWalk, hm, hg, if_true] at h
          cases hw : specWalk c rest with
          | reached e' =>
            rw [hw] at h
            simp only [Walk.reached.injEq] at h
            subst h
            exact ihc.1 _ hw
          | missing j => rw [hw] at h; simp at h
          | offMap => rw [hw] at h; simp at h
        · intro i h
          simp only [specWalk, hm, hg, if_true] at h
          cases hw : specWalk c rest with
          | reached e' => rw [hw] at h; simp at h
          | missing j =>
            rw [hw] at h
            simp only [Walk.missing.injEq] at h
            subst h
            have := ihc.2 j hw
            simpa [Nat.add_assoc, Nat.add_comm 1 j] using this
          | offMap => rw [hw] at h; simp at h
    · constructor
      · intro e h
        simp [specWalk, hm] at h
      · intro i h
        simp [specWalk, hm] at h

/-- C7. On a map Field that is not in error state, a path that walks through
map Fields only is followed key by key: when every segment is a key at its
level, `Get` returns the entry reached; when segment `i` is the first missing
key, `Get` returns the err Field whose message is the failing prefix
`p[0..i]`, joined by the separator, between the two fixed parts of the text. -/
theorem Get_follows_map_path (m : Field) (p : List String)
    (hm : m.typ = "map") (he : m.err = "") :
    (∀ e, specWalk m p = .reached e → m.Get p = .ret e) ∧
    (∀ i, specWalk m p = .missing i →
      m.Get p = .ret (newErrField ("map路径" ++ Join (p.take (i + 1)) "||" ++ "不存在"))) := by
  have h := getLoop_specWalk p [] m
  simp only [List.nil_append, List.length_nil, Nat.zero_add] at h
  simp only [Field.Get, Error_of_map m hm he]
  exact h

theorem Get_follows_map_path_witness :
    specWalk nestedMap ["a", "b"] = .reached (intField 7) ∧
    nestedMap.Get ["a", "b"] = .ret (intField 7) ∧
    specWalk nestedMap ["a", "c", "d"] = .missing 1 ∧
    nestedMap.Get ["a", "c", "d"] = .ret (newErrField "map路径a||c不存在") :=
  ⟨rfl, (Get_follows_map_path nestedMap ["a", "b"] rfl rfl).1 _ rfl, rfl,
    (Get_follows_map_path nestedMap ["a", "c", "d"] rfl rfl).2 1 rfl⟩

theorem getLoop_single_map (paths : List String) (i : Nat) (k : String) (tmp : Field)
    (hm : tmp.typ = "map") :
    getLoop paths i [k] tmp =
      match mapGet tmp.MapValue k with
      | none => .ret (newErrField ("map路径" ++ Join (paths.take (i + 1)) "||" ++ "不存在"))
      | some mf => .ret mf := by
  rw [getLoop_map_step _ _ _ _ _ hm]
  cases mapGet tmp.MapValue k <;> simp [getLoop]

/-- C10, the claim as stated fails: on `{"a": {"b": 7}}` with the absent inner
key `c`, the two-segment lookup reports the path `a||c` and the chained lookup
reports `c`, so the two err Fields differ. -/
theorem Get_chain_message_differs :
    nestedMap.typ = "map" ∧ nestedMap.err = "" ∧
    mapGet nestedMap.MapValue "a" = some (mapField [("b", intField 7)]) ∧
    nestedMap.Get ["a", "c"] = .ret (newErrField "map路径a||c不存在") ∧
    (nestedMap.Get ["a"]).andThen (fun g => g.Get ["c"]) =
      .ret (newErrField "map路径c不存在") ∧
    nestedMap.Get ["a", "c"] ≠ (nestedMap.Get ["a"]).andThen (fun g => g.Get ["c"]) := by
  refine ⟨rfl, rfl, rfl, rfl, rfl, ?_⟩
  intro h
  have h1 : nestedMap.Get ["a", "c"] = .ret (newErrField "map路径a||c不存在") := rfl
  have h2 : (nestedMap.Get ["a"]).andThen (fun g => g.Get ["c"]) =
      .ret (newErrField "map路径c不存在") := rfl
  rw [h1, h2] at h
  have h3 := congrArg (fun o => match o with | Outcome.ret f => f.err | .panic => "") h
  revert h3
  decide

/-- C10, amended. For a map Field `f` (not in error state) whose entry under `a`
is a map Field `inner` (not in error state): when `b` is a key of `inner`, the
lookups `f.Get(a, b)` and `f.Get(a).Get(b)` return the same entry; when `b` is
absent both return an err Field, the first naming the path `a||b` and the
second naming `b`. -/
theorem Get_chain_agrees_when_present (f inner : Field) (a b : String)
    (hf : f.typ = "map") (hfe : f.err = "")
    (ha : mapGet f.MapValue a = some inner)
    (hi : inner.typ = "map") (hie : inner.err = "") :
    (∀ e, mapGet inner.MapValue b = some e →
      f.Get [a, b] = .ret e ∧ (f.Get [a]).andThen (fun g => g.Get [b]) = .ret e) ∧
    (mapGet inner.MapValue b = none →
      f.Get [a, b] = .ret (newErrField ("map路径" ++ Join [a, b] "||" ++ "不存在")) ∧
      (f.Get [a]).andThen (fun g => g.Get [b]) =
        .ret (newErrField ("map路径" ++ Join [b] "||" ++ "不存在"))) := by
  have h1 : f.Get [a] = .ret inner := by
    simp only [Field.Get, Error_of_map f hf hfe, getLoop_single_map _ _ _ _ hf, ha]
  have h2 : f.Get [a, b] = getLoop [a, b] 1 [b] inner := by
    simp only [Field.Get, Error_of_map f hf hfe, getLoop_map_step _ _ _ _ _ hf, ha]
  have h3 : inner.Get [b] = getLoop [b] 0 [b] inner := by
    simp only [Field.Get, Error_of_map inner hi hie]
  rw [h1, h2]
  simp only [Outcome.andThen, h3, getLoop_single_map _ _ _ _ hi]
  constructor
  · intro e he
    simp [he]
  · intro hn
    simp [hn]

theorem Get_chain_agrees_when_present_witness :
    nestedMap.Get ["a", "b"] = .ret (intField 7) ∧
    (nestedMap.Get ["a"]).andThen (fun g => g.Get ["b"]) = .ret (intField 7) :=
  (Get_chain_agrees_when_present nestedMap (mapField [("b", intField 7)]) "a" "b"
    rfl rfl rfl rfl rfl).1 (intField 7) rfl

/-! ### Arrays -/

theorem Error_of_array (a : Field) (ha : a.typ = "array") (he : a.err = "") :
    a.Error = none := by
  simp [Field.Error, ha, he]

/-- What `Get` does with one segment on an array Field: the element for an index
within bounds, an err Field for a segment `Atoi` rejects or an index beyond the
last element, and a panic for a negative index. -/
theorem Get_array_segment (a : Field) (s : String) (ha : a.typ = "array") (he : a.err = "") :
    (∀ (i : Nat) (hi : i < a.ArrayValue.length), Atoi s = some (i : Int) →
      a.Get [s] = .ret (a.ArrayValue.get ⟨i, hi⟩)) ∧
    (Atoi s = none →
      a.Get [s] = .ret (newErrField ("array路径 [" ++ Join [s] "." ++ "] 不存在"))) ∧
    (∀ i : Int, Atoi s = some i → (a.ArrayValue.length : Int) ≤ i →
      a.Get [s] = .ret (newErrField ("array路径 [" ++ Join [s] "." ++ "] 不存在"))) ∧
    (∀ i : Int, Atoi s = some i → i < 0 → a.Get [s] = .panic) := by
  have hg : a.Get [s] = getLoop [s] 0 [s] a := by
    simp only [Field.Get, Error_of_array a ha he]
  rw [hg]
  refine ⟨?_, ?_, ?_, ?_⟩
  · intro i hi hs
    have h1 : ¬ ((i : Int) > (a.ArrayValue.length : Int) - 1) := by omega
    have h2 : ¬ ((i : Int) < 0) := by omega
    simp [getLoop, ha, hs, h1, h2, List.getElem?_eq_getElem hi]
  · intro hs
    simp [getLoop, ha, hs]
  · intro i hs hge
    have h1 : i > (a.ArrayValue.length : Int) - 1 := by omega
    simp [getLoop, ha, hs, h1]
  · intro i hs hneg
    have h1 : ¬ (i > (a.ArrayValue.length : Int) - 1) := by omega
    simp [getLoop, ha, hs, h1, hneg]

/-- C8, failing input. On the array Field `[1, 2, 3]` the segment `"-1"` is
parsed by `Atoi` to `-1`, passes the only bound check `index > len - 1`, and
the indexing `ArrayValue[-1]` panics; the same happens below the key `nums`
of the sample tree. -/
theorem Get_array_negative_index_panics :
    Atoi "-1" = some (-1) ∧
    (arrayField [intField 1, intField 2, intField 3]).Get ["-1"] = .panic ∧
    sampleTree.Get ["nums", "-1"] = .panic ∧
    sampleTree.Get ["nums", "1"] = .ret (intField 2) ∧
    sampleTree.Get ["nums", "9"] = .ret (newErrField "array路径 [nums.9] 不存在") :=
  ⟨by decide, rfl, rfl, rfl, rfl⟩

/-! ### Scalars -/

/-- On a scalar Field that is not in error state `Get` returns the scalar
itself whatever the path: the guard `num-i < 0` of the scalar case never
holds inside the loop. -/
theorem Get_scalar_ignores_path (s : Field) (p : List String)
    (hs : s.typ = "int" ∨ s.typ = "uint" ∨ s.typ = "float" ∨ s.typ = "string" ∨
      s.typ = "bool") (he : s.err = "") :
    s.Get p = .ret s := by
  have hn : s.typ ≠ "nil" := by
    rcases hs with h | h | h | h | h <;> rw [h] <;> decide
  have hr : s.typ ≠ "err" := by
    rcases hs with h | h | h | h | h <;> rw [h] <;> decide
  have hE : s.Error = none := by simp [Field.Error, he, hn]
  simp only [Field.Get, hE]
  cases p with
  | nil => simp [getLoop]
  | cons k rest =>
    have hlen : ¬ (((k :: rest).length : Int) - ((0 : Nat) : Int) < 0) := by
      simp only [List.length_cons]; push_cast; omega
    simp only [getLoop, hn, hr, or_self, if_false, hs, if_true, hlen]

/-- C9, failing input. The int Field holding 5 is not in error state, and
`Get("x")` returns that very Field, of Type `int`, where the claim requires an
err Field; `Get()` returns it as well. -/
theorem Get_scalar_with_path_returns_scalar :
    (intField 5).Get [] = .ret (intField 5) ∧
    (intField 5).Get ["x"] = .ret (intField 5) ∧
    (intField 5).typ = "int" ∧
    sampleTree.Get ["name", "x", "y"] = .ret (stringField "a") :=
  ⟨rfl, rfl, rfl, rfl⟩


/-! ## Coercion accessors -/

theorem Error_none (f : Field) (he : f.err = "") (hn : f.typ ≠ "nil") : f.Error = none := by
  simp [Field.Error, he, hn]

theorem toInt64_of_uint (u : Nat) (hu : u < 2 ^ 64) :
    toInt64 (u : Int) = if u < 2 ^ 63 then (u : Int) else (u : Int) - 2 ^ 64 := by
  unfold toInt64
  split <;> omega

theorem toInt64_of_int64 (i : Int) (h1 : -(2 ^ 63 : Int) ≤ i) (h2 : i < 2 ^ 63) :
    toInt64 i = i := by
  unfold toInt64
  omega

theorem toUint64_of_int64 (i : Int) (h1 : -(2 ^ 63 : Int) ≤ i) (h2 : i < 2 ^ 63) :
    toUint64 i = if 0 ≤ i then i.toNat else (i + 2 ^ 64).toNat := by
  unfold toUint64
  split <;> omega

theorem Int_of_uint (impl : Float64 → Int) (f : Field) (u : Nat)
    (hf : f.typ = "uint") (hv : f.Value = .uint64 u) (he : f.err = "") :
    f.Int impl = .ok (toInt64 (u : Int)) := by
  have hE : f.Error = none := Error_none f he (by rw [hf]; decide)
  simp [Field.Int, hE, hf, hv]

theorem UInt_of_int (impl : Float64 → Nat) (f : Field) (i : Int)
    (hf : f.typ = "int") (hv : f.Value = .int64 i) (he : f.err = "") :
    f.UInt impl = .ok (toUint64 i) := by
  have hE : f.Error = none := Error_none f he (by rw [hf]; decide)
  simp [Field.UInt, hE, hf, hv]

/-- C13, the claim as stated fails: the uint Field holding `2^63` gives
`Int() = -2^63`, and the int Field holding `-1` gives `UInt() = 2^64 - 1`. -/
theorem integer_cast_not_numerically_equal :
    (uintField (2 ^ 63)).Int (fun _ => 0) = .ok (-(2 ^ 63)) ∧
    (-(2 ^ 63 : Int)) ≠ ((2 ^ 63 : Nat) : Int) ∧
    (intField (-1)).UInt (fun _ => 0) = .ok (2 ^ 64 - 1) ∧
    (((2 ^ 64 - 1 : Nat) : Int)) ≠ -1 :=
  ⟨rfl, by decide, rfl, by decide⟩

/-- C13, amended. On a uint Field holding `u`, `Int()` returns `u` when
`u < 2^63` and `u - 2^64` otherwise; on an int Field holding `i`, `UInt()`
returns `i` when `0 ≤ i` and `i + 2^64` otherwise. -/
theorem integer_cast_wraps (implI : Float64 → Int) (implU : Float64 → Nat) (f : Field) :
    (∀ u : Nat, f.typ = "uint" → f.Value = .uint64 u → f.err = "" → u < 2 ^ 64 →
      f.Int implI = .ok (if u < 2 ^ 63 then (u : Int) else (u : Int) - 2 ^ 64)) ∧
    (∀ i : Int, f.typ = "int" → f.Value = .int64 i → f.err = "" →
      -(2 ^ 63 : Int) ≤ i → i < 2 ^ 63 →
      f.UInt implU = .ok (if 0 ≤ i then i.toNat else (i + 2 ^ 64).toNat)) := by
  constructor
  · intro u hf hv he hu
    rw [Int_of_uint implI f u hf hv he, toInt64_of_uint u hu]
  · intro i hf hv he h1 h2
    rw [UInt_of_int implU f i hf hv he, toUint64_of_int64 i h1 h2]

theorem integer_cast_wraps_witness :
    (uintField 7).Int (fun _ => 0) = .ok 7 ∧
    (uintField (2 ^ 64 - 1)).Int (fun _ => 0) = .ok (-1) ∧
    (intField (-5)).UInt (fun _ => 0) = .ok (2 ^ 64 - 5) :=
  ⟨(integer_cast_wraps (fun _ => 0) (fun _ => 0) (uintField 7)).1 7 rfl rfl rfl (by decide),
   (integer_cast_wraps (fun _ => 0) (fun _ => 0) (uintField (2 ^ 64 - 1))).1 (2 ^ 64 - 1)
      rfl rfl rfl (by decide),
   (integer_cast_wraps (fun _ => 0) (fun _ => 0) (intField (-5))).2 (-5) rfl rfl rfl
      (by decide) (by decide)⟩

/-- C20. For an int Field holding a signed 64-bit `i`, `UInt()` succeeds with an
unsigned 64-bit `u` such that every uint Field holding `u` has `Int() = i`;
for a uint Field holding an unsigned 64-bit `u`, `Int()` succeeds with a signed
64-bit `i` such that every int Field holding `i` has `UInt() = u`. -/
theorem integer_round_trip (implI : Float64 → Int) (implU : Float64 → Nat) (f : Field) :
    (∀ i : Int, f.typ = "int" → f.Value = .int64 i → f.err = "" →
      -(2 ^ 63 : Int) ≤ i → i < 2 ^ 63 →
      ∃ u : Nat, f.UInt implU = .ok u ∧ u < 2 ^ 64 ∧
        ∀ g : Field, g.typ = "uint" → g.Value = .uint64 u → g.err = "" →
          g.Int implI = .ok i) ∧
    (∀ u : Nat, f.typ = "uint" → f.Value = .uint64 u → f.err = "" → u < 2 ^ 64 →
      ∃ i : Int, f.Int implI = .ok i ∧ -(2 ^ 63 : Int) ≤ i ∧ i < 2 ^ 63 ∧
        ∀ g : Field, g.typ = "int" → g.Value = .int64 i → g.err = "" →
          g.UInt implU = .ok u) := by
  constructor
  · intro i hf hv he h1 h2
    refine ⟨toUint64 i, UInt_of_int implU f i hf hv he, ?_, ?_⟩
    · unfold toUint64; omega
    · intro g hg hgv hge
      have hback : toInt64 ((toUint64 i : Nat) : Int) = i := by
        unfold toInt64 toUint64
        omega
      rw [Int_of_uint implI g _ hg hgv hge, hback]
  · intro u hf hv he hu
    refine ⟨toInt64 u, Int_of_uint implI f u hf hv he, ?_, ?_, ?_⟩
    · unfold toInt64; omega
    · unfold toInt64; omega
    · intro g hg hgv hge
      have hback : toUint64 (toInt64 (u : Int)) = u := by
        unfold toInt64 toUint64
        omega
      rw [UInt_of_int implU g _ hg hgv hge, hback]

theorem integer_round_trip_witness :
    (∃ u : Nat, (intField (-1)).UInt (fun _ => 0) = .ok u ∧ u < 2 ^ 64 ∧
      ∀ g : Field, g.typ = "uint" → g.Value = .uint64 u → g.err = "" →
        g.Int (fun _ => 0) = .ok (-1)) ∧
    (∃ i : Int, (uintField (2 ^ 63)).Int (fun _ => 0) = .ok i ∧
      -(2 ^ 63 : Int) ≤ i ∧ i < 2 ^ 63 ∧
      ∀ g : Field, g.typ = "int" → g.Value = .int64 i → g.err = "" →
        g.UInt (fun _ => 0) = .ok (2 ^ 63)) :=
  ⟨(integer_round_trip (fun _ => 0) (fun _ => 0) (intField (-1))).1 (-1) rfl rfl rfl
      (by decide) (by decide),
   (integer_round_trip (fun _ => 0) (fun _ => 0) (uintField (2 ^ 63))).2 (2 ^ 63) rfl rfl rfl
      (by decide)⟩

/-- C15. On a string Field holding `s`, `Bool()` succeeds, with `true` when `s`
is not empty and `false` when it is empty, whatever the text says. -/
theorem Bool_of_string (f : Field) (s : String)
    (hf : f.typ = "string") (hv : f.Value = .string s) (he : f.err = "") :
    (s ≠ "" → f.Bool = .ok true) ∧ (s = "" → f.Bool = .ok false) := by
  have hE : f.Error = none := Error_none f he (by rw [hf]; decide)
  constructor
  · intro hs
    simp [Field.Bool, hE, hf, hv, hs]
  · intro hs
    simp [Field.Bool, hE, hf, hv, hs]

theorem Bool_of_string_witness :
    (stringField "false").Bool = .ok true ∧ (stringField "0").Bool = .ok true ∧
    (stringField "").Bool = .ok false ∧ sampleTree.Get ["name"] = .ret (stringField "a") ∧
    (stringField "a").Bool = .ok true :=
  ⟨(Bool_of_string (stringField "false") "false" rfl rfl rfl).1 (by decide),
   (Bool_of_string (stringField "0") "0" rfl rfl rfl).1 (by decide),
   (Bool_of_string (stringField "") "" rfl rfl rfl).2 rfl, rfl,
   (Bool_of_string (stringField "a") "a" rfl rfl rfl).1 (by decide)⟩

/-! ### Strings read as integers -/

theorem digitsValue_eq_some : ∀ (ds : List Char) (acc n : Nat),
    digitsValue ds acc = some n ↔
      (∀ c ∈ ds, IsDigit c) ∧
        n = ds.foldl (fun a c => a * 10 + (c.toNat - 48)) acc
  | [], acc, n => by
    simp only [digitsValue, Option.some.injEq, List.foldl_nil, List.not_mem_nil,
      false_implies, implies_true, true_and]
    exact eq_comm
  | c :: cs, acc, n => by
    simp only [digitsValue, List.foldl_cons, List.mem_cons, forall_eq_or_imp]
    by_cases hc : 48 ≤ c.toNat ∧ c.toNat ≤ 57
    · rw [if_pos hc, digitsValue_eq_some cs _ n]
      constructor
      · rintro ⟨h1, h2⟩
        exact ⟨⟨hc, h1⟩, h2⟩
      · rintro ⟨⟨_, h1⟩, h2⟩
        exact ⟨h1, h2⟩
    · rw [if_neg hc]
      constructor
      · intro h
        cases h
      · rintro ⟨⟨h, _⟩, _⟩
        exact absurd h hc

theorem digit_ne_minus (c : Char) (hc : IsDigit c) : c ≠ '-' := by
  intro h
  subst h
  unfold IsDigit at hc
  revert hc
  decide

theorem digit_ne_plus (c : Char) (hc : IsDigit c) : c ≠ '+' := by
  intro h
  subst h
  unfold IsDigit at hc
  revert hc
  decide

theorem Atoi_minus (s : String) (cs : List Char) (hs : s.toList = '-' :: cs) :
    Atoi s =
      if cs = [] then none
      else
        match digitsValue cs 0 with
        | none => none
        | some n => if n ≤ 2 ^ 63 then some (-(n : Int)) else none := by
  unfold Atoi
  rw [hs]
  simp

theorem Atoi_plus (s : String) (cs : List Char) (hs : s.toList = '+' :: cs) :
    Atoi s =
      if cs = [] then none
      else
        match digitsValue cs 0 with
        | none => none
        | some n => if n < 2 ^ 63 then some (n : Int) else none := by
  unfold Atoi
  rw [hs]
  have hnm : ¬ ('+' = '-') := by decide
  simp [hnm]

theorem Atoi_unsigned (s : String) (c : Char) (cs : List Char) (hs : s.toList = c :: cs)
    (hm : c ≠ '-') (hp : c ≠ '+') :
    Atoi s =
      match digitsValue (c :: cs) 0 with
      | none => none
      | some n => if n < 2 ^ 63 then some (n : Int) else none := by
  unfold Atoi
  rw [hs]
  simp [hm, hp]

theorem Atoi_of_decimal (s : String) (i : Int) (hd : IsDecimalInteger s i)
    (h1 : -(2 ^ 63 : Int) ≤ i) (h2 : i < 2 ^ 63) : Atoi s = some i := by
  obtain ⟨ds, hne, hdig, h | h | h⟩ := hd
  · obtain ⟨hs, hi⟩ := h
    cases ds with
    | nil => exact absurd rfl hne
    | cons c cs =>
      have hc : IsDigit c := hdig c (List.mem_cons_self _ _)
      rw [Atoi_unsigned s c cs hs (digit_ne_minus c hc) (digit_ne_plus c hc),
        (digitsValue_eq_some (c :: cs) 0 _).2 ⟨hdig, rfl⟩]
      unfold decimalValue at hi
      simp only
      rw [if_pos (by omega), hi]
  · obtain ⟨hs, hi⟩ := h
    rw [Atoi_plus s ds hs, if_neg hne, (digitsValue_eq_some ds 0 _).2 ⟨hdig, rfl⟩]
    unfold decimalValue at hi
    simp only
    rw [if_pos (by omega), hi]
  · obtain ⟨hs, hi⟩ := h
    rw [Atoi_minus s ds hs, if_neg hne, (digitsValue_eq_some ds 0 _).2 ⟨hdig, rfl⟩]
    unfold decimalValue at hi
    simp only
    rw [if_pos (by omega), hi]

theorem decimal_of_Atoi (s : String) (i : Int) (h : Atoi s = some i) :
    IsDecimalInteger s i ∧ -(2 ^ 63 : Int) ≤ i ∧ i < 2 ^ 63 := by
  cases hs : s.toList with
  | nil =>
    unfold Atoi at h
    rw [hs] at h
    cases h
  | cons c cs =>
    by_cases hm : c = '-'
    · subst hm
      rw [Atoi_minus s cs hs] at h
      split at h
      · cases h
      · rename_i hcs
        cases hd : digitsValue cs 0 with
        | none => rw [hd] at h; cases h
        | some n =>
          rw [hd] at h
          simp only at h
          split at h
          · rename_i hle
            simp only [Option.some.injEq] at h
            obtain ⟨hdig, hn⟩ := (digitsValue_eq_some cs 0 n).1 hd
            refine ⟨⟨cs, hcs, hdig, Or.inr (Or.inr ⟨hs, ?_⟩)⟩, ?_, ?_⟩
            · unfold decimalValue; rw [← hn, ← h]
            · omega
            · omega
          · cases h
    · by_cases hp : c = '+'
      · subst hp
        rw [Atoi_plus s cs hs] at h
        split at h
        · cases h
        · rename_i hcs
          cases hd : digitsValue cs 0 with
          | none => rw [hd] at h; cases h
          | some n =>
            rw [hd] at h
            simp only at h
            split at h
            · rename_i hlt
              simp only [Option.some.injEq] at h
              obtain ⟨hdig, hn⟩ := (digitsValue_eq_some cs 0 n).1 hd
              refine ⟨⟨cs, hcs, hdig, Or.inr (Or.inl ⟨hs, ?_⟩)⟩, ?_, ?_⟩
              · unfold decimalValue; rw [← hn, ← h]
              · omega
              · omega
            · cases h
      · rw [Atoi_unsigned s c cs hs hm hp] at h
        cases hd : digitsValue (c :: cs) 0 with
        | none => rw [hd] at h; cases h
        | some n =>
          rw [hd] at h
          simp only at h
          split at h
          · rename_i hlt
            simp only [Option.some.injEq] at h
            obtain ⟨hdig, hn⟩ := (digitsValue_eq_some (c :: cs) 0 n).1 hd
            refine ⟨⟨c :: cs, by simp, hdig, Or.inl ⟨hs, ?_⟩⟩, ?_, ?_⟩
            · unfold decimalValue; rw [← hn, ← h]
            · omega
            · omega
          · cases h

/-- The model of `strconv.Atoi` accepts exactly the decimal texts of the
integers that fit a 64-bit `int`, and returns the integer. -/
theorem Atoi_eq_some_iff (s : String) (i : Int) :
    Atoi s = some i ↔ IsDecimalInteger s i ∧ -(2 ^ 63 : Int) ≤ i ∧ i < 2 ^ 63 :=
  ⟨decimal_of_Atoi s i, fun h => Atoi_of_decimal s i h.1 h.2.1 h.2.2⟩

/-- C14, the claim as stated fails for `UInt()`: the string Field holding `-5`,
a negative numeral, gives `UInt() = 2^64 - 5` with no error, and the one
holding `18446744073709551615`, the largest unsigned 64-bit value, gives a
conversion error. -/
theorem UInt_of_string_counterexample :
    IsDecimalInteger "-5" (-5) ∧
    (stringField "-5").UInt (fun _ => 0) = .ok (2 ^ 64 - 5) ∧
    IsDecimalInteger "18446744073709551615" (2 ^ 64 - 1) ∧
    (stringField "18446744073709551615").UInt (fun _ => 0) =
      .error (.cannotConvert (.string "18446744073709551615") "string" "uint64") := by
  refine ⟨⟨['5'], by simp, ?_, Or.inr (Or.inr ⟨rfl, by decide⟩)⟩, rfl,
    ⟨"18446744073709551615".toList, by decide, ?_, Or.inl ⟨rfl, by decide⟩⟩, rfl⟩
  · intro c hc
    simp only [List.mem_singleton] at hc
    subst hc
    unfold IsDigit
    decide
  · intro c hc
    unfold IsDigit
    revert c
    decide

/-- C14, amended. On a string Field holding `s`, both `Int()` and `UInt()` succeed
exactly when `s` is the decimal text (an optional sign, then digits) of an
integer `i` representable as a signed 64-bit value; `Int()` then returns `i`
and `UInt()` returns `i` modulo `2^64`. For every other `s` both fail with the
conversion error. -/
theorem Int_UInt_of_string (implI : Float64 → Int) (implU : Float64 → Nat)
    (f : Field) (s : String)
    (hf : f.typ = "string") (hv : f.Value = .string s) (he : f.err = "") :
    (∀ i : Int, IsDecimalInteger s i → -(2 ^ 63 : Int) ≤ i → i < 2 ^ 63 →
      f.Int implI = .ok i ∧
      f.UInt implU = .ok (if 0 ≤ i then i.toNat else (i + 2 ^ 64).toNat)) ∧
    ((¬ ∃ i : Int, IsDecimalInteger s i ∧ -(2 ^ 63 : Int) ≤ i ∧ i < 2 ^ 63) →
      f.Int implI = .error (.cannotConvert (.string s) "string" "int64") ∧
      f.UInt implU = .error (.cannotConvert (.string s) "string" "uint64")) := by
  have hE : f.Error = none := Error_none f he (by rw [hf]; decide)
  constructor
  · intro i hd h1 h2
    have ha : Atoi s = some i := Atoi_of_decimal s i hd h1 h2
    constructor
    · simp [Field.Int, hE, hf, hv, ha, toInt64_of_int64 i h1 h2]
    · simp [Field.UInt, hE, hf, hv, ha, toUint64_of_int64 i h1 h2]
  · intro hno
    have ha : Atoi s = none := by
      cases h : Atoi s with
      | none => rfl
      | some i => exact absurd ⟨i, decimal_of_Atoi s i h⟩ hno
    constructor
    · simp [Field.Int, hE, hf, hv, ha]
    · simp [Field.UInt, hE, hf, hv, ha]

theorem Int_UInt_of_string_witness :
    (stringField "-5").Int (fun _ => 0) = .ok (-5) ∧
    (stringField "-5").UInt (fun _ => 0) = .ok (2 ^ 64 - 5) :=
  (Int_UInt_of_string (fun _ => 0) (fun _ => 0) (stringField "-5") "-5" rfl rfl rfl).1 (-5)
    ((Atoi_eq_some_iff "-5" (-5)).1 (by decide)).1 (by decide) (by decide)

/-! ## Iteration -/

theorem rangeLoop_spec {κ σ : Type} (fn : κ → Field → σ → Option GoError × σ) :
    ∀ (entries : List (κ × Field)) (s : σ),
      ∃ n, n ≤ entries.length ∧
        ((rangeLoop fn entries s).calls.map (fun c => (c.1, c.2.1))) = entries.take n ∧
        (∀ c ∈ (rangeLoop fn entries s).calls.dropLast, c.2.2 = none) ∧
        ((rangeLoop fn entries s).result = none →
          n = entries.length ∧ ∀ c ∈ (rangeLoop fn entries s).calls, c.2.2 = none) ∧
        (∀ e, (rangeLoop fn entries s).result = some e →
          ∃ k item, (rangeLoop fn entries s).calls.getLast? = some (k, item, some e))
  | [], s => ⟨0, by simp [rangeLoop]⟩
  | (k, item) :: rest, s => by
    cases hfn : fn k item s with
    | mk r s1 =>
      cases r with
      | some e =>
        refine ⟨1, by simp, ?_, ?_, ?_, ?_⟩
        · simp [rangeLoop, hfn]
        · simp [rangeLoop, hfn]
        · simp [rangeLoop, hfn]
        · intro e' he'
          simp only [rangeLoop, hfn, Option.some.injEq] at he'
          subst he'
          exact ⟨k, item, by simp [rangeLoop, hfn]⟩
      | none =>
        obtain ⟨n, hn, h1, h2, h3, h4⟩ := rangeLoop_spec fn rest s1
        refine ⟨n + 1, by simpa using hn, ?_, ?_, ?_, ?_⟩
        · simp [rangeLoop, hfn, h1]
        · intro c hc
          simp only [rangeLoop, hfn] at hc
          cases hcalls : (rangeLoop fn rest s1).calls with
          | nil => rw [hcalls] at hc; simp at hc
          | cons c1 cs1 =>
            rw [hcalls, List.dropLast_cons₂] at hc
            rcases List.mem_cons.1 hc with hc | hc
            · subst hc; rfl
            · exact h2 c (by rw [hcalls]; exact hc)
        · intro hres
          simp only [rangeLoop, hfn] at hres
          obtain ⟨hlen, hall⟩ := h3 hres
          refine ⟨by simp [hlen], ?_⟩
          intro c hc
          simp only [rangeLoop, hfn, List.mem_cons] at hc
          rcases hc with hc | hc
          · subst hc; rfl
          · exact hall c hc
        · intro e he
          simp only [rangeLoop, hfn] at he
          obtain ⟨k', item', hlast⟩ := h4 e he
          refine ⟨k', item', ?_⟩
          simp only [rangeLoop, hfn]
          cases hcalls : (rangeLoop fn rest s1).calls with
          | nil => rw [hcalls] at hlast; simp at hlast
          | cons c1 cs1 =>
            rw [hcalls] at hlast
            rw [List.getLast?_cons_cons]
            exact hlast

/-- The loop calls `fn` on the state the call before left, and returns the
state of its last call. -/
theorem rangeLoop_threads {κ σ : Type} (fn : κ → Field → σ → Option GoError × σ) :
    ∀ (entries : List (κ × Field)) (s : σ),
      Threads fn s (rangeLoop fn entries s).calls (rangeLoop fn entries s).state
  | [], s => by simp [rangeLoop, Threads]
  | (k, item) :: rest, s => by
    cases hfn : fn k item s with
    | mk r s1 =>
      cases r with
      | some e => simp [rangeLoop, Threads, hfn]
      | none =>
        have ih := rangeLoop_threads fn rest s1
        simp only [rangeLoop, Threads, hfn, true_and]
        exact ih

theorem indexed_eq : ∀ (xs : List Field) (start : Nat),
    (indexed start xs).length = xs.length ∧
    ∀ (j : Nat) (h1 : j < (indexed start xs).length) (h2 : j < xs.length),
      (indexed start xs).get ⟨j, h1⟩ = (start + j, xs.get ⟨j, h2⟩)
  | [], _ => ⟨rfl, fun j h1 _ => absurd h1 (by simp [indexed])⟩
  | x :: xs, start => by
    obtain ⟨hl, hg⟩ := indexed_eq xs (start + 1)
    refine ⟨by simp [indexed, hl], ?_⟩
    intro j h1 h2
    cases j with
    | zero => simp [indexed]
    | succ j =>
      simp only [indexed, List.get_eq_getElem, List.getElem_cons_succ]
      have := hg j (by simpa [indexed] using h1) (by simpa using h2)
      simp only [List.get_eq_getElem] at this
      rw [this]
      congr 1
      omega

/-- C16. On an array Field with `n` elements (not in error state) `ArrayRange`
calls the callback on `(0, element 0)`, `(1, element 1)`, … in ascending index
order, each index at most once. The calls are calls of `fn`: each returned what
`fn` returns on the state the call before it left behind, the first on the
state of the caller, and the state after the run is the one the last call
left, so that `fn` ran for no other index. Every call but the last one made
returned no error. If `ArrayRange` returns an error, it is the one the last
call returned, and no later index is visited; if it returns no error, no call
returned one and all `n` indices were visited. -/
theorem ArrayRange_ascending_fail_fast {σ : Type} (f : Field)
    (fn : Nat → Field → σ → Option GoError × σ) (s : σ)
    (hf : f.typ = "array") (he : f.err = "") :
    (f.ArrayRange fn s).calls.length ≤ f.ArrayValue.length ∧
    (∀ (j : Nat) (h1 : j < (f.ArrayRange fn s).calls.length) (h2 : j < f.ArrayValue.length),
      ((f.ArrayRange fn s).calls.get ⟨j, h1⟩).1 = j ∧
      ((f.ArrayRange fn s).calls.get ⟨j, h1⟩).2.1 = f.ArrayValue.get ⟨j, h2⟩) ∧
    (∀ c ∈ (f.ArrayRange fn s).calls.dropLast, c.2.2 = none) ∧
    ((f.ArrayRange fn s).result = none →
      (f.ArrayRange fn s).calls.length = f.ArrayValue.length ∧
      ∀ c ∈ (f.ArrayRange fn s).calls, c.2.2 = none) ∧
    (∀ e, (f.ArrayRange fn s).result = some e →
      ∃ k item, (f.ArrayRange fn s).calls.getLast? = some (k, item, some e)) ∧
    Threads fn s (f.ArrayRange fn s).calls (f.ArrayRange fn s).state := by
  have hE : f.Error = none := Error_none f he (by rw [hf]; decide)
  have hrun : f.ArrayRange fn s = rangeLoop fn (indexed 0 f.ArrayValue) s := by
    simp [Field.ArrayRange, hE, hf]
  rw [hrun]
  obtain ⟨n, hn, h1, h2, h3, h4⟩ := rangeLoop_spec fn (indexed 0 f.ArrayValue) s
  obtain ⟨hil, hig⟩ := indexed_eq f.ArrayValue 0
  have hlen : (rangeLoop fn (indexed 0 f.ArrayValue) s).calls.length = n := by
    have := congrArg List.length h1
    simp only [List.length_map, List.length_take] at this
    omega
  refine ⟨by omega, ?_, h2, ?_, h4, rangeLoop_threads fn _ s⟩
  · intro j hj1 hj2
    have hjn : j < n := by omega
    have hji : j < (indexed 0 f.ArrayValue).length := by omega
    have hget : ((rangeLoop fn (indexed 0 f.ArrayValue) s).calls.map
        (fun c => (c.1, c.2.1)))[j]? = ((indexed 0 f.ArrayValue).take n)[j]? := by
      rw [h1]
    rw [List.getElem?_map, List.getElem?_take_of_lt hjn, List.getElem?_eq_getElem hj1,
      List.getElem?_eq_getElem hji] at hget
    simp only [Option.map_some', Option.some.injEq] at hget
    have hidx := hig j hji hj2
    simp only [List.get_eq_getElem, Nat.zero_add] at hidx
    rw [hidx] at hget
    simp only [List.get_eq_getElem]
    exact ⟨congrArg Prod.fst hget, congrArg Prod.snd hget⟩
  · intro hres
    obtain ⟨hnl, hall⟩ := h3 hres
    exact ⟨by omega, hall⟩

theorem ArrayRange_ascending_fail_fast_witness :
    ((arrayField [intField 1, intField 2, intField 3]).ArrayRange (failOn 1) 0).calls =
      [(0, intField 1, none), (1, intField 2, some (.text "stop"))] ∧
    ((arrayField [intField 1, intField 2, intField 3]).ArrayRange (failOn 1) 0).result =
      some (.text "stop") ∧
    ((arrayField [intField 1, intField 2, intField 3]).ArrayRange (failOn 1) 0).state = 2 ∧
    (∃ k item, ((arrayField [intField 1, intField 2, intField 3]).ArrayRange
      (failOn 1) 0).calls.getLast? = some (k, item, some (.text "stop"))) ∧
    Threads (failOn 1) 0
      ((arrayField [intField 1, intField 2, intField 3]).ArrayRange (failOn 1) 0).calls
      ((arrayField [intField 1, intField 2, intField 3]).ArrayRange (failOn 1) 0).state :=
  ⟨rfl, rfl, rfl,
    (ArrayRange_ascending_fail_fast (arrayField [intField 1, intField 2, intField 3])
      (failOn 1) 0 rfl rfl).2.2.2.2.1 (.text "stop") rfl,
    (ArrayRange_ascending_fail_fast (arrayField [intField 1, intField 2, intField 3])
      (failOn 1) 0 rfl rfl).2.2.2.2.2⟩

/-- C17. On a receiver that is in error state or whose Type is not `map`,
`MapRange` returns an error and never calls the callback: the state is the one
of the caller. On a map Field, with the entries yielded in any order, the
callback is called on entries of the map, at most once per key, every call but
the last one made returned no error; if `MapRange` returns an error, it is the
one the last call returned and the remaining entries are not visited; if it
returns no error, no call returned one and every entry was visited exactly
once. The calls are calls of `fn`: each returned what `fn` returns on the
state the call before it left behind, the first on the state of the caller,
and the state after the run is the one the last call left, so that `fn` ran on
no other entry. -/
theorem MapRange_fail_fast {σ : Type} (f : Field) (order : List (String × Field))
    (fn : String → Field → σ → Option GoError × σ) (s : σ) :
    ((f.Error ≠ none ∨ f.typ ≠ "map") →
      (f.MapRange order fn s).result ≠ none ∧ (f.MapRange order fn s).calls = [] ∧
      (f.MapRange order fn s).state = s) ∧
    (f.Error = none → f.typ = "map" → order.Perm f.MapValue →
      (f.MapValue.map Prod.fst).Nodup →
      ((f.MapRange order fn s).calls.map (fun c => c.1)).Nodup ∧
      (∀ c ∈ (f.MapRange order fn s).calls, (c.1, c.2.1) ∈ f.MapValue) ∧
      (∀ c ∈ (f.MapRange order fn s).calls.dropLast, c.2.2 = none) ∧
      ((f.MapRange order fn s).result = none →
        ((f.MapRange order fn s).calls.map (fun c => (c.1, c.2.1))).Perm f.MapValue ∧
        ∀ c ∈ (f.MapRange order fn s).calls, c.2.2 = none) ∧
      (∀ e, (f.MapRange order fn s).result = some e →
        ∃ k item, (f.MapRange order fn s).calls.getLast? = some (k, item, some e)) ∧
      Threads fn s (f.MapRange order fn s).calls (f.MapRange order fn s).state) := by
  constructor
  · intro h
    cases hE : f.Error with
    | some e => simp [Field.MapRange, hE]
    | none =>
      rcases h with h | h
      · exact absurd hE h
      · simp [Field.MapRange, hE, h]
  · intro hE hf hperm hnd
    have hrun : f.MapRange order fn s = rangeLoop fn order s := by
      simp [Field.MapRange, hE, hf]
    rw [hrun]
    obtain ⟨n, hn, h1, h2, h3, h4⟩ := rangeLoop_spec fn order s
    have hkeys : ((rangeLoop fn order s).calls.map (fun c => c.1)) =
        (order.take n).map Prod.fst := by
      rw [← h1, List.map_map]
      rfl
    have hond : (order.map Prod.fst).Nodup := (hperm.map Prod.fst).nodup_iff.2 hnd
    refine ⟨?_, ?_, h2, ?_, h4, rangeLoop_threads fn order s⟩
    · rw [hkeys]
      exact hond.sublist ((List.take_sublist n order).map Prod.fst)
    · intro c hc
      have hmem : (c.1, c.2.1) ∈ order.take n := by
        rw [← h1]
        exact List.mem_map.2 ⟨c, hc, rfl⟩
      exact hperm.subset (List.mem_of_mem_take hmem)
    · intro hres
      obtain ⟨hnl, hall⟩ := h3 hres
      refine ⟨?_, hall⟩
      rw [h1, hnl, List.take_length]
      exact hperm

theorem MapRange_fail_fast_witness :
    ((newErrField "boom").MapRange [] (failOn "name") 0).calls = [] ∧
    (sampleTree.MapRange sampleTree.MapValue (failOn "name") 0).calls =
      [("name", stringField "a", some (.text "stop"))] ∧
    (sampleTree.MapRange sampleTree.MapValue (failOn "name") 0).state = 1 ∧
    (sampleTree.MapRange sampleTree.MapValue.reverse (failOn "name") 0).calls =
      [("nums", arrayField [intField 1, intField 2, intField 3], none),
       ("name", stringField "a", some (.text "stop"))] ∧
    (sampleTree.MapRange sampleTree.MapValue.reverse (failOn "name") 0).state = 2 ∧
    (∃ k item, (sampleTree.MapRange sampleTree.MapValue.reverse (failOn "name") 0).calls.getLast?
      = some (k, item, some (.text "stop"))) ∧
    Threads (failOn "name") 0
      (sampleTree.MapRange sampleTree.MapValue.reverse (failOn "name") 0).calls
      (sampleTree.MapRange sampleTree.MapValue.reverse (failOn "name") 0).state :=
  ⟨((MapRange_fail_fast (newErrField "boom") [] (failOn "name") 0).1
      (Or.inl (by decide))).2.1,
   rfl, rfl, rfl, rfl,
   ((MapRange_fail_fast sampleTree sampleTree.MapValue.reverse (failOn "name") 0).2 rfl rfl
      (List.reverse_perm _) (by decide)).2.2.2.2.1 (.text "stop") rfl,
   ((MapRange_fail_fast sampleTree sampleTree.MapValue.reverse (failOn "name") 0).2 rfl rfl
      (List.reverse_perm _) (by decide)).2.2.2.2.2⟩

/-! ## Error Fields are terminal -/

theorem contains_empty (t : String) : Contains t "" :=
  ⟨t, "", by simp⟩

theorem contains_self_after (p m : String) : Contains (p ++ m) m :=
  ⟨p, "", by simp⟩

theorem contains_append_left (p x m : String) (h : Contains x m) : Contains (p ++ x) m := by
  obtain ⟨a, b, hab⟩ := h
  exact ⟨p ++ a, b, by rw [hab]; simp [String.append_assoc]⟩

theorem eq_empty_of_length_zero (a : String) (h : a.length = 0) : a = "" := by
  cases a with
  | mk d =>
    simp only [String.length] at h
    have hd : d = [] := List.length_eq_zero.1 h
    subst hd
    rfl

theorem eq_empty_of_contains_empty (m : String) (h : Contains "" m) : m = "" := by
  obtain ⟨a, b, hab⟩ := h
  have hl := congrArg String.length hab
  simp only [String.length_append] at hl
  have h0 : m.length = 0 := by
    have : ("" : String).length = 0 := rfl
    omega
  exact eq_empty_of_length_zero m h0

theorem append_ne_empty (a b : String) (ha : a ≠ "") : a ++ b ≠ "" := by
  intro h
  have hl := congrArg String.length h
  simp only [String.length_append] at hl
  have h0 : a.length = 0 := by
    have : ("" : String).length = 0 := rfl
    omega
  exact ha (eq_empty_of_length_zero a h0)

theorem Error_of_err_string (h : Field) (he : h.err ≠ "") :
    h.Error = some ("has error, err: " ++ h.err) := by
  simp [Field.Error, he]

theorem accessorsReport_of_err (implI : Float64 → Int) (implU : Float64 → Nat)
    (parseFloat : String → Option Float64) (formatFloat : Float64 → String)
    (showValue : Payload → String) (h : Field) (m : String)
    (ht : h.typ = "err") (hc : Contains h.err m) :
    accessorsReport implI implU parseFloat formatFloat showValue h m := by
  by_cases he : h.err = ""
  · have hm : m = "" := eq_empty_of_contains_empty m (by rw [← he]; exact hc)
    subst hm
    have hE : h.Error = none := Error_none h he (by rw [ht]; decide)
    refine ⟨⟨.cannotConvert h.Value h.typ "int64", ?_, contains_empty _⟩,
      ⟨.cannotConvert h.Value h.typ "uint64", ?_, contains_empty _⟩,
      ⟨.cannotConvert h.Value h.typ "float64", ?_, contains_empty _⟩,
      ⟨.cannotConvert h.Value h.typ "string", ?_, contains_empty _⟩,
      ⟨.cannotConvert h.Value h.typ "bool", ?_, contains_empty _⟩,
      ⟨.cannotConvert h.Value h.typ "[]byte", ?_, contains_empty _⟩⟩
    · simp [Field.Int, hE, ht]
    · simp [Field.UInt, hE, ht]
    · simp [Field.Float, hE, ht]
    · simp [Field.String, hE, ht]
    · simp [Field.Bool, hE, ht]
    · simp [Field.Bytes, hE, ht]
  · have hE := Error_of_err_string h he
    have hcon : Contains ((GoError.text ("has error, err: " ++ h.err)).Error showValue) m :=
      contains_append_left _ _ _ hc
    refine ⟨⟨.text ("has error, err: " ++ h.err), ?_, hcon⟩,
      ⟨.text ("has error, err: " ++ h.err), ?_, hcon⟩,
      ⟨.text ("has error, err: " ++ h.err), ?_, hcon⟩,
      ⟨.text ("has error, err: " ++ h.err), ?_, hcon⟩,
      ⟨.text ("has error, err: " ++ h.err), ?_, hcon⟩,
      ⟨.text ("has error, err: " ++ h.err), ?_, hcon⟩⟩
    · simp [Field.Int, hE]
    · simp [Field.UInt, hE]
    · simp [Field.Float, hE]
    · simp [Field.String, hE]
    · simp [Field.Bool, hE]
    · simp [Field.Bytes, hE]

/-- C11. When `f.Get(p...)` is an err Field with message `m`, a further
`Get(q...)` on it is again an err Field whose message contains `m`, and each of
`Int`, `UInt`, `Float`, `String`, `Bool` and `Bytes`, called on either of the
two, returns an error whose text contains `m`. -/
theorem Get_error_is_sticky (implI : Float64 → Int) (implU : Float64 → Nat)
    (parseFloat : String → Option Float64) (formatFloat : Float64 → String)
    (showValue : Payload → String) (f g : Field) (p q : List String) (m : String)
    (hg : f.Get p = .ret g) (ht : g.typ = "err") (hm : g.err = m) :
    (∃ g2, (f.Get p).andThen (fun x => x.Get q) = .ret g2 ∧ g2.typ = "err" ∧
      Contains g2.err m ∧
      accessorsReport implI implU parseFloat formatFloat showValue g2 m) ∧
    accessorsReport implI implU parseFloat formatFloat showValue g m := by
  have hself : Contains g.err m := by
    rw [hm]
    exact ⟨"", "", by simp⟩
  refine ⟨?_, accessorsReport_of_err implI implU parseFloat formatFloat showValue g m ht hself⟩
  rw [hg]
  simp only [Outcome.andThen]
  by_cases he : g.err = ""
  · have hm0 : m = "" := by rw [← hm, he]
    have hE : g.Error = none := Error_none g he (by rw [ht]; decide)
    cases q with
    | nil =>
      refine ⟨g, by simp [Field.Get, hE, getLoop], ht, hself, ?_⟩
      exact accessorsReport_of_err implI implU parseFloat formatFloat showValue g m ht hself
    | cons k rest =>
      refine ⟨newErrField ("数据类型:" ++ g.typ ++ " 不支持递归"),
        by simp [Field.Get, hE, getLoop, ht], rfl, ?_, ?_⟩
      · rw [hm0]; exact contains_empty _
      · exact accessorsReport_of_err implI implU parseFloat formatFloat showValue _ m rfl
          (by rw [hm0]; exact contains_empty _)
  · have hE := Error_of_err_string g he
    have hc : Contains (newErrField ("has error, err: " ++ g.err)).err m := by
      rw [hm]
      exact contains_self_after _ _
    exact ⟨newErrField ("has error, err: " ++ g.err), by simp [Field.Get, hE], rfl, hc,
      accessorsReport_of_err implI implU parseFloat formatFloat showValue _ m rfl hc⟩

theorem Get_error_is_sticky_witness :
    (∃ g2, (sampleTree.Get ["nums", "9"]).andThen (fun x => x.Get ["a", "b"]) = .ret g2 ∧
      g2.typ = "err" ∧ Contains g2.err "array路径 [nums.9] 不存在" ∧
      accessorsReport (fun _ => 0) (fun _ => 0) (fun _ => none) (fun _ => "") (fun _ => "")
        g2 "array路径 [nums.9] 不存在") ∧
    accessorsReport (fun _ => 0) (fun _ => 0) (fun _ => none) (fun _ => "") (fun _ => "")
      (newErrField "array路径 [nums.9] 不存在") "array路径 [nums.9] 不存在" :=
  Get_error_is_sticky (fun _ => 0) (fun _ => 0) (fun _ => none) (fun _ => "") (fun _ => "")
    sampleTree (newErrField "array路径 [nums.9] 不存在") ["nums", "9"] ["a", "b"]
    "array路径 [nums.9] 不存在" rfl rfl rfl

/-! ## Floats made from integers -/

theorem floorLog2Aux_bounds : ∀ (fuel n : Nat), n ≠ 0 → n ≤ fuel →
    2 ^ floorLog2Aux fuel n ≤ n ∧ n < 2 ^ (floorLog2Aux fuel n + 1)
  | 0, n, h0, hle => absurd (Nat.le_zero.1 hle) h0
  | fuel + 1, n, h0, hle => by
    unfold floorLog2Aux
    by_cases h2 : 2 ≤ n
    · rw [if_pos h2]
      have hne : n / 2 ≠ 0 := by omega
      have hfu : n / 2 ≤ fuel := by omega
      obtain ⟨ih1, ih2⟩ := floorLog2Aux_bounds fuel (n / 2) hne hfu
      rw [Nat.pow_succ, Nat.pow_succ]
      rw [Nat.pow_succ] at ih2
      constructor <;> omega
    · rw [if_neg h2]
      have : n = 1 := by omega
      subst this
      decide

theorem floorLog2_bounds (n : Nat) (h0 : n ≠ 0) :
    2 ^ floorLog2 n ≤ n ∧ n < 2 ^ (floorLog2 n + 1) :=
  floorLog2Aux_bounds n n h0 (Nat.le_refl n)

theorem floorLog2_lt_64 (n : Nat) (h0 : n ≠ 0) (hn : n < 2 ^ 64) : floorLog2 n < 64 := by
  have h := (floorLog2_bounds n h0).1
  by_contra hge
  have hge' : 64 ≤ floorLog2 n := by omega
  have : 2 ^ 64 ≤ 2 ^ floorLog2 n := Nat.pow_le_pow_right (by decide) hge'
  omega

theorem isZero_false_of_bits (b e m : Nat) (hb : b = (e + 1023) * 2 ^ 52 + m)
    (he : e < 64) (hm : m ≤ 2 ^ 52) : (Float64.mk b).isZero = false := by
  unfold Float64.isZero Float64.exponent Float64.mantissa
  simp only [decide_eq_false_iff_not, not_and]
  intro h1 h2
  omega

theorem ofNat_not_zero (n : Nat) (h0 : n ≠ 0) (hn : n < 2 ^ 64) :
    (Float64.ofNat n).isZero = false := by
  obtain ⟨hlo, hhi⟩ := floorLog2_bounds n h0
  have he := floorLog2_lt_64 n h0 hn
  unfold Float64.ofNat
  rw [if_neg h0]
  simp only
  by_cases h52 : floorLog2 n ≤ 52
  · rw [if_pos h52]
    refine isZero_false_of_bits _ (floorLog2 n) _ rfl he ?_
    have hmul : n * 2 ^ (52 - floorLog2 n) < 2 ^ 53 := by
      have hp : 2 ^ (floorLog2 n + 1) * 2 ^ (52 - floorLog2 n) = 2 ^ 53 := by
        rw [← Nat.pow_add]
        congr 1
        omega
      calc n * 2 ^ (52 - floorLog2 n)
          < 2 ^ (floorLog2 n + 1) * 2 ^ (52 - floorLog2 n) :=
            Nat.mul_lt_mul_of_pos_right hhi (Nat.pow_pos (by decide))
        _ = 2 ^ 53 := hp
    omega
  · rw [if_neg h52]
    refine isZero_false_of_bits _ (floorLog2 n) _ rfl he ?_
    have hq : n / 2 ^ (floorLog2 n - 52) < 2 ^ 53 := by
      rw [Nat.div_lt_iff_lt_mul (Nat.pow_pos (by decide))]
      have hp : 2 ^ 53 * 2 ^ (floorLog2 n - 52) = 2 ^ (floorLog2 n + 1) := by
        rw [← Nat.pow_add]
        congr 1
        omega
      rw [hp]
      exact hhi
    split <;> omega

theorem ofNat_isZero_iff (n : Nat) (hn : n < 2 ^ 64) :
    (Float64.ofNat n).isZero = true ↔ n = 0 := by
  constructor
  · intro h
    by_contra h0
    rw [ofNat_not_zero n h0 hn] at h
    cases h
  · intro h
    subst h
    decide

theorem isZero_neg (b : Nat) : (Float64.mk (2 ^ 63 + b)).isZero = (Float64.mk b).isZero := by
  unfold Float64.isZero Float64.exponent Float64.mantissa
  simp only
  congr 1
  apply propext
  constructor <;> intro h <;> constructor <;> omega

theorem ofInt_isZero_iff (i : Int) (h1 : -(2 ^ 63 : Int) ≤ i) (h2 : i < 2 ^ 63) :
    (Float64.ofInt i).isZero = true ↔ i = 0 := by
  unfold Float64.ofInt
  by_cases hneg : i < 0
  · rw [if_pos hneg, isZero_neg, ofNat_isZero_iff _ (by omega)]
    omega
  · rw [if_neg hneg, ofNat_isZero_iff _ (by omega)]
    omega

/-! ## Agreement of the numeric accessors -/

/-- C12, the claim as stated fails: `Convert(0.5)` is a float Field on which the
four accessors succeed with `Int() = 0` and `UInt() = 0`, whatever the
implementation does out of range, while `Float() = 0.5` is not zero and
`Bool() = true`. -/
theorem float_half_breaks_zero_agreement :
    Convert (.direct (.float .float64 Float64.half)) = .ok (floatField Float64.half) ∧
    (floatField Float64.half).Int (fun _ => 7) = .ok 0 ∧
    (floatField Float64.half).UInt (fun _ => 7) = .ok 0 ∧
    (floatField Float64.half).Float (fun _ => none) = .ok Float64.half ∧
    Float64.half.isZero = false ∧
    (floatField Float64.half).Bool = .ok true :=
  ⟨rfl, rfl, rfl, rfl, by decide, rfl⟩

/-- C12, amended. On a Field as `Convert` builds it whose Type is `int`, `uint`,
`float` or `bool`, each of `Int()`, `UInt()`, `Float()` and `Bool()` succeeds,
and `Float()` is zero exactly when `Bool()` is false. When the Type is `int`,
`uint` or `bool`, moreover `Int() = 0` exactly when `UInt() = 0`, exactly when
`Float()` is zero. On a float Field `Int()` and `UInt()` are the conversions
`int64(x)` and `uint64(x)` of the stored value, which truncate toward zero,
`Float()` is the stored value and `Bool()` tells whether it is not zero. On a
bool Field holding `v`, `Int()` and `UInt()` are 1 when `v` is true and 0 when
it is false, `Float()` is 1 or 0 likewise, and `Bool()` is `v`. On an int Field
holding `i`, `Int()` is `i`, `UInt()` is `uint64(i)`, `Float()` is
`float64(i)` and `Bool()` tells whether `i` is not 0; on a uint Field holding
`u`, `Int()` is `int64(u)`, `UInt()` is `u`, `Float()` is `float64(u)` and
`Bool()` tells whether `u` is not 0. -/
theorem accessors_agree_on_zero (implI : Float64 → Int) (implU : Float64 → Nat)
    (parseFloat : String → Option Float64) (f : Field) (hok : NodeOk f)
    (ht : f.typ = "int" ∨ f.typ = "uint" ∨ f.typ = "float" ∨ f.typ = "bool") :
    ∃ (a : Int) (b : Nat) (x : Float64) (c : Bool),
      f.Int implI = .ok a ∧ f.UInt implU = .ok b ∧ f.Float parseFloat = .ok x ∧
      f.Bool = .ok c ∧
      (x.isZero = true ↔ c = false) ∧
      (f.typ ≠ "float" → (a = 0 ↔ b = 0) ∧ (b = 0 ↔ x.isZero = true)) ∧
      (∀ y, f.Value = .float64 y → f.typ = "float" →
        a = y.toInt64 implI ∧ b = y.toUint64 implU ∧ x = y) ∧
      (∀ y, f.Value = .float64 y → f.typ = "float" → c = !y.isZero) ∧
      (∀ v, f.Value = .bool v → f.typ = "bool" →
        a = (if v = true then 1 else 0) ∧ b = (if v = true then 1 else 0) ∧
        x = (if v = true then Float64.one else ⟨0⟩) ∧ c = v) ∧
      (∀ i, f.Value = .int64 i → f.typ = "int" →
        a = i ∧ b = toUint64 i ∧ x = Float64.ofInt i ∧ c = decide (i ≠ 0)) ∧
      (∀ u, f.Value = .uint64 u → f.typ = "uint" →
        a = toInt64 u ∧ b = u ∧ x = Float64.ofNat u ∧ c = decide (u ≠ 0)) := by
  obtain ⟨he, hcases⟩ := hok
  have hn : f.typ ≠ "nil" := by
    rcases ht with h | h | h | h <;> rw [h] <;> decide
  have hE : f.Error = none := Error_none f he hn
  rcases hcases with hc | hc | hc | hc | hc | hc | hc | hc | hc
  · exact absurd hc.1 hn
  · obtain ⟨hty, ⟨i, hv, h1, h2⟩, _, _⟩ := hc
    refine ⟨i, toUint64 i, Float64.ofInt i, if i = 0 then false else true, ?_, ?_, ?_, ?_,
      ?_, ?_, ?_, ?_, ?_, ?_, ?_⟩
    · simp [Field.Int, hE, hty, hv]
    · simp [Field.UInt, hE, hty, hv]
    · simp [Field.Float, hE, hty, hv]
    · simp [Field.Bool, hE, hty, hv]
    · rw [ofInt_isZero_iff i h1 h2]
      by_cases hi : i = 0 <;> simp [hi]
    · intro _
      have hu : toUint64 i = 0 ↔ i = 0 := by
        unfold toUint64
        omega
      rw [ofInt_isZero_iff i h1 h2, hu]
      exact ⟨Iff.rfl, Iff.rfl⟩
    · intro y hy hfl
      rw [hty] at hfl
      exact absurd hfl (by decide)
    · intro y hy hfl
      rw [hty] at hfl
      exact absurd hfl (by decide)
    · intro v hv' hfl
      rw [hty] at hfl
      exact absurd hfl (by decide)
    · intro i' hi' _
      rw [hv] at hi'
      simp only [Payload.int64.injEq] at hi'
      subst hi'
      refine ⟨rfl, rfl, rfl, ?_⟩
      by_cases hi : i = 0 <;> simp [hi]
    · intro u hu' hfl
      rw [hty] at hfl
      exact absurd hfl (by decide)
  · obtain ⟨hty, ⟨u, hv, hu⟩, _, _⟩ := hc
    refine ⟨toInt64 u, u, Float64.ofNat u, if u = 0 then false else true, ?_, ?_, ?_, ?_,
      ?_, ?_, ?_, ?_, ?_, ?_, ?_⟩
    · simp [Field.Int, hE, hty, hv]
    · simp [Field.UInt, hE, hty, hv]
    · simp [Field.Float, hE, hty, hv]
    · simp [Field.Bool, hE, hty, hv]
    · rw [ofNat_isZero_iff u hu]
      by_cases hi : u = 0 <;> simp [hi]
    · intro _
      have hi : toInt64 (u : Int) = 0 ↔ u = 0 := by
        unfold toInt64
        omega
      rw [ofNat_isZero_iff u hu, hi]
      exact ⟨Iff.rfl, Iff.rfl⟩
    · intro y hy hfl
      rw [hty] at hfl
      exact absurd hfl (by decide)
    · intro y hy hfl
      rw [hty] at hfl
      exact absurd hfl (by decide)
    · intro v hv' hfl
      rw [hty] at hfl
      exact absurd hfl (by decide)
    · intro i hi' hfl
      rw [hty] at hfl
      exact absurd hfl (by decide)
    · intro u' hu' _
      rw [hv] at hu'
      simp only [Payload.uint64.injEq] at hu'
      subst hu'
      refine ⟨rfl, rfl, rfl, ?_⟩
      by_cases hi : u = 0 <;> simp [hi]
  · obtain ⟨hty, ⟨x, hv⟩, _, _⟩ := hc
    refine ⟨x.toInt64 implI, x.toUint64 implU, x, if x.isZero then false else true,
      ?_, ?_, ?_, ?_, ?_, ?_, ?_, ?_, ?_, ?_, ?_⟩
    · simp [Field.Int, hE, hty, hv]
    · simp [Field.UInt, hE, hty, hv]
    · simp [Field.Float, hE, hty, hv]
    · simp [Field.Bool, hE, hty, hv]
    · cases hz : x.isZero <;> simp
    · intro hnf
      exact absurd hty hnf
    · intro y hy _
      rw [hv] at hy
      simp only [Payload.float64.injEq] at hy
      subst hy
      exact ⟨rfl, rfl, rfl⟩
    · intro y hy _
      rw [hv] at hy
      simp only [Payload.float64.injEq] at hy
      subst hy
      cases hz : x.isZero <;> simp
    · intro v hv' hfl
      rw [hty] at hfl
      exact absurd hfl (by decide)
    · intro i hi' hfl
      rw [hty] at hfl
      exact absurd hfl (by decide)
    · intro u hu' hfl
      rw [hty] at hfl
      exact absurd hfl (by decide)
  · obtain ⟨hty, _, _, _⟩ := hc
    rcases ht with h | h | h | h <;> rw [hty] at h <;> exact absurd h (by decide)
  · obtain ⟨hty, ⟨b, hv⟩, _, _⟩ := hc
    refine ⟨if b then 1 else 0, if b then 1 else 0, if b then Float64.one else ⟨0⟩, b,
      ?_, ?_, ?_, ?_, ?_, ?_, ?_, ?_, ?_, ?_, ?_⟩
    · simp [Field.Int, hE, hty, hv]
    · simp [Field.UInt, hE, hty, hv]
    · simp [Field.Float, hE, hty, hv]
    · simp [Field.Bool, hE, hty, hv]
    · cases b <;> decide
    · intro _
      cases b <;> decide
    · intro y hy hfl
      rw [hty] at hfl
      exact absurd hfl (by decide)
    · intro y hy hfl
      rw [hty] at hfl
      exact absurd hfl (by decide)
    · intro v hv' _
      rw [hv] at hv'
      simp only [Payload.bool.injEq] at hv'
      subst hv'
      exact ⟨rfl, rfl, rfl, rfl⟩
    · intro i hi' hfl
      rw [hty] at hfl
      exact absurd hfl (by decide)
    · intro u hu' hfl
      rw [hty] at hfl
      exact absurd hfl (by decide)
  · obtain ⟨hty, _, _, _⟩ := hc
    rcases ht with h | h | h | h <;> rw [hty] at h <;> exact absurd h (by decide)
  · obtain ⟨hty, _, _⟩ := hc
    rcases ht with h | h | h | h <;> rw [hty] at h <;> exact absurd h (by decide)
  · obtain ⟨hty, _, _⟩ := hc
    rcases ht with h | h | h | h <;> rw [hty] at h <;> exact absurd h (by decide)

theorem accessors_agree_on_zero_witness :
    Convert (.direct (.bool true)) = .ok (boolField true) ∧
    (boolField true).Int (fun _ => 0) = .ok 1 ∧
    (boolField false).Int (fun _ => 0) = .ok 0 ∧
    ∃ (a : Int) (b : Nat) (x : Float64) (c : Bool),
      (boolField true).Int (fun _ => 0) = .ok a ∧ (boolField true).UInt (fun _ => 0) = .ok b ∧
      (boolField true).Float (fun _ => none) = .ok x ∧ (boolField true).Bool = .ok c ∧
      (x.isZero = true ↔ c = false) ∧
      ((boolField true).typ ≠ "float" → (a = 0 ↔ b = 0) ∧ (b = 0 ↔ x.isZero = true)) ∧
      (∀ y, (boolField true).Value = .float64 y → (boolField true).typ = "float" →
        a = y.toInt64 (fun _ => 0) ∧ b = y.toUint64 (fun _ => 0) ∧ x = y) ∧
      (∀ y, (boolField true).Value = .float64 y → (boolField true).typ = "float" →
        c = !y.isZero) ∧
      (∀ v, (boolField true).Value = .bool v → (boolField true).typ = "bool" →
        a = (if v = true then 1 else 0) ∧ b = (if v = true then 1 else 0) ∧
        x = (if v = true then Float64.one else ⟨0⟩) ∧ c = v) ∧
      (∀ i, (boolField true).Value = .int64 i → (boolField true).typ = "int" →
        a = i ∧ b = toUint64 i ∧ x = Float64.ofInt i ∧ c = decide (i ≠ 0)) ∧
      (∀ u, (boolField true).Value = .uint64 u → (boolField true).typ = "uint" →
        a = toInt64 u ∧ b = u ∧ x = Float64.ofNat u ∧ c = decide (u ≠ 0)) :=
  ⟨rfl, rfl, rfl,
    accessors_agree_on_zero (fun _ => 0) (fun _ => 0) (fun _ => none) (boolField true)
      ⟨rfl, Or.inr (Or.inr (Or.inr (Or.inr (Or.inr (Or.inl ⟨rfl, ⟨true, rfl⟩, rfl, rfl⟩)))))⟩
      (Or.inr (Or.inr (Or.inr rfl)))⟩

/-! ## Splitting a path -/

theorem getLoop_cons (paths : List String) (i : Nat) (path : String) (rest : List String)
    (tmp : Field) :
    getLoop paths i (path :: rest) tmp =
      match getStep paths i path tmp with
      | .stop o => o
      | .next t => getLoop paths (i + 1) rest t := by
  simp only [getLoop, getStep]
  repeat' split
  all_goals first | rfl | simp_all

theorem newErrField_Error (msg : String) (h : msg ≠ "") : (newErrField msg).Error ≠ none := by
  simp [Field.Error, newErrField, h]

theorem err_empty_of_Error_none (f : Field) (h : f.Error = none) : f.err = "" := by
  by_contra he
  rw [Error_of_err_string f he] at h
  cases h

theorem getStep_next_independent (p1 p2 : List String) (i1 i2 : Nat) (k : String)
    (tmp t : Field) (h : getStep p1 i1 k tmp = .next t) : getStep p2 i2 k tmp = .next t := by
  unfold getStep at h ⊢
  by_cases c1 : tmp.typ = "nil" ∨ tmp.typ = "err"
  · rw [if_pos c1] at h
    cases h
  · rw [if_neg c1] at h ⊢
    by_cases c2 : tmp.typ = "int" ∨ tmp.typ = "uint" ∨ tmp.typ = "float" ∨
        tmp.typ = "string" ∨ tmp.typ = "bool"
    · rw [if_pos c2] at h
      split at h <;> cases h
    · rw [if_neg c2] at h ⊢
      by_cases c3 : tmp.typ = "map"
      · rw [if_pos c3] at h ⊢
        cases hg : mapGet tmp.MapValue k with
        | none => rw [hg] at h; cases h
        | some mf => rw [hg] at h; exact h
      · rw [if_neg c3] at h ⊢
        by_cases c4 : tmp.typ = "array"
        · rw [if_pos c4] at h ⊢
          cases ha : Atoi k with
          | none => rw [ha] at h; cases h
          | some index =>
            rw [ha] at h
            simp only at h ⊢
            by_cases c5 : index > (tmp.ArrayValue.length : Int) - 1
            · rw [if_pos c5] at h
              cases h
            · rw [if_neg c5] at h ⊢
              by_cases c6 : index < 0
              · rw [if_pos c6] at h
                cases h
              · rw [if_neg c6] at h ⊢
                exact h
        · rw [if_neg c4] at h ⊢
          exact h

theorem getStep_stop_ok (p : List String) (i : Nat) (k : String) (tmp r : Field)
    (h : getStep p i k tmp = .stop (.ret r)) (hr : r.Error = none) :
    r = tmp ∧ (tmp.typ = "int" ∨ tmp.typ = "uint" ∨ tmp.typ = "float" ∨
      tmp.typ = "string" ∨ tmp.typ = "bool") := by
  have hbad : ∀ msg : String, msg ≠ "" → r = newErrField msg → False := by
    intro msg hmsg hrm
    rw [hrm] at hr
    exact newErrField_Error msg hmsg hr
  have h1 : ∀ x y : String, "数据类型:" ++ x ++ y ≠ "" := fun x y =>
    append_ne_empty _ _ (append_ne_empty _ _ (by decide))
  have h2 : ∀ x y : String, "map路径" ++ x ++ y ≠ "" := fun x y =>
    append_ne_empty _ _ (append_ne_empty _ _ (by decide))
  have h3 : ∀ x y : String, "array路径 [" ++ x ++ y ≠ "" := fun x y =>
    append_ne_empty _ _ (append_ne_empty _ _ (by decide))
  unfold getStep at h
  split at h
  · simp only [Step.stop.injEq, Outcome.ret.injEq] at h
    exact (hbad _ (h1 _ _) h.symm).elim
  · split at h
    · rename_i hsc
      split at h
      · simp only [Step.stop.injEq, Outcome.ret.injEq] at h
        exact (hbad _ (by decide) h.symm).elim
      · simp only [Step.stop.injEq, Outcome.ret.injEq] at h
        exact ⟨h.symm, hsc⟩
    · split at h
      · split at h
        · simp only [Step.stop.injEq, Outcome.ret.injEq] at h
          exact (hbad _ (h2 _ _) h.symm).elim
        · cases h
      · split at h
        · split at h
          · simp only [Step.stop.injEq, Outcome.ret.injEq] at h
            exact (hbad _ (h3 _ _) h.symm).elim
          · split at h
            · simp only [Step.stop.injEq, Outcome.ret.injEq] at h
              exact (hbad _ (h3 _ _) h.symm).elim
            · split at h
              · cases h
              · split at h
                · cases h
                · cases h
        · cases h

theorem getStep_scalar (p : List String) (i : Nat) (k : String) (tmp : Field)
    (hs : tmp.typ = "int" ∨ tmp.typ = "uint" ∨ tmp.typ = "float" ∨ tmp.typ = "string" ∨
      tmp.typ = "bool") (hi : i ≤ p.length) :
    getStep p i k tmp = .stop (.ret tmp) := by
  have hn : ¬ (tmp.typ = "nil" ∨ tmp.typ = "err") := by
    rcases hs with h | h | h | h | h <;> rw [h] <;> decide
  have hlen : ¬ ((p.length : Int) - (i : Int) < 0) := by omega
  unfold getStep
  rw [if_neg hn, if_pos hs, if_neg hlen]

theorem mapGet_mem : ∀ (m : List (String × Field)) (k : String) (v : Field),
    mapGet m k = some v → (k, v) ∈ m
  | [], _, _, h => by simp [mapGet] at h
  | (k1, v1) :: rest, k, v, h => by
    unfold mapGet at h
    split at h
    · rename_i hk
      simp only [Option.some.injEq] at h
      subst hk
      subst h
      exact List.mem_cons_self _ _
    · exact List.mem_cons_of_mem _ (mapGet_mem rest k v h)

theorem allErrOnlyOnErr_mem : ∀ (xs : List Field), allErrOnlyOnErr xs = true →
    ∀ c ∈ xs, c.errOnlyOnErr = true
  | [], _, c, hc => by simp at hc
  | x :: xs, h, c, hc => by
    simp only [allErrOnlyOnErr, Bool.and_eq_true] at h
    rcases List.mem_cons.1 hc with hc | hc
    · subst hc; exact h.1
    · exact allErrOnlyOnErr_mem xs h.2 c hc

theorem entriesErrOnlyOnErr_mem : ∀ (m : List (String × Field)),
    entriesErrOnlyOnErr m = true → ∀ kv ∈ m, kv.2.errOnlyOnErr = true
  | [], _, c, hc => by simp at hc
  | (k, v) :: rest, h, c, hc => by
    simp only [entriesErrOnlyOnErr, Bool.and_eq_true] at h
    rcases List.mem_cons.1 hc with hc | hc
    · subst hc; exact h.1
    · exact entriesErrOnlyOnErr_mem rest h.2 c hc

theorem errOnlyOnErr_unfold (f : Field) (h : f.errOnlyOnErr = true) :
    (f.err = "" ∨ f.typ = "err") ∧ (∀ c ∈ f.ArrayValue, c.errOnlyOnErr = true) ∧
    (∀ kv ∈ f.MapValue, kv.2.errOnlyOnErr = true) := by
  cases f with
  | mk typ value arr m err =>
    simp only [Field.errOnlyOnErr, Bool.and_eq_true, Bool.or_eq_true, decide_eq_true_eq] at h
    exact ⟨h.1.1, allErrOnlyOnErr_mem arr h.1.2, entriesErrOnlyOnErr_mem m h.2⟩

theorem getStep_next_child (p : List String) (i : Nat) (k : String) (tmp t : Field)
    (h : getStep p i k tmp = .next t) (hinv : tmp.errOnlyOnErr = true) :
    t.errOnlyOnErr = true ∧ tmp.typ ≠ "nil" ∧ tmp.typ ≠ "err" := by
  obtain ⟨_, harr, hmap⟩ := errOnlyOnErr_unfold tmp hinv
  unfold getStep at h
  split at h
  · cases h
  · rename_i hne
    have hn1 : tmp.typ ≠ "nil" := fun e => hne (Or.inl e)
    have hn2 : tmp.typ ≠ "err" := fun e => hne (Or.inr e)
    refine ⟨?_, hn1, hn2⟩
    split at h
    · split at h <;> cases h
    · split at h
      · split at h
        · cases h
        · rename_i mf hmf
          simp only [Step.next.injEq] at h
          subst h
          exact hmap _ (mapGet_mem _ _ _ hmf)
      · split at h
        · split at h
          · cases h
          · split at h
            · cases h
            · split at h
              · cases h
              · split at h
                · cases h
                · rename_i el hel
                  simp only [Step.next.injEq] at h
                  subst h
                  exact harr _ (List.getElem?_mem hel)
        · simp only [Step.next.injEq] at h
          subst h
          exact hinv

theorem getLoop_reindex : ∀ (rest pre1 pre2 : List String) (tmp r : Field),
    getLoop (pre1 ++ rest) pre1.length rest tmp = .ret r → r.Error = none →
    getLoop (pre2 ++ rest) pre2.length rest tmp = .ret r
  | [], _, _, tmp, r, h, _ => by
    simp only [getLoop] at h ⊢
    exact h
  | k :: rest, pre1, pre2, tmp, r, h, hr => by
    rw [getLoop_cons] at h ⊢
    cases hs : getStep (pre1 ++ k :: rest) pre1.length k tmp with
    | stop o =>
      rw [hs] at h
      simp only at h
      subst h
      obtain ⟨hrt, hsc⟩ := getStep_stop_ok _ _ _ _ _ hs hr
      rw [getStep_scalar (pre2 ++ k :: rest) pre2.length k tmp hsc (by simp), hrt]
    | next t =>
      rw [hs] at h
      simp only at h
      rw [getStep_next_independent _ (pre2 ++ k :: rest) _ pre2.length k tmp t hs]
      simp only
      have ih := getLoop_reindex rest (pre1 ++ [k]) (pre2 ++ [k]) t r
      simp only [List.append_assoc, List.singleton_append, List.length_append,
        List.length_singleton] at ih
      exact ih h hr

theorem Get_of_getLoop (pre q : List String) (tmp r : Field)
    (hinv : tmp.errOnlyOnErr = true)
    (h : getLoop (pre ++ q) pre.length q tmp = .ret r) (hr : r.Error = none) :
    tmp.Get q = .ret r := by
  have hE : tmp.Error = none := by
    cases q with
    | nil =>
      simp only [getLoop, Outcome.ret.injEq] at h
      rw [h]
      exact hr
    | cons k rest =>
      rw [getLoop_cons] at h
      cases hs : getStep (pre ++ k :: rest) pre.length k tmp with
      | stop o =>
        rw [hs] at h
        simp only at h
        subst h
        obtain ⟨hrt, _⟩ := getStep_stop_ok _ _ _ _ _ hs hr
        rw [← hrt]
        exact hr
      | next t =>
        obtain ⟨_, hn1, hn2⟩ := getStep_next_child _ _ _ _ _ hs hinv
        obtain ⟨herr, _, _⟩ := errOnlyOnErr_unfold tmp hinv
        rcases herr with herr | herr
        · exact Error_none tmp herr hn1
        · exact absurd herr hn2
  have := getLoop_reindex q pre [] tmp r h hr
  simp only [List.nil_append, List.length_nil] at this
  simp only [Field.Get, hE]
  exact this

theorem getLoop_split (q : List String) (r : Field) (hr : r.Error = none) :
    ∀ (restp pre : List String) (tmp : Field), tmp.errOnlyOnErr = true →
      getLoop (pre ++ (restp ++ q)) pre.length (restp ++ q) tmp = .ret r →
      ∃ g, getLoop (pre ++ restp) pre.length restp tmp = .ret g ∧ g.Get q = .ret r
  | [], pre, tmp, hinv, h => by
    simp only [List.nil_append] at h
    exact ⟨tmp, by simp [getLoop], Get_of_getLoop pre q tmp r hinv h hr⟩
  | k :: rp, pre, tmp, hinv, h => by
    simp only [List.cons_append] at h
    rw [getLoop_cons] at h
    rw [getLoop_cons]
    cases hs : getStep (pre ++ k :: (rp ++ q)) pre.length k tmp with
    | stop o =>
      rw [hs] at h
      simp only at h
      subst h
      obtain ⟨hrt, hsc⟩ := getStep_stop_ok _ _ _ _ _ hs hr
      rw [getStep_scalar (pre ++ k :: rp) pre.length k tmp hsc (by simp)]
      refine ⟨tmp, rfl, ?_⟩
      rw [hrt]
      have he : tmp.err = "" := err_empty_of_Error_none tmp (by rw [← hrt]; exact hr)
      exact Get_scalar_ignores_path tmp q hsc he
    | next t =>
      rw [hs] at h
      simp only at h
      rw [getStep_next_independent _ (pre ++ k :: rp) _ pre.length k tmp t hs]
      simp only
      obtain ⟨htinv, _, _⟩ := getStep_next_child _ _ _ _ _ hs hinv
      have ih := getLoop_split q r hr rp (pre ++ [k]) t htinv
      simp only [List.append_assoc, List.singleton_append, List.length_append,
        List.length_singleton] at ih
      exact ih h

/-- C19, amended. On a Field whose nodes carry an error string only when their
Type is `err` (the data-model invariant): when the lookup `f.Get(p ++ q)`
returns a Field that is not in error state, the chained lookup
`f.Get(p...).Get(q...)` returns that same Field. -/
theorem Get_split_path (f r : Field) (p q : List String)
    (hinv : f.errOnlyOnErr = true)
    (h : f.Get (p ++ q) = .ret r) (hr : r.Error = none) :
    (f.Get p).andThen (fun g => g.Get q) = .ret r := by
  cases hE : f.Error with
  | some e =>
    simp only [Field.Get, hE, Outcome.ret.injEq] at h
    have hne : e ≠ "" := by
      unfold Field.Error at hE
      split at hE
      · simp only [Option.some.injEq] at hE
        rw [← hE]
        exact append_ne_empty _ _ (by decide)
      · split at hE
        · simp only [Option.some.injEq] at hE
          rw [← hE]
          decide
        · cases hE
    rw [← h] at hr
    exact absurd hr (newErrField_Error e hne)
  | none =>
    simp only [Field.Get, hE] at h ⊢
    obtain ⟨g, hg, hgq⟩ := getLoop_split q r hr p [] f hinv
      (by simpa using h)
    simp only [List.nil_append, List.length_nil] at hg
    rw [hg]
    exact hgq

/-- C19, the claim as stated fails. In `taintedMap` the entry `a` is a node of
Type `map` that carries an error string. `Get` looks at the error string of
its receiver only: the lookup `Get("a", "b")` walks through that node and
returns the int Field 7, which is not in error state, while the chained lookup
`Get("a").Get("b")` has that node as the receiver of its second call and
returns an err Field. -/
theorem Get_split_needs_invariant :
    taintedMap.errOnlyOnErr = false ∧
    taintedMap.Get (["a"] ++ ["b"]) = .ret (intField 7) ∧
    (intField 7).Error = none ∧
    (taintedMap.Get ["a"]).andThen (fun g => g.Get ["b"]) =
      .ret (newErrField "has error, err: boom") :=
  ⟨rfl, rfl, rfl, rfl⟩

theorem Get_split_path_witness :
    sampleTree.Get (["nums"] ++ ["1"]) = .ret (intField 2) ∧
    (sampleTree.Get ["nums"]).andThen (fun g => g.Get ["1"]) = .ret (intField 2) :=
  ⟨rfl, Get_split_path sampleTree (intField 2) ["nums"] ["1"] rfl rfl rfl⟩

/-! ## Decoding raw bytes into a tree -/

theorem mapGet_eq_none_iff {β : Type} : ∀ (m : List (String × β)) (k : String),
    mapGet m k = none ↔ k ∉ m.map Prod.fst
  | [], _ => by simp [mapGet]
  | (k1, v1) :: rest, k => by
    by_cases hk : k1 = k
    · simp [mapGet, hk]
    · have hk' : ¬ k = k1 := fun e => hk e.symm
      simp [mapGet, hk, hk', mapGet_eq_none_iff rest k]

theorem eq_of_mem_of_nodup_keys {β : Type} : ∀ (m : List (String × β)) (k : String) (v w : β),
    (m.map Prod.fst).Nodup → (k, v) ∈ m → (k, w) ∈ m → v = w
  | [], _, _, _, _, h, _ => by simp at h
  | (k1, v1) :: rest, k, v, w, hnd, hv, hw => by
    simp only [List.map_cons, List.nodup_cons] at hnd
    rcases List.mem_cons.1 hv with hv | hv
    · rcases List.mem_cons.1 hw with hw | hw
      · have h1 := congrArg Prod.snd hv
        have h2 := congrArg Prod.snd hw
        simp only at h1 h2
        rw [h1, h2]
      · exfalso
        apply hnd.1
        have h1 := congrArg Prod.fst hv
        simp only at h1
        rw [← h1]
        exact List.mem_map.2 ⟨(k, w), hw, rfl⟩
    · rcases List.mem_cons.1 hw with hw | hw
      · exfalso
        apply hnd.1
        have h1 := congrArg Prod.fst hw
        simp only at h1
        rw [← h1]
        exact List.mem_map.2 ⟨(k, v), hv, rfl⟩
      · exact eq_of_mem_of_nodup_keys rest k v w hnd.2 hv hw

/-- The map case of `Convert`, behind a pointer or not: see
`Convert_map_distinct_key_strings`. -/
theorem convertKind_map_distinct (st : GoValue) (addr : Bool) (es : List (GoKey × GoValue))
    (hkeys : (es.map (fun p => p.1.String)).Nodup)
    (hconv : ∀ p ∈ es, ∃ t, Convert p.2 = .ok t) :
    ∃ m, convertKind st addr (.map es) = .ok (mapField m) ∧
      m.map Prod.fst = es.map (fun p => p.1.String) ∧
      ∀ p ∈ es, ∃ t, Convert p.2 = .ok t ∧ mapGet m p.1.String = some t := by
  obtain ⟨ts, h1, h2, h3⟩ := convertEntries_distinct es [] (by simpa using hkeys) hconv
  simp only [List.nil_append] at h1
  have h1' : convertEntries es [] = .done (treeEntries ts) := h1
  refine ⟨ts, ?_, h2, ?_⟩
  · simp only [convertKind, h1', allTreeEntries_treeEntries, mapField]
  · intro p hp
    obtain ⟨t, ht, hmem⟩ := h3 p hp
    exact ⟨t, ht, mapGet_of_mem_nodup ts _ t (by rw [h2]; exact hkeys) hmem⟩

/-- A `map[string]interface{}` whose values all convert becomes a map Field
with the same keys. -/
theorem Convert_string_map (ds : List (String × GoValue))
    (hkeys : (ds.map Prod.fst).Nodup)
    (hconv : ∀ q ∈ ds, ∃ r, Convert q.2 = .ok r) :
    ∃ m, Convert (.direct (.map (ds.map (fun p => (GoKey.string p.1, p.2))))) =
        .ok (mapField m) ∧
      m.map Prod.fst = ds.map Prod.fst ∧
      ∀ q ∈ ds, ∃ r, Convert q.2 = .ok r ∧ mapGet m q.1 = some r := by
  have hk : (ds.map (fun p => (GoKey.string p.1, p.2))).map (fun p => p.1.String) =
      ds.map Prod.fst := by
    simp [Function.comp_def, GoKey.String]
  obtain ⟨m, h1, h2, h3⟩ := convertKind_map_distinct
    (.direct (.map (ds.map (fun p => (GoKey.string p.1, p.2))))) false
    (ds.map (fun p => (GoKey.string p.1, p.2))) (by rw [hk]; exact hkeys)
    (by
      intro p hp
      obtain ⟨q, hq, rfl⟩ := List.mem_map.1 hp
      exact hconv q hq)
  refine ⟨m, by simp only [Convert]; exact h1, by rw [h2, hk], ?_⟩
  intro q hq
  exact h3 (GoKey.string q.1, q.2) (List.mem_map.2 ⟨q, hq, rfl⟩)

theorem convertFields_trees : ∀ (fds : List (StructField × GoValue))
    (acc : List (String × Field)),
    (acc.map Prod.fst ++
      (fds.filter (fun p => p.1.exported)).map (fun p => p.1.publicName)).Nodup →
    (∀ p ∈ fds, p.1.exported = true → ∃ t, Convert p.2 = .ok t) →
    ∃ ts, convertFields fds (treeEntries acc) = .done (treeEntries (acc ++ ts)) ∧
      ts.map Prod.fst = (fds.filter (fun p => p.1.exported)).map (fun p => p.1.publicName) ∧
      ∀ p ∈ fds, p.1.exported = true →
        ∃ t, Convert p.2 = .ok t ∧ (p.1.publicName, t) ∈ ts
  | [], acc, _, _ => ⟨[], by simp [convertFields], by simp, by simp⟩
  | (sf, v) :: rest, acc, hnd, hconv => by
    by_cases hex : sf.exported = true
    · obtain ⟨t, ht⟩ := hconv (sf, v) (List.mem_cons_self _ _) hex
      simp only [List.filter_cons, hex, if_true, List.map_cons] at hnd
      have hnot : sf.publicName ∉ acc.map Prod.fst := by
        intro hmem
        have := (List.nodup_append.1 hnd).2.2
        exact this hmem (List.mem_cons_self _ _)
      have hnd' : ((acc ++ [(sf.publicName, t)]).map Prod.fst ++
          (rest.filter (fun p => p.1.exported)).map (fun p => p.1.publicName)).Nodup := by
        simpa using hnd
      obtain ⟨ts, h1, h2, h3⟩ := convertFields_trees rest (acc ++ [(sf.publicName, t)]) hnd'
        (fun p hp => hconv p (List.mem_cons_of_mem _ hp))
      refine ⟨(sf.publicName, t) :: ts, ?_, ?_, ?_⟩
      · simp only [convertFields, hex, if_true, ht, mapSet_treeEntries,
          mapSet_append_of_not_mem _ _ _ hnot, h1]
        simp
      · simp [List.filter_cons, hex, h2]
      · intro p hp hpe
        rcases List.mem_cons.1 hp with hp | hp
        · subst hp
          exact ⟨t, ht, List.mem_cons_self _ _⟩
        · obtain ⟨t', ht', hmem⟩ := h3 p hp hpe
          exact ⟨t', ht', List.mem_cons_of_mem _ hmem⟩
    · have hex' : sf.exported = false := by simpa using hex
      simp only [List.filter_cons, hex', Bool.false_eq_true, if_false] at hnd
      obtain ⟨ts, h1, h2, h3⟩ := convertFields_trees rest acc hnd
        (fun p hp => hconv p (List.mem_cons_of_mem _ hp))
      refine ⟨ts, ?_, ?_, ?_⟩
      · simp only [convertFields, hex', Bool.false_eq_true, if_false, h1]
      · simp [List.filter_cons, hex', h2]
      · intro p hp hpe
        rcases List.mem_cons.1 hp with hp | hp
        · subst hp
          exact absurd hpe hex
        · exact h3 p hp hpe

/-- The struct case of `Convert` when the exported fields convert to trees
without nil pointers. -/
theorem convertKind_struct_trees (st : GoValue) (addr : Bool)
    (fields : List (StructField × GoValue))
    (hnames : ((fields.filter (fun p => p.1.exported)).map (fun p => p.1.publicName)).Nodup)
    (hconv : ∀ p ∈ fields, p.1.exported = true → ∃ t, Convert p.2 = .ok t) :
    ∃ m, convertKind st addr (.struct fields) = .ok (mapField m) ∧
      m.map Prod.fst =
        (fields.filter (fun p => p.1.exported)).map (fun p => p.1.publicName) ∧
      ∀ p ∈ fields, p.1.exported = true →
        ∃ t, Convert p.2 = .ok t ∧ mapGet m p.1.publicName = some t := by
  obtain ⟨ts, h1, h2, h3⟩ := convertFields_trees fields [] (by simpa using hnames) hconv
  simp only [List.nil_append] at h1
  have h1' : convertFields fields [] = .done (treeEntries ts) := h1
  refine ⟨ts, ?_, h2, ?_⟩
  · simp only [convertKind, h1', allTreeEntries_treeEntries, mapField]
  · intro p hp hpe
    obtain ⟨t, ht, hmem⟩ := h3 p hp hpe
    exact ⟨t, ht, mapGet_of_mem_nodup ts _ t (by rw [h2]; exact hnames) hmem⟩

/-- Two maps with the same keys whose entries shadow each other. -/
theorem mapField_shadow (m r : List (String × Field)) (keys : List String)
    (hm : m.map Prod.fst = keys) (hr : (r.map Prod.fst).Perm keys)
    (hall : ∀ k ∈ keys, ∃ t t', mapGet m k = some t ∧ mapGet r k = some t' ∧
      t.JsonShadow t') :
    (mapField m).JsonShadow (mapField r) := by
  refine .map m r ?_ ?_
  · intro k
    rw [mapGet_eq_none_iff, mapGet_eq_none_iff, hm, hr.mem_iff]
  · intro k c c' hc hc'
    have hk : k ∈ keys := by
      by_contra hk
      rw [← hm] at hk
      rw [(mapGet_eq_none_iff m k).2 hk] at hc
      cases hc
    obtain ⟨t, t', ht, ht', hs⟩ := hall k hk
    rw [ht] at hc
    rw [ht'] at hc'
    simp only [Option.some.injEq] at hc hc'
    subst hc
    subst hc'
    exact hs

theorem publicName_of_plainTag (sf : StructField) (h : plainTag sf.jsonTag = true) :
    sf.publicName = sf.jsonTag := by
  unfold plainTag at h
  simp only [Bool.and_eq_true, decide_eq_true_eq] at h
  simp [StructField.publicName, h.1]

mutual
theorem Convert_shadow : ∀ (x d : GoValue), x.JsonImage d →
    ∃ t r, Convert x = .ok t ∧ Convert d = .ok r ∧ t.JsonShadow r
  | .nil, d, h => by
    simp only [GoValue.JsonImage] at h
    subst h
    exact ⟨newNilField, newNilField, rfl, rfl, .leaf _ _ rfl⟩
  | .fieldPtr _, _, h => by simp [GoValue.JsonImage] at h
  | .nilFieldPtr, _, h => by simp [GoValue.JsonImage] at h
  | .fieldPtrNilInside _, _, h => by simp [GoValue.JsonImage] at h
  | .field _, _, h => by simp [GoValue.JsonImage] at h
  | .fieldNilInside _, _, h => by simp [GoValue.JsonImage] at h
  | .nilPointer, _, h => by simp [GoValue.JsonImage] at h
  | .pointer elem, d, h => by
    simp only [GoValue.JsonImage] at h
    simp only [Convert]
    exact convertKind_shadow elem _ _ d h
  | .direct val, d, h => by
    simp only [GoValue.JsonImage] at h
    simp only [Convert]
    exact convertKind_shadow val _ _ d h
theorem convertKind_shadow : ∀ (val : GoVal) (st : GoValue) (addr : Bool) (d : GoValue),
    val.JsonImage d →
    ∃ t r, convertKind st addr val = .ok t ∧ Convert d = .ok r ∧ t.JsonShadow r
  | .int _ i, _, _, d, h => by
    simp only [GoVal.JsonImage] at h
    subst h
    exact ⟨_, _, rfl, rfl, .leaf _ _ rfl⟩
  | .uint _ n, _, _, d, h => by
    simp only [GoVal.JsonImage] at h
    subst h
    exact ⟨_, _, rfl, rfl, .leaf _ _ rfl⟩
  | .float .float32 _, _, _, _, h => by simp [GoVal.JsonImage] at h
  | .float .float64 x, _, _, d, h => by
    simp only [GoVal.JsonImage] at h
    obtain ⟨_, h⟩ := h
    subst h
    exact ⟨_, _, rfl, rfl, .leaf _ _ rfl⟩
  | .string s, _, _, d, h => by
    simp only [GoVal.JsonImage] at h
    subst h
    exact ⟨_, _, rfl, rfl, .leaf _ _ rfl⟩
  | .bool b, _, _, d, h => by
    simp only [GoVal.JsonImage] at h
    subst h
    exact ⟨_, _, rfl, rfl, .leaf _ _ rfl⟩
  | .bytes true _, _, _, _, h => by simp [GoVal.JsonImage] at h
  | .bytes false bs, _, addr, d, h => by
    simp only [GoVal.JsonImage] at h
    obtain ⟨_, h⟩ := h
    subst h
    refine ⟨_, _, ?_, rfl, .leaf (bytesField bs) _ rfl⟩
    simp [convertKind, reflectBytes, bytesField]
  | .seq xs, _, _, d, h => by
    simp only [GoVal.JsonImage] at h
    obtain ⟨_, ds, hd, himg⟩ := h
    subst hd
    obtain ⟨fs, rs, hfs, hrs, hlen, hall⟩ := elems_shadow xs ds himg
    refine ⟨arrayField fs, arrayField rs, ?_, ?_, .array fs rs hlen hall⟩
    · simp only [convertKind, hfs, allTrees_map_tree, arrayField]
    · simp only [Convert, convertKind, hrs, allTrees_map_tree, arrayField]
  | .map es, st, addr, d, h => by
    simp only [GoVal.JsonImage] at h
    obtain ⟨_, hnd, ds, hd, hperm, himg⟩ := h
    subst hd
    have hent := entries_shadow es ds himg
    have hndd : (ds.map Prod.fst).Nodup := hperm.nodup_iff.2 hnd
    obtain ⟨m, hm1, hm2, hm3⟩ := convertKind_map_distinct st addr es hnd (by
      intro p hp
      obtain ⟨s, d, t, r, _, _, ht, _, _⟩ := hent p hp
      exact ⟨t, ht⟩)
    obtain ⟨r, hr1, hr2, hr3⟩ := Convert_string_map ds hndd (by
      intro q hq
      have hq1 : q.1 ∈ es.map (fun p => p.1.String) :=
        hperm.mem_iff.1 (List.mem_map.2 ⟨q, hq, rfl⟩)
      obtain ⟨p, hp, hpk⟩ := List.mem_map.1 hq1
      obtain ⟨s, d, t, r, hs, hmem, _, hr, _⟩ := hent p hp
      have hsq : s = q.1 := by
        rw [← hpk, hs]
        rfl
      subst hsq
      have := eq_of_mem_of_nodup_keys ds q.1 d q.2 hndd hmem hq
      subst this
      exact ⟨r, hr⟩)
    refine ⟨mapField m, mapField r, hm1, hr1,
      mapField_shadow m r (es.map (fun p => p.1.String)) hm2 (by rw [hr2]; exact hperm) ?_⟩
    intro k hk
    obtain ⟨p, hp, hpk⟩ := List.mem_map.1 hk
    obtain ⟨s, d, t, r', hs, hmem, ht, hr', hsh⟩ := hent p hp
    obtain ⟨t0, ht0, hg⟩ := hm3 p hp
    obtain ⟨r0, hr0, hg'⟩ := hr3 (s, d) hmem
    rw [ht] at ht0
    rw [hr'] at hr0
    simp only [ConvertResult.ok.injEq] at ht0 hr0
    subst ht0
    subst hr0
    have hsk : s = k := by
      rw [← hpk, hs]
      rfl
    subst hsk
    refine ⟨t, r', ?_, hg', hsh⟩
    rw [← hpk]
    exact hg
  | .struct fields, st, addr, d, h => by
    simp only [GoVal.JsonImage] at h
    obtain ⟨hnd, ds, hd, hperm, himg⟩ := h
    subst hd
    have hent := fields_shadow fields ds himg
    have hndd : (ds.map Prod.fst).Nodup := hperm.nodup_iff.2 hnd
    have hfil : fields.filter (fun p => p.1.exported) = fields :=
      List.filter_eq_self.2 (fun p hp => (hent p hp).1)
    have hnames : (fields.filter (fun p => p.1.exported)).map (fun p => p.1.publicName) =
        fields.map (fun p => p.1.jsonTag) := by
      rw [hfil]
      apply List.map_congr_left
      intro p hp
      exact publicName_of_plainTag p.1 (hent p hp).2.1
    obtain ⟨m, hm1, hm2, hm3⟩ := convertKind_struct_trees st addr fields
      (by rw [hnames]; exact hnd) (by
      intro p hp hpe
      obtain ⟨_, _, d, t, r, _, ht, _, _⟩ := hent p hp
      exact ⟨t, ht⟩)
    obtain ⟨r, hr1, hr2, hr3⟩ := Convert_string_map ds hndd (by
      intro q hq
      have hq1 : q.1 ∈ fields.map (fun p => p.1.jsonTag) :=
        hperm.mem_iff.1 (List.mem_map.2 ⟨q, hq, rfl⟩)
      obtain ⟨p, hp, hpk⟩ := List.mem_map.1 hq1
      obtain ⟨_, _, d, t, r, hmem, _, hr, _⟩ := hent p hp
      rw [hpk] at hmem
      have := eq_of_mem_of_nodup_keys ds q.1 d q.2 hndd hmem hq
      subst this
      exact ⟨r, hr⟩)
    refine ⟨mapField m, mapField r, hm1, hr1,
      mapField_shadow m r _ (hm2.trans hnames) (by rw [hr2]; exact hperm) ?_⟩
    intro k hk
    obtain ⟨p, hp, hpk⟩ := List.mem_map.1 hk
    obtain ⟨hpe, hplain, d, t, r', hmem, ht, hr', hsh⟩ := hent p hp
    obtain ⟨t0, ht0, hg⟩ := hm3 p hp hpe
    obtain ⟨r0, hr0, hg'⟩ := hr3 (p.1.jsonTag, d) hmem
    rw [ht] at ht0
    rw [hr'] at hr0
    simp only [ConvertResult.ok.injEq] at ht0 hr0
    subst ht0
    subst hr0
    rw [publicName_of_plainTag p.1 hplain, hpk] at hg
    rw [hpk] at hg'
    exact ⟨t, r', hg, hg', hsh⟩
  | .other _, _, _, _, h => by simp [GoVal.JsonImage] at h
theorem elems_shadow : ∀ (xs ds : List GoValue), elemsJsonImage xs ds →
    ∃ fs rs : List Field, convertElems xs = .done (fs.map Child.tree) ∧
      convertElems ds = .done (rs.map Child.tree) ∧ fs.length = rs.length ∧
      ∀ (i : Nat) (h1 : i < fs.length) (h2 : i < rs.length),
        (fs.get ⟨i, h1⟩).JsonShadow (rs.get ⟨i, h2⟩)
  | [], [], _ => ⟨[], [], rfl, rfl, rfl, fun i h1 _ => absurd h1 (by simp)⟩
  | [], _ :: _, h => by simp [elemsJsonImage] at h
  | _ :: _, [], h => by simp [elemsJsonImage] at h
  | x :: xs, d :: ds, h => by
    simp only [elemsJsonImage] at h
    obtain ⟨t, r, ht, hr, hsh⟩ := Convert_shadow x d h.1
    obtain ⟨fs, rs, hfs, hrs, hlen, hall⟩ := elems_shadow xs ds h.2
    refine ⟨t :: fs, r :: rs, ?_, ?_, by simp [hlen], ?_⟩
    · simp only [convertElems, ht, hfs, List.map_cons]
    · simp only [convertElems, hr, hrs, List.map_cons]
    · intro i h1 h2
      cases i with
      | zero => exact hsh
      | succ i =>
        simp only [List.get_eq_getElem, List.getElem_cons_succ]
        have := hall i (by simpa using h1) (by simpa using h2)
        simpa only [List.get_eq_getElem] using this
theorem entries_shadow : ∀ (es : List (GoKey × GoValue)) (ds : List (String × GoValue)),
    entriesJsonImage es ds →
    ∀ p ∈ es, ∃ (s : String) (d : GoValue) (t r : Field), p.1 = .string s ∧ (s, d) ∈ ds ∧
      Convert p.2 = .ok t ∧ Convert d = .ok r ∧ t.JsonShadow r
  | [], _, _ => by simp
  | (k, v) :: rest, ds, h => by
    simp only [entriesJsonImage] at h
    obtain ⟨⟨s, d, hk, hmem, himg⟩, hrest⟩ := h
    intro p hp
    rcases List.mem_cons.1 hp with hp | hp
    · subst hp
      obtain ⟨t, r, ht, hr, hsh⟩ := Convert_shadow v d himg
      exact ⟨s, d, t, r, hk, hmem, ht, hr, hsh⟩
    · exact entries_shadow rest ds hrest p hp
theorem fields_shadow : ∀ (fds : List (StructField × GoValue)) (ds : List (String × GoValue)),
    fieldsJsonImage fds ds →
    ∀ p ∈ fds, p.1.exported = true ∧ plainTag p.1.jsonTag = true ∧
      ∃ (d : GoValue) (t r : Field), (p.1.jsonTag, d) ∈ ds ∧
        Convert p.2 = .ok t ∧ Convert d = .ok r ∧ t.JsonShadow r
  | [], _, _ => by simp
  | (sf, v) :: rest, ds, h => by
    simp only [fieldsJsonImage] at h
    obtain ⟨⟨hex, hplain, d, hmem, himg⟩, hrest⟩ := h
    intro p hp
    rcases List.mem_cons.1 hp with hp | hp
    · subst hp
      obtain ⟨t, r, ht, hr, hsh⟩ := Convert_shadow v d himg
      exact ⟨hex, hplain, d, t, r, hmem, ht, hr, hsh⟩
    · exact fields_shadow rest ds hrest p hp
end

/-- C18, the claim as stated fails. The JSON encoding of the int `5` is the text
`5`, which `json.Unmarshal` decodes into an `interface{}` as `float64(5)`: the
round trip yields a `float` leaf where `Convert(5)` has an `int` leaf. The JSON
encoding of the byte slice `{1, 2, 3}` is the base64 text `"AQID"`, which
decodes to a string: the round trip yields a `string` leaf where
`Convert([]byte{1, 2, 3})` has a bytes leaf. -/
theorem ByteToField_changes_leaf_types :
    (GoValue.direct (.int .int 5)).JsonImage (.direct (.float .float64 (Float64.ofNat 5))) ∧
    (GoValue.direct (.bytes false [1, 2, 3])).JsonImage (.direct (.string "AQID")) ∧
    Convert (.direct (.int .int 5)) = .ok (intField 5) ∧
    Convert (.direct (.bytes false [53])) = .ok (bytesField [53]) ∧
    (bytesField [53]).ByteToField
        (decodesTo [53] (.direct (.float .float64 (Float64.ofNat 5))))
        (fun _ => "") (fun _ => "") = .ret (.tree (floatField (Float64.ofNat 5))) ∧
    (floatField (Float64.ofNat 5)).typ ≠ (intField 5).typ ∧
    Convert (.direct (.bytes false [1, 2, 3])) = .ok (bytesField [1, 2, 3]) ∧
    (bytesField [34, 65, 81, 73, 68, 34]).ByteToField
        (decodesTo [34, 65, 81, 73, 68, 34] (.direct (.string "AQID")))
        (fun _ => "") (fun _ => "") = .ret (.tree (stringField "AQID")) ∧
    (stringField "AQID").typ ≠ (bytesField [1, 2, 3]).typ :=
  ⟨rfl, ⟨by simp, rfl⟩, rfl, rfl, rfl, by decide, rfl, rfl, by decide⟩

/-- C18, amended. Let `d` be the value `json.Unmarshal` stores for the JSON
encoding `j` of `x` (`x.JsonImage d` says which value that is, on the inputs
described at `GoVal.JsonImage`). Then `Convert(x)` succeeds with a tree `t`,
converting `j` gives a bytes Field, and `ByteToField` on it returns a tree `r`
of the same shape as `t`: arrays of the same length, maps with the same keys,
and each leaf of `r` has the Type and the value of the leaf of `t` at the same
place, except that an `int` or `uint` leaf comes back as a `float` leaf that
holds the nearest `float64`, and a bytes leaf as a `string` leaf that holds
the base64 text. -/
theorem ByteToField_round_trip (unmarshal : List (Fin 256) → Except String GoValue)
    (convertErrorText : GoValue → String) (showValue : Payload → String)
    (x d : GoValue) (j : List (Fin 256))
    (himg : x.JsonImage d) (hdec : unmarshal j = .ok d) :
    Convert (.direct (.bytes false j)) = .ok (bytesField j) ∧
    ∃ t r, Convert x = .ok t ∧
      (bytesField j).ByteToField unmarshal convertErrorText showValue = .ret (.tree r) ∧
      t.JsonShadow r := by
  refine ⟨rfl, ?_⟩
  have hE : (bytesField j).Error = none := rfl
  have hty : (bytesField j).typ = "[]byte" := rfl
  have hva : (bytesField j).Value = .bytes j := rfl
  obtain ⟨t, r, ht, hr, hsh⟩ := Convert_shadow x d himg
  exact ⟨t, r, ht, by simp [Field.ByteToField, hE, hty, hva, hdec, hr], hsh⟩

/-- The Types on the two sides of `JsonShadow`: the same, but `float` for `int`
and `uint`, and `string` for `[]byte`. -/
theorem JsonShadow_typ (t r : Field) (h : t.JsonShadow r) :
    r.typ = (if t.typ = "int" ∨ t.typ = "uint" then "float"
      else if t.typ = "[]byte" then "string" else t.typ) := by
  cases h with
  | leaf _ _ h =>
    unfold leafShadow at h
    split at h
    · rename_i h1
      split at h
      · simp only [Option.some.injEq] at h
        subst h
        simp [h1]
      · cases h
    · rename_i h1
      split at h
      · rename_i h2
        split at h
        · simp only [Option.some.injEq] at h
          subst h
          simp [h2]
        · cases h
      · rename_i h2
        split at h
        · rename_i h3
          split at h
          · simp only [Option.some.injEq] at h
            subst h
            simp [h1, h2, h3]
          · cases h
        · rename_i h3
          split at h
          · simp only [Option.some.injEq] at h
            subst h
            simp [h1, h2, h3]
          · cases h
  | array fs rs _ _ => simp
  | map m r _ _ => simp

theorem ByteToField_round_trip_witness :
    mixedInput.JsonImage mixedDecoded ∧
    Convert mixedInput =
      .ok (mapField [("n", intField 5), ("b", bytesField [1, 2, 3]),
                     ("m", mapField [("s", arrayField [stringField "a", boolField true]),
                                     ("z", newNilField)])]) ∧
    (bytesField mixedJson).ByteToField (decodesTo mixedJson mixedDecoded)
        (fun _ => "") (fun _ => "") =
      .ret (.tree (mapField [("b", stringField "AQID"),
                             ("m", mapField [("s", arrayField [stringField "a", boolField true]),
                                             ("z", newNilField)]),
                             ("n", floatField (Float64.ofInt 5))])) ∧
    ∃ t r, Convert mixedInput = .ok t ∧
      (bytesField mixedJson).ByteToField (decodesTo mixedJson mixedDecoded)
        (fun _ => "") (fun _ => "") = .ret (.tree r) ∧
      t.JsonShadow r :=
  have hinner : GoVal.JsonImage
      (.map [(.string "s", .direct (.seq [.direct (.string "a"), .direct (.bool true)])),
             (.string "z", .nil)])
      (.direct (.map [(.string "s", .direct (.seq [.direct (.string "a"),
                                                   .direct (.bool true)])),
                      (.string "z", .nil)])) := by
    simp only [GoVal.JsonImage]
    refine ⟨by simp, by decide,
      [("s", .direct (.seq [.direct (.string "a"), .direct (.bool true)])), ("z", .nil)],
      rfl, by decide, ?_⟩
    simp only [entriesJsonImage, GoValue.JsonImage, GoVal.JsonImage]
    refine ⟨⟨"s", .direct (.seq [.direct (.string "a"), .direct (.bool true)]), rfl, by simp,
        by simp, [.direct (.string "a"), .direct (.bool true)], rfl, ?_⟩,
      ⟨"z", .nil, rfl, by simp, rfl⟩, trivial⟩
    simp [elemsJsonImage, GoValue.JsonImage, GoVal.JsonImage]
  have himg : mixedInput.JsonImage mixedDecoded := by
    simp only [mixedInput, mixedDecoded, GoValue.JsonImage, GoVal.JsonImage]
    refine ⟨by decide,
      [("b", .direct (.string "AQID")),
       ("m", .direct (.map [(.string "s", .direct (.seq [.direct (.string "a"),
                                                         .direct (.bool true)])),
                            (.string "z", .nil)])),
       ("n", .direct (.float .float64 (Float64.ofInt 5)))],
      rfl, by decide, ?_⟩
    simp only [fieldsJsonImage]
    exact ⟨⟨trivial, by decide, .direct (.float .float64 (Float64.ofInt 5)), by simp, rfl⟩,
      ⟨trivial, by decide, .direct (.string "AQID"), by simp, ⟨by simp, rfl⟩⟩,
      ⟨trivial, by decide, _, by simp, hinner⟩, trivial⟩
  ⟨himg, rfl, rfl,
    (ByteToField_round_trip (decodesTo mixedJson mixedDecoded) (fun _ => "") (fun _ => "")
      mixedInput mixedDecoded mixedJson himg rfl).2⟩

end GoConvert
